import Mathlib

/-! # tendermint-cas-demo: the CAS state engine and its ABCI adapter

A shallow embedding of `internal/cas/state.go` and `internal/cas/application.go`.

* Go `string` and `[]byte` are byte sequences; a `[]byte` may also be nil.
* A Go `map[string][]byte` is an association list with pairwise distinct keys, in
  an arbitrary order (Go leaves the iteration order open); the map itself may be nil.
* `int64` is an `Int` kept in range by `wrapInt64`.
* A run-time panic is the `error` side of `Except Panic`.
* The mutexes are not modelled: every method holds its lock for its whole body,
  so the methods of one engine are taken one at a time.
* The pieces of the Go standard library the code calls (`bytes`, `encoding/json`,
  `encoding/base64`, `unicode/utf8`, `strconv`, `crypto/sha256`, `io`) are
  modelled by executable definitions below.
-/

namespace Cas

set_option maxRecDepth 100000

/-! ## Bytes, slices, strings -/

abbrev Byte := Fin 256

abbrev Bytes := List Byte

/-- A Go `[]byte`: `none` is the nil slice, `some b` a non-nil slice holding `b`. -/
abbrev ByteSlice := Option Bytes

/-- A Go `string`: an immutable byte sequence. -/
abbrev GoString := Bytes

/-- The bytes held by a slice (none for the nil slice). -/
def sliceBytes : ByteSlice → Bytes
  | none => []
  | some b => b

/-- Go `bytes.Equal`: equal lengths and equal bytes; a nil slice equals an empty one. -/
def bytesEqual (a b : ByteSlice) : Bool :=
  decide (sliceBytes a = sliceBytes b)

/-- The bytes of an ASCII text (used to write inputs down). -/
def ascii (s : String) : Bytes :=
  s.data.map (fun c => Fin.ofNat c.toNat)

/-! ## Errors and panics -/

/-- Go `error` values that occur in the engine and the library calls it makes. -/
inductive Error where
  /-- `ErrCASFailure` of state.go. -/
  | ErrCASFailure
  /-- `ErrKeyNotFound` of state.go. -/
  | ErrKeyNotFound
  /-- `io.ErrShortWrite`. -/
  | ErrShortWrite
  /-- `io.EOF`. -/
  | EOF
  /-- `io.ErrUnexpectedEOF`. -/
  | ErrUnexpectedEOF
  /-- `*json.SyntaxError`. -/
  | SyntaxError
  /-- `*json.UnmarshalTypeError`. -/
  | UnmarshalTypeError
  /-- `base64.CorruptInputError`. -/
  | CorruptInputError
  /-- An error produced by an external writer or closer. -/
  | External (code : Nat)
  deriving DecidableEq, Repr

deriving instance DecidableEq for Except

/-- Run-time panics. -/
inductive Panic where
  /-- Go run time: "assignment to entry in nil map". -/
  | assignmentToNilMap
  /-- The explicit `panic` of `Application.Commit`. -/
  | commitFailed (err : Error)
  deriving DecidableEq, Repr

/-! ## Go maps -/

/-- Value stored under `k` in an association list, if any. -/
def assocGet (k : GoString) : List (GoString × ByteSlice) → Option ByteSlice
  | [] => none
  | e :: es => if e.1 = k then some e.2 else assocGet k es

/-- Store `v` under `k`: overwrite the entry of `k`, or add one. -/
def assocSet (k : GoString) (v : ByteSlice) :
    List (GoString × ByteSlice) → List (GoString × ByteSlice)
  | [] => [(k, v)]
  | e :: es => if e.1 = k then (k, v) :: es else e :: assocSet k v es

theorem assocSet_keys_mem (k : GoString) (v : ByteSlice) (x : GoString) :
    ∀ es : List (GoString × ByteSlice),
      x ∈ (assocSet k v es).map Prod.fst ↔ x = k ∨ x ∈ es.map Prod.fst
  | [] => by simp [assocSet]
  | e :: es => by
      by_cases h : e.1 = k
      · simp only [assocSet, h, if_true, List.map_cons, List.mem_cons]
        tauto
      · simp only [assocSet, h, if_false, List.map_cons, List.mem_cons,
          assocSet_keys_mem k v x es]
        tauto

theorem assocSet_nodup (k : GoString) (v : ByteSlice) :
    ∀ es : List (GoString × ByteSlice),
      (es.map Prod.fst).Nodup → ((assocSet k v es).map Prod.fst).Nodup
  | [], _ => by simp [assocSet]
  | e :: es, h => by
      rw [List.map_cons, List.nodup_cons] at h
      by_cases hk : e.1 = k
      · simp only [assocSet, hk, if_true, List.map_cons, List.nodup_cons]
        exact ⟨hk ▸ h.1, h.2⟩
      · simp only [assocSet, hk, if_false, List.map_cons, List.nodup_cons]
        refine ⟨?_, assocSet_nodup k v es h.2⟩
        rw [assocSet_keys_mem]
        rintro (h1 | h1)
        · exact hk h1
        · exact h.1 h1

/-- A non-nil Go `map[string][]byte`. -/
structure GoMap where
  entries : List (GoString × ByteSlice)
  nodup : (entries.map Prod.fst).Nodup
  deriving DecidableEq

/-- Go `map[string][]byte{}` and `make(map[string][]byte, n)`. -/
def GoMap.empty : GoMap := ⟨[], List.nodup_nil⟩

/-- Go `m[k] = v` on a non-nil map. -/
def GoMap.set (m : GoMap) (k : GoString) (v : ByteSlice) : GoMap :=
  ⟨assocSet k v m.entries, assocSet_nodup k v m.entries m.nodup⟩

/-- Go `v, ok := m[k]` on a possibly nil map: `none` when `ok` is false. -/
def mapIndex (m : Option GoMap) (k : GoString) : Option ByteSlice :=
  match m with
  | none => none
  | some m => assocGet k m.entries

/-! ## state.go: the state engine -/

/-- The struct `State` of state.go (without its mutex). -/
structure State where
  data : Option GoMap
  commitCount : Int
  lastCommitHash : ByteSlice
  deriving DecidableEq

/-- `NewState` of state.go. -/
def NewState : State :=
  { data := some GoMap.empty, commitCount := 0, lastCommitHash := none }

/-- `State.Get` of state.go. -/
def State.Get (s : State) (key : GoString) : ByteSlice × Option Error :=
  match mapIndex s.data key with
  | none => (none, some Error.ErrKeyNotFound)
  | some v => (v, none)

/-- `State.CompareAndSwap` of state.go: the new state and the returned error, or the
panic of the map assignment when the map is nil. -/
def State.CompareAndSwap (s : State) (key : GoString) (old new : ByteSlice) :
    Except Panic (State × Option Error) :=
  let current : ByteSlice := (mapIndex s.data key).getD none
  if !bytesEqual current old then
    .ok (s, some Error.ErrCASFailure)
  else
    match s.data with
    | none => .error Panic.assignmentToNilMap
    | some m => .ok ({ s with data := some (m.set key new) }, none)

/-- `State.Commits` of state.go. -/
def State.Commits (s : State) : Int := s.commitCount

/-- `State.Hash` of state.go. -/
def State.Hash (s : State) : ByteSlice := s.lastCommitHash

/-! ## unicode/utf8 -/

/-- The rune `utf8.RuneError` (U+FFFD). -/
def runeError : Nat := 0xFFFD

/-- A UTF-8 continuation byte, 0x80 to 0xBF. -/
def isCont (b : Byte) : Bool := 0x80 ≤ b.val && b.val ≤ 0xBF

/-- Go `utf8.DecodeRune`: the first rune and its width in bytes; `(RuneError, 1)` for
an invalid or truncated encoding and `(RuneError, 0)` for no input. -/
def decodeRune : Bytes → Nat × Nat
  | [] => (runeError, 0)
  | b0 :: rest =>
    let x := b0.val
    if x < 0x80 then (x, 1)
    else if x < 0xC2 then (runeError, 1)
    else if x < 0xE0 then
      match rest with
      | b1 :: _ =>
        if isCont b1 then ((x % 32) * 64 + b1.val % 64, 2) else (runeError, 1)
      | _ => (runeError, 1)
    else if x < 0xF0 then
      match rest with
      | b1 :: b2 :: _ =>
        let lo := if x = 0xE0 then 0xA0 else 0x80
        let hi := if x = 0xED then 0x9F else 0xBF
        if lo ≤ b1.val && b1.val ≤ hi && isCont b2 then
          (((x % 16) * 64 + b1.val % 64) * 64 + b2.val % 64, 3)
        else (runeError, 1)
      | _ => (runeError, 1)
    else if x < 0xF5 then
      match rest with
      | b1 :: b2 :: b3 :: _ =>
        let lo := if x = 0xF0 then 0x90 else 0x80
        let hi := if x = 0xF4 then 0x8F else 0xBF
        if lo ≤ b1.val && b1.val ≤ hi && isCont b2 && isCont b3 then
          ((((x % 8) * 64 + b1.val % 64) * 64 + b2.val % 64) * 64 + b3.val % 64, 4)
        else (runeError, 1)
      | _ => (runeError, 1)
    else (runeError, 1)

/-- Go `utf8.EncodeRune`; surrogates and values past U+10FFFF become U+FFFD. -/
def encodeRune (r : Nat) : Bytes :=
  if r < 0x80 then [Fin.ofNat r]
  else if r < 0x800 then [Fin.ofNat (0xC0 + r / 64), Fin.ofNat (0x80 + r % 64)]
  else if (0xD800 ≤ r ∧ r ≤ 0xDFFF) ∨ 0x10FFFF < r then [0xEF, 0xBF, 0xBD]
  else if r < 0x10000 then
    [Fin.ofNat (0xE0 + r / 4096), Fin.ofNat (0x80 + r / 64 % 64), Fin.ofNat (0x80 + r % 64)]
  else
    [Fin.ofNat (0xF0 + r / 262144), Fin.ofNat (0x80 + r / 4096 % 64),
     Fin.ofNat (0x80 + r / 64 % 64), Fin.ofNat (0x80 + r % 64)]

/-! ## strconv, encoding/base64 -/

/-- The decimal digits of `n` put in front of `acc`; the first argument bounds the
number of digits. -/
def formatNatAux : Nat → Nat → Bytes → Bytes
  | 0, _, acc => acc
  | fuel + 1, n, acc =>
    if n < 10 then Fin.ofNat (0x30 + n) :: acc
    else formatNatAux fuel (n / 10) (Fin.ofNat (0x30 + n % 10) :: acc)

/-- Decimal digits of a natural number. -/
def formatNat (n : Nat) : Bytes := formatNatAux (n + 1) n []

/-- Go `strconv.AppendInt(_, i, 10)`. -/
def formatInt (i : Int) : Bytes :=
  if i < 0 then 0x2D :: formatNat i.natAbs else formatNat i.toNat

/-- The `n`-th character of the standard base64 alphabet. -/
def b64Char (n : Nat) : Byte :=
  if n < 26 then Fin.ofNat (0x41 + n)
  else if n < 52 then Fin.ofNat (0x61 + (n - 26))
  else if n < 62 then Fin.ofNat (0x30 + (n - 52))
  else if n = 62 then 0x2B
  else 0x2F

/-- Go `base64.StdEncoding.EncodeToString`: standard alphabet, `=` padding. -/
def base64Encode : Bytes → Bytes
  | [] => []
  | [a] => [b64Char (a.val / 4), b64Char (a.val % 4 * 16), 0x3D, 0x3D]
  | [a, b] =>
    [b64Char (a.val / 4), b64Char (a.val % 4 * 16 + b.val / 16), b64Char (b.val % 16 * 4), 0x3D]
  | a :: b :: c :: rest =>
    b64Char (a.val / 4) :: b64Char (a.val % 4 * 16 + b.val / 16) ::
      b64Char (b.val % 16 * 4 + c.val / 64) :: b64Char (c.val % 64) :: base64Encode rest

/-! ## encoding/json: encoding -/

/-- Lower-case hexadecimal digit. -/
def hexDigit (n : Nat) : Byte :=
  if n < 10 then Fin.ofNat (0x30 + n) else Fin.ofNat (0x61 + (n - 10))

/-- The table `htmlSafeSet` of encoding/json: the ASCII bytes written as they are. -/
def htmlSafe (b : Byte) : Bool :=
  0x20 ≤ b.val && b.val < 0x80 && b.val != 0x22 && b.val != 0x26 && b.val != 0x3C &&
    b.val != 0x3E && b.val != 0x5C

/-- How `encodeState.string` writes one ASCII byte (with HTML escaping on, the
default of an `Encoder`). -/
def escapeAscii (b : Byte) : Bytes :=
  if htmlSafe b then [b]
  else if b.val = 0x5C ∨ b.val = 0x22 then [0x5C, b]
  else if b.val = 0x0A then [0x5C, 0x6E]
  else if b.val = 0x0D then [0x5C, 0x72]
  else if b.val = 0x09 then [0x5C, 0x74]
  else [0x5C, 0x75, 0x30, 0x30, hexDigit (b.val / 16), hexDigit (b.val % 16)]

/-- The loop of `encodeState.string`. The first argument counts the bytes of the
current multi-byte rune still ahead, the second says whether they are copied. -/
def encodeStringFrom : Nat → Bool → Bytes → Bytes
  | _, _, [] => []
  | n + 1, keep, b :: rest => (if keep then [b] else []) ++ encodeStringFrom n keep rest
  | 0, _, b :: rest =>
    if b.val < 0x80 then escapeAscii b ++ encodeStringFrom 0 true rest
    else
      let rs := decodeRune (b :: rest)
      if rs.2 ≤ 1 then
        [0x5C, 0x75, 0x66, 0x66, 0x66, 0x64] ++ encodeStringFrom 0 true rest
      else if rs.1 = 0x2028 ∨ rs.1 = 0x2029 then
        [0x5C, 0x75, 0x32, 0x30, 0x32, hexDigit (rs.1 % 16)] ++
          encodeStringFrom (rs.2 - 1) false rest
      else b :: encodeStringFrom (rs.2 - 1) true rest

/-- Go `encodeState.string(s, true)`: a quoted JSON string; bytes that are not valid
UTF-8 are each written as `\ufffd`. -/
def encodeString (s : GoString) : Bytes :=
  0x22 :: (encodeStringFrom 0 true s ++ [0x22])

/-- Go `<` on strings: byte-wise lexicographic order (here `≤`). -/
def strLE : Bytes → Bytes → Bool
  | [], _ => true
  | _ :: _, [] => false
  | a :: as, b :: bs => decide (a < b) || (decide (a = b) && strLE as bs)

/-- Order of map entries by key. -/
def entryLE (a b : GoString × ByteSlice) : Prop := strLE a.1 b.1 = true

instance entryLE.decidable : DecidableRel entryLE :=
  fun a b => inferInstanceAs (Decidable (strLE a.1 b.1 = true))

/-- The struct `serializationFormat` of state.go. -/
structure serializationFormat where
  Data : Option GoMap
  CommitCount : Int
  deriving DecidableEq

/-- JSON of a `[]byte`: `null` for nil, else the base64 text in quotes. -/
def encodeValue : ByteSlice → Bytes
  | none => [0x6E, 0x75, 0x6C, 0x6C]
  | some b => 0x22 :: (base64Encode b ++ [0x22])

/-- JSON of one map entry, `"key":value`. -/
def encodeEntry (e : GoString × ByteSlice) : Bytes :=
  encodeString e.1 ++ 0x3A :: encodeValue e.2

/-- JSON of a `map[string][]byte`: `null` for a nil map, else an object whose
members are sorted by key (encoding/json sorts the keys before writing them). -/
def encodeMap : Option GoMap → Bytes
  | none => [0x6E, 0x75, 0x6C, 0x6C]
  | some m =>
    0x7B :: (List.intercalate [0x2C] ((m.entries.insertionSort entryLE).map encodeEntry)
      ++ [0x7D])

/-- Go `json.NewEncoder(w).Encode(v)` for a `serializationFormat`: the bytes handed
to `w.Write` in one call, the JSON object followed by a newline. -/
def jsonEncode (v : serializationFormat) : Bytes :=
  0x7B :: (ascii "\"data\":" ++ encodeMap v.Data ++ ascii ",\"commit_count\":" ++
    formatInt v.CommitCount ++ [0x7D, 0x0A])

/-! ## crypto/sha256 -/

/-- The round constants of SHA-256. -/
def sha256K : List Nat :=
  [1116352408, 1899447441, 3049323471, 3921009573, 961987163, 1508970993, 2453635748,
   2870763221, 3624381080, 310598401, 607225278, 1426881987, 1925078388, 2162078206,
   2614888103, 3248222580, 3835390401, 4022224774, 264347078, 604807628, 770255983,
   1249150122, 1555081692, 1996064986, 2554220882, 2821834349, 2952996808, 3210313671,
   3336571891, 3584528711, 113926993, 338241895, 666307205, 773529912, 1294757372,
   1396182291, 1695183700, 1986661051, 2177026350, 2456956037, 2730485921, 2820302411,
   3259730800, 3345764771, 3516065817, 3600352804, 4094571909, 275423344, 430227734,
   506948616, 659060556, 883997877, 958139571, 1322822218, 1537002063, 1747873779,
   1955562222, 2024104815, 2227730452, 2361852424, 2428436474, 2756734187, 3204031479,
   3329325298]

/-- The initial hash value of SHA-256. -/
def sha256Init : List Nat :=
  [1779033703, 3144134277, 1013904242, 2773480762, 1359893119, 2600822924, 528734635,
   1541459225]

/-- Rotate a 32-bit word right by `n` bits. -/
def rotr32 (x n : Nat) : Nat := (x >>> n ||| x <<< (32 - n)) % 2 ^ 32

/-- Big-endian bytes of a number, `n` of them. -/
def bigEndian : Nat → Nat → Bytes
  | 0, _ => []
  | n + 1, x => Fin.ofNat (x / 256 ^ n) :: bigEndian n x

/-- Big-endian 32-bit words of a byte sequence whose length is a multiple of 4. -/
def wordsOf : Bytes → List Nat
  | a :: b :: c :: d :: rest =>
    (((a.val * 256 + b.val) * 256 + c.val) * 256 + d.val) :: wordsOf rest
  | _ => []

/-- The message with the padding of SHA-256: a 1 bit, zeros, the bit length. -/
def sha256Pad (msg : Bytes) : Bytes :=
  msg ++ 0x80 :: (List.replicate ((119 - msg.length % 64) % 64) 0 ++
    bigEndian 8 (8 * msg.length))

/-- Extends a message schedule, kept newest word first, by `n` words. -/
def sha256Schedule : Nat → List Nat → List Nat
  | 0, w => w
  | n + 1, w =>
    let w2 := w.getD 1 0
    let w7 := w.getD 6 0
    let w15 := w.getD 14 0
    let w16 := w.getD 15 0
    let s0 := rotr32 w15 7 ^^^ rotr32 w15 18 ^^^ (w15 >>> 3)
    let s1 := rotr32 w2 17 ^^^ rotr32 w2 19 ^^^ (w2 >>> 10)
    sha256Schedule n (((w16 + s0 + w7 + s1) % 2 ^ 32) :: w)

/-- One round of the compression function on the working variables a to h. -/
def sha256Round (v : List Nat) (kw : Nat × Nat) : List Nat :=
  match v with
  | [a, b, c, d, e, f, g, h] =>
    let s1 := rotr32 e 6 ^^^ rotr32 e 11 ^^^ rotr32 e 25
    let ch := (e &&& f) ^^^ ((2 ^ 32 - 1 - e) &&& g)
    let t1 := h + s1 + ch + kw.1 + kw.2
    let s0 := rotr32 a 2 ^^^ rotr32 a 13 ^^^ rotr32 a 22
    let maj := (a &&& b) ^^^ (a &&& c) ^^^ (b &&& c)
    [(t1 + s0 + maj) % 2 ^ 32, a, b, c, (d + t1) % 2 ^ 32, e, f, g]
  | _ => v

/-- Folds one 64-byte block, given as 16 words, into the hash value. -/
def sha256Block (h : List Nat) (block : List Nat) : List Nat :=
  let w := (sha256Schedule 48 block.reverse).reverse
  let v := (sha256K.zip w).foldl sha256Round h
  List.zipWith (fun x y => (x + y) % 2 ^ 32) h v

/-- Splits a list into chunks of `n` elements; the first argument bounds their number. -/
def chunksOf (n : Nat) : Nat → List Nat → List (List Nat)
  | 0, _ => []
  | fuel + 1, xs => if xs.isEmpty then [] else xs.take n :: chunksOf n fuel (xs.drop n)

/-- Go `sha256.Sum256`: the 32-byte SHA-256 digest. -/
def sha256 (msg : Bytes) : Bytes :=
  let ws := wordsOf (sha256Pad msg)
  ((chunksOf 16 ws.length ws).foldl sha256Block sha256Init).flatMap (bigEndian 4)

/-! ## io: writers, closers -/

/-- A call made on an `io.WriteCloser`. -/
inductive SinkCall where
  | Write (p : Bytes)
  | Close
  deriving DecidableEq, Repr

/-- A Go `io.Writer` value, seen from outside: the `Write` calls made on it so far
(oldest first), and what a further `Write` returns (bytes taken and error) given
those. -/
structure Writer where
  writes : List Bytes
  onWrite : List Bytes → Bytes → Nat × Option Error

/-- A Go `io.WriteCloser` value, seen from outside: the calls made on it so far
(oldest first), and what a further `Write` or `Close` returns given those. -/
structure WriteCloser where
  calls : List SinkCall
  onWrite : List SinkCall → Bytes → Nat × Option Error
  onClose : List SinkCall → Option Error

/-- The call `wc.Write(p)`. -/
def WriteCloser.Write (wc : WriteCloser) (p : Bytes) : WriteCloser × Nat × Option Error :=
  ({ wc with calls := wc.calls ++ [SinkCall.Write p] }, wc.onWrite wc.calls p)

/-- The call `wc.Close()`. -/
def WriteCloser.Close (wc : WriteCloser) : WriteCloser × Option Error :=
  ({ wc with calls := wc.calls ++ [SinkCall.Close] }, wc.onClose wc.calls)

/-- The payloads of the `Write` calls among the calls. -/
def writesOf : List SinkCall → List Bytes
  | [] => []
  | SinkCall.Write p :: cs => p :: writesOf cs
  | SinkCall.Close :: cs => writesOf cs

/-- `newNopWriteCloser` of application.go: the writer with a `Close` that does nothing. -/
def newNopWriteCloser (w : Writer) : WriteCloser :=
  { calls := w.writes.map SinkCall.Write
    onWrite := fun cs p => w.onWrite (writesOf cs) p
    onClose := fun _ => none }

/-- Go `ioutil.Discard`: every `Write` succeeds. -/
def Discard : Writer :=
  { writes := [], onWrite := fun _ p => (p.length, none) }

/-- A new Go `bytes.Buffer` used as a writer: every `Write` succeeds; the buffer
holds the written payloads one after the other. -/
def bufferWriter : Writer :=
  { writes := [], onWrite := fun _ p => (p.length, none) }

/-- The contents of a buffer wrapped by `newNopWriteCloser`. -/
def bufferContents (wc : WriteCloser) : Bytes := (writesOf wc.calls).flatten

/-- Go `io.MultiWriter(wc, shasum).Write(p)`: `p` goes to `wc` first, and to the hash
only when `wc` took all of it without error. Returns the sink, whether the hash
received `p`, and the error. -/
def multiWrite (wc : WriteCloser) (p : Bytes) : WriteCloser × Bool × Option Error :=
  match wc.Write p with
  | (wc1, _, some e) => (wc1, false, some e)
  | (wc1, n, none) =>
    if n ≠ p.length then (wc1, false, some Error.ErrShortWrite) else (wc1, true, none)

/-! ## state.go: Commit -/

/-- Go signed 64-bit wrap-around. -/
def wrapInt64 (x : Int) : Int := (x + 2 ^ 63) % 2 ^ 64 - 2 ^ 63

/-- The bytes `State.Commit` hands to its writer. -/
def State.commitBytes (s : State) : Bytes :=
  jsonEncode { Data := s.data, CommitCount := wrapInt64 (s.commitCount + 1) }

/-- `State.Commit` of state.go: the engine and the sink after the call, and the
returned error. -/
def State.Commit (s : State) (wc : WriteCloser) : State × WriteCloser × Option Error :=
  match multiWrite wc s.commitBytes with
  | (wc1, _, some err) => (s, wc1, some err)
  | (wc1, _, none) =>
    match wc1.Close with
    | (wc2, some err) => (s, wc2, some err)
    | (wc2, none) =>
      ({ s with commitCount := wrapInt64 (s.commitCount + 1),
                lastCommitHash := some (sha256 s.commitBytes) }, wc2, none)

/-! ## encoding/json: the scanner -/

/-- The values of the scanner's parse stack (`parseObjectKey` and so on). -/
inductive ParseState where
  | parseObjectKey
  | parseObjectValue
  | parseArrayValue
  deriving DecidableEq, Repr

/-- The state functions of scanner.go (`stateBeginValue` and so on). -/
inductive Step where
  | stateBeginValueOrEmpty | stateBeginValue | stateBeginStringOrEmpty | stateBeginString
  | stateEndValue | stateEndTop
  | stateInString | stateInStringEsc | stateInStringEscU | stateInStringEscU1
  | stateInStringEscU12 | stateInStringEscU123
  | stateNeg | state1 | state0 | stateDot | stateDot0 | stateE | stateESign | stateE0
  | stateT | stateTr | stateTru | stateF | stateFa | stateFal | stateFals
  | stateN | stateNu | stateNul
  | stateError
  deriving DecidableEq, Repr

/-- The codes a scanner step returns. -/
inductive ScanCode where
  | scanContinue | scanBeginLiteral | scanBeginObject | scanObjectKey | scanObjectValue
  | scanEndObject | scanBeginArray | scanArrayValue | scanEndArray | scanSkipSpace
  | scanEnd | scanError
  deriving DecidableEq, Repr

/-- The struct `scanner` of scanner.go: the current state function and the parse
stack (its top first). -/
structure Scanner where
  step : Step
  parseState : List ParseState
  deriving DecidableEq, Repr

/-- `scanner.reset`. -/
def Scanner.reset : Scanner := { step := Step.stateBeginValue, parseState := [] }

/-- `isSpace` of scanner.go. -/
def isSpace (c : Byte) : Bool :=
  c.val = 0x20 || c.val = 0x09 || c.val = 0x0D || c.val = 0x0A

def isDigit (c : Byte) : Bool := 0x30 ≤ c.val && c.val ≤ 0x39

def isHex (c : Byte) : Bool :=
  isDigit c || (0x61 ≤ c.val && c.val ≤ 0x66) || (0x41 ≤ c.val && c.val ≤ 0x46)

/-- `scanner.error`: the scanner stops in `stateError`. -/
def Scanner.fail (s : Scanner) : Scanner × ScanCode :=
  ({ s with step := Step.stateError }, ScanCode.scanError)

/-- Moves on to the state function `st`, returning `scanContinue`. -/
def Scanner.goto (s : Scanner) (st : Step) : Scanner × ScanCode :=
  ({ s with step := st }, ScanCode.scanContinue)

/-- `stateEndTop`: a byte other than white space after the top-level value is noted
as an error for the next call, and `scanEnd` is returned all the same. -/
def stateEndTop (s : Scanner) (c : Byte) : Scanner × ScanCode :=
  if isSpace c then (s, ScanCode.scanEnd)
  else ({ s with step := Step.stateError }, ScanCode.scanEnd)

/-- `popParseState`. -/
def popParseState (rest : List ParseState) : Scanner :=
  { step := if rest.isEmpty then Step.stateEndTop else Step.stateEndValue, parseState := rest }

/-- `stateEndValue`. -/
def stateEndValue (s : Scanner) (c : Byte) : Scanner × ScanCode :=
  match s.parseState with
  | [] => stateEndTop { s with step := Step.stateEndTop } c
  | ps :: rest =>
    if isSpace c then ({ s with step := Step.stateEndValue }, ScanCode.scanSkipSpace)
    else
      match ps with
      | ParseState.parseObjectKey =>
        if c.val = 0x3A then
          ({ step := Step.stateBeginValue, parseState := ParseState.parseObjectValue :: rest },
            ScanCode.scanObjectKey)
        else s.fail
      | ParseState.parseObjectValue =>
        if c.val = 0x2C then
          ({ step := Step.stateBeginString, parseState := ParseState.parseObjectKey :: rest },
            ScanCode.scanObjectValue)
        else if c.val = 0x7D then (popParseState rest, ScanCode.scanEndObject)
        else s.fail
      | ParseState.parseArrayValue =>
        if c.val = 0x2C then ({ s with step := Step.stateBeginValue }, ScanCode.scanArrayValue)
        else if c.val = 0x5D then (popParseState rest, ScanCode.scanEndArray)
        else s.fail

/-- `stateBeginValue`. -/
def stateBeginValue (s : Scanner) (c : Byte) : Scanner × ScanCode :=
  if isSpace c then (s, ScanCode.scanSkipSpace)
  else if c.val = 0x7B then
    ({ step := Step.stateBeginStringOrEmpty,
       parseState := ParseState.parseObjectKey :: s.parseState }, ScanCode.scanBeginObject)
  else if c.val = 0x5B then
    ({ step := Step.stateBeginValueOrEmpty,
       parseState := ParseState.parseArrayValue :: s.parseState }, ScanCode.scanBeginArray)
  else if c.val = 0x22 then ({ s with step := Step.stateInString }, ScanCode.scanBeginLiteral)
  else if c.val = 0x2D then ({ s with step := Step.stateNeg }, ScanCode.scanBeginLiteral)
  else if c.val = 0x30 then ({ s with step := Step.state0 }, ScanCode.scanBeginLiteral)
  else if c.val = 0x74 then ({ s with step := Step.stateT }, ScanCode.scanBeginLiteral)
  else if c.val = 0x66 then ({ s with step := Step.stateF }, ScanCode.scanBeginLiteral)
  else if c.val = 0x6E then ({ s with step := Step.stateN }, ScanCode.scanBeginLiteral)
  else if 0x31 ≤ c.val ∧ c.val ≤ 0x39 then
    ({ s with step := Step.state1 }, ScanCode.scanBeginLiteral)
  else s.fail

/-- `stateBeginString`. -/
def stateBeginString (s : Scanner) (c : Byte) : Scanner × ScanCode :=
  if isSpace c then (s, ScanCode.scanSkipSpace)
  else if c.val = 0x22 then ({ s with step := Step.stateInString }, ScanCode.scanBeginLiteral)
  else s.fail

/-- `stateE0`. -/
def stateE0 (s : Scanner) (c : Byte) : Scanner × ScanCode :=
  if isDigit c then s.goto Step.stateE0 else stateEndValue s c

/-- `stateESign`. -/
def stateESign (s : Scanner) (c : Byte) : Scanner × ScanCode :=
  if isDigit c then s.goto Step.stateE0 else s.fail

/-- `state0`. -/
def state0 (s : Scanner) (c : Byte) : Scanner × ScanCode :=
  if c.val = 0x2E then s.goto Step.stateDot
  else if c.val = 0x65 ∨ c.val = 0x45 then s.goto Step.stateE
  else stateEndValue s c

/-- One call `s.step(s, c)` of the scanner. -/
def scanStep (s : Scanner) (c : Byte) : Scanner × ScanCode :=
  match s.step with
  | Step.stateBeginValueOrEmpty =>
    if isSpace c then (s, ScanCode.scanSkipSpace)
    else if c.val = 0x5D then stateEndValue s c
    else stateBeginValue s c
  | Step.stateBeginValue => stateBeginValue s c
  | Step.stateBeginStringOrEmpty =>
    if isSpace c then (s, ScanCode.scanSkipSpace)
    else if c.val = 0x7D then
      stateEndValue { s with parseState := ParseState.parseObjectValue :: s.parseState.tail } c
    else stateBeginString s c
  | Step.stateBeginString => stateBeginString s c
  | Step.stateEndValue => stateEndValue s c
  | Step.stateEndTop => stateEndTop s c
  | Step.stateInString =>
    if c.val = 0x22 then s.goto Step.stateEndValue
    else if c.val = 0x5C then s.goto Step.stateInStringEsc
    else if c.val < 0x20 then s.fail
    else (s, ScanCode.scanContinue)
  | Step.stateInStringEsc =>
    if c.val = 0x62 ∨ c.val = 0x66 ∨ c.val = 0x6E ∨ c.val = 0x72 ∨ c.val = 0x74 ∨
        c.val = 0x5C ∨ c.val = 0x2F ∨ c.val = 0x22 then s.goto Step.stateInString
    else if c.val = 0x75 then s.goto Step.stateInStringEscU
    else s.fail
  | Step.stateInStringEscU => if isHex c then s.goto Step.stateInStringEscU1 else s.fail
  | Step.stateInStringEscU1 => if isHex c then s.goto Step.stateInStringEscU12 else s.fail
  | Step.stateInStringEscU12 => if isHex c then s.goto Step.stateInStringEscU123 else s.fail
  | Step.stateInStringEscU123 => if isHex c then s.goto Step.stateInString else s.fail
  | Step.stateNeg =>
    if c.val = 0x30 then s.goto Step.state0
    else if 0x31 ≤ c.val ∧ c.val ≤ 0x39 then s.goto Step.state1
    else s.fail
  | Step.state1 => if isDigit c then s.goto Step.state1 else state0 s c
  | Step.state0 => state0 s c
  | Step.stateDot => if isDigit c then s.goto Step.stateDot0 else s.fail
  | Step.stateDot0 =>
    if isDigit c then (s, ScanCode.scanContinue)
    else if c.val = 0x65 ∨ c.val = 0x45 then s.goto Step.stateE
    else stateEndValue s c
  | Step.stateE =>
    if c.val = 0x2B ∨ c.val = 0x2D then s.goto Step.stateESign else stateESign s c
  | Step.stateESign => stateESign s c
  | Step.stateE0 => stateE0 s c
  | Step.stateT => if c.val = 0x72 then s.goto Step.stateTr else s.fail
  | Step.stateTr => if c.val = 0x75 then s.goto Step.stateTru else s.fail
  | Step.stateTru => if c.val = 0x65 then s.goto Step.stateEndValue else s.fail
  | Step.stateF => if c.val = 0x61 then s.goto Step.stateFa else s.fail
  | Step.stateFa => if c.val = 0x6C then s.goto Step.stateFal else s.fail
  | Step.stateFal => if c.val = 0x73 then s.goto Step.stateFals else s.fail
  | Step.stateFals => if c.val = 0x65 then s.goto Step.stateEndValue else s.fail
  | Step.stateN => if c.val = 0x75 then s.goto Step.stateNu else s.fail
  | Step.stateNu => if c.val = 0x6C then s.goto Step.stateNul else s.fail
  | Step.stateNul => if c.val = 0x6C then s.goto Step.stateEndValue else s.fail
  | Step.stateError => (s, ScanCode.scanError)

/-- What scanning the buffered bytes gives: the value ends after `n` bytes, a
syntax error, or more input is needed. -/
inductive ScanOutcome where
  | done (n : Nat)
  | failed
  | more (s : Scanner)
  deriving DecidableEq, Repr

/-- The inner loop of `Decoder.readValue` over the bytes of the buffer; `i` is the
number of bytes scanned so far. The end of an object or array is recognised at its
closing bracket (by offering the scanner a space), the end of any other value at the
byte that follows it. -/
def scanBuf : Scanner → Nat → Bytes → ScanOutcome
  | s, _, [] => ScanOutcome.more s
  | s, i, c :: rest =>
    let r := scanStep s c
    if r.2 = ScanCode.scanEnd then ScanOutcome.done i
    else if r.2 = ScanCode.scanEndObject ∨ r.2 = ScanCode.scanEndArray then
      let r1 := scanStep r.1 0x20
      if r1.2 = ScanCode.scanEnd then ScanOutcome.done (i + 1)
      else scanBuf r1.1 (i + 1) rest
    else if r.2 = ScanCode.scanError then ScanOutcome.failed
    else scanBuf r.1 (i + 1) rest

/-- `Decoder.readValue` together with `Decoder.refill`, reading from a source that
hands out its bytes `src` in reads as large as asked for (a `*bytes.Buffer`, a
file). The buffer starts with room for 512 bytes and, when full, grows to twice
its size plus 512. Returns the bytes of the first JSON value and the number of
bytes read from the source up to then. -/
def readValue : Nat → Bytes → Nat → Except Error (Bytes × Nat)
  | 0, _, _ => .error Error.ErrUnexpectedEOF
  | fuel + 1, src, cap =>
    let buf := src.take cap
    match scanBuf Scanner.reset 0 buf with
    | ScanOutcome.done n => .ok (buf.take n, buf.length)
    | ScanOutcome.failed => .error Error.SyntaxError
    | ScanOutcome.more s =>
      if src.length ≤ cap then
        if (scanStep s 0x20).2 = ScanCode.scanEnd then .ok (buf, buf.length)
        else if buf.any (fun c => !isSpace c) then .error Error.ErrUnexpectedEOF
        else .error Error.EOF
      else readValue fuel src (2 * cap + 512)

/-! ## encoding/json: decoding a scanned value -/

/-- A JSON value as the decoder walks it. Strings and object keys are kept as the
bytes between their quotes, numbers as their literal text. -/
inductive JSON where
  | null
  | bool (b : Bool)
  | number (lit : Bytes)
  | string (raw : Bytes)
  | array (items : List JSON)
  | object (members : List (Bytes × JSON))

/-- Drops leading white space. -/
def skipSpace : Bytes → Bytes
  | [] => []
  | c :: rest => if isSpace c then skipSpace rest else c :: rest

/-- Splits the input after an opening quote into the bytes up to the closing quote
and the bytes after it. -/
def takeString : Bytes → Option (Bytes × Bytes)
  | [] => none
  | [c] => if c.val = 0x22 then some ([], []) else none
  | c :: d :: rest =>
    if c.val = 0x22 then some ([], d :: rest)
    else if c.val = 0x5C then (takeString rest).map (fun p => (c :: d :: p.1, p.2))
    else (takeString (d :: rest)).map (fun p => (c :: p.1, p.2))

/-- Splits off the longest run of bytes a number literal is made of. -/
def takeNumber : Bytes → Bytes × Bytes
  | [] => ([], [])
  | c :: rest =>
    if isDigit c || c.val = 0x2D || c.val = 0x2B || c.val = 0x2E || c.val = 0x65 || c.val = 0x45
    then ((takeNumber rest).1.cons c, (takeNumber rest).2)
    else ([], c :: rest)

mutual
/-- Reads one JSON value from text the scanner has accepted; the first argument
bounds the number of nested calls. -/
def parseValue : Nat → Bytes → Option (JSON × Bytes)
  | 0, _ => none
  | fuel + 1, input =>
    match skipSpace input with
    | [] => none
    | c :: rest =>
      if c.val = 0x7B then
        match skipSpace rest with
        | [] => none
        | d :: rest1 =>
          if d.val = 0x7D then some (JSON.object [], rest1)
          else (parseMembers fuel rest).map (fun p => (JSON.object p.1, p.2))
      else if c.val = 0x5B then
        match skipSpace rest with
        | [] => none
        | d :: rest1 =>
          if d.val = 0x5D then some (JSON.array [], rest1)
          else (parseItems fuel rest).map (fun p => (JSON.array p.1, p.2))
      else if c.val = 0x22 then (takeString rest).map (fun p => (JSON.string p.1, p.2))
      else if c.val = 0x74 then some (JSON.bool true, rest.drop 3)
      else if c.val = 0x66 then some (JSON.bool false, rest.drop 4)
      else if c.val = 0x6E then some (JSON.null, rest.drop 3)
      else some (JSON.number (takeNumber (c :: rest)).1, (takeNumber (c :: rest)).2)
/-- Reads the members of an object up to its closing brace. -/
def parseMembers : Nat → Bytes → Option (List (Bytes × JSON) × Bytes)
  | 0, _ => none
  | fuel + 1, input =>
    match skipSpace input with
    | [] => none
    | c :: rest =>
      if c.val ≠ 0x22 then none
      else
        match takeString rest with
        | none => none
        | some (key, rest1) =>
          match skipSpace rest1 with
          | [] => none
          | d :: rest2 =>
            if d.val ≠ 0x3A then none
            else
              match parseValue fuel rest2 with
              | none => none
              | some (v, rest3) =>
                match skipSpace rest3 with
                | [] => none
                | e :: rest4 =>
                  if e.val = 0x2C then
                    (parseMembers fuel rest4).map (fun p => ((key, v) :: p.1, p.2))
                  else if e.val = 0x7D then some ([(key, v)], rest4)
                  else none
/-- Reads the elements of an array up to its closing bracket. -/
def parseItems : Nat → Bytes → Option (List JSON × Bytes)
  | 0, _ => none
  | fuel + 1, input =>
    match parseValue fuel input with
    | none => none
    | some (v, rest) =>
      match skipSpace rest with
      | [] => none
      | e :: rest1 =>
        if e.val = 0x2C then (parseItems fuel rest1).map (fun p => (v :: p.1, p.2))
        else if e.val = 0x5D then some ([v], rest1)
        else none
end

/-- Value of a hexadecimal digit. -/
def hexVal (c : Byte) : Option Nat :=
  if isDigit c then some (c.val - 0x30)
  else if 0x61 ≤ c.val ∧ c.val ≤ 0x66 then some (c.val - 0x61 + 10)
  else if 0x41 ≤ c.val ∧ c.val ≤ 0x46 then some (c.val - 0x41 + 10)
  else none

/-- Value of four hexadecimal digits (the digits of `getu4`). -/
def hex4 (a b c d : Byte) : Option Nat :=
  match hexVal a, hexVal b, hexVal c, hexVal d with
  | some x, some y, some z, some w => some (((x * 16 + y) * 16 + z) * 16 + w)
  | _, _, _, _ => none

/-- The character a one-letter escape stands for. -/
def simpleEscape (c : Byte) : Option Byte :=
  if c.val = 0x22 ∨ c.val = 0x5C ∨ c.val = 0x2F ∨ c.val = 0x27 then some c
  else if c.val = 0x62 then some 0x08
  else if c.val = 0x66 then some 0x0C
  else if c.val = 0x6E then some 0x0A
  else if c.val = 0x72 then some 0x0D
  else if c.val = 0x74 then some 0x09
  else none

/-- The escape that follows a backslash in `unquoteBytes`: the bytes it stands for
and the number of input bytes after the backslash it takes up. A `\u` escape of a
high surrogate takes a following `\u` escape of a low surrogate with it; any other
surrogate becomes U+FFFD. -/
def unquoteEscape : Bytes → Option (Bytes × Nat)
  | [] => none
  | e :: rest1 =>
    if e.val = 0x75 then
      match rest1 with
      | h1 :: h2 :: h3 :: h4 :: rest2 =>
        match hex4 h1 h2 h3 h4 with
        | none => none
        | some rr =>
          if 0xD800 ≤ rr ∧ rr < 0xE000 then
            match rest2 with
            | b :: u :: g1 :: g2 :: g3 :: g4 :: _ =>
              match (if b.val = 0x5C ∧ u.val = 0x75 then hex4 g1 g2 g3 g4 else none) with
              | some rr1 =>
                if rr < 0xDC00 ∧ 0xDC00 ≤ rr1 ∧ rr1 < 0xE000 then
                  some (encodeRune ((rr - 0xD800) * 1024 + (rr1 - 0xDC00) + 0x10000), 11)
                else some (encodeRune runeError, 5)
              | none => some (encodeRune runeError, 5)
            | _ => some (encodeRune runeError, 5)
          else some (encodeRune rr, 5)
      | _ => none
    else (simpleEscape e).map (fun x => ([x], 1))

/-- The loop of `unquoteBytes` over the bytes between the quotes. The first argument
counts the input bytes ahead that belong to the rune or escape just written. -/
def unquoteFrom : Nat → Bytes → Option Bytes
  | _, [] => some []
  | n + 1, _ :: rest => unquoteFrom n rest
  | 0, c :: rest =>
    if c.val = 0x5C then
      match unquoteEscape rest with
      | none => none
      | some (out, used) => (unquoteFrom used rest).map (out ++ ·)
    else if c.val = 0x22 ∨ c.val < 0x20 then none
    else if c.val < 0x80 then (unquoteFrom 0 rest).map (c :: ·)
    else
      let rs := decodeRune (c :: rest)
      (unquoteFrom (rs.2 - 1) rest).map (encodeRune rs.1 ++ ·)

/-- Go `unquoteBytes` applied to the bytes between the quotes of a string literal:
escapes are resolved and bytes that are not valid UTF-8 are replaced by U+FFFD. -/
def unquote (raw : Bytes) : Option Bytes := unquoteFrom 0 raw

/-- Value of a base64 character of the standard alphabet. -/
def b64Val (c : Byte) : Option Nat :=
  if 0x41 ≤ c.val ∧ c.val ≤ 0x5A then some (c.val - 0x41)
  else if 0x61 ≤ c.val ∧ c.val ≤ 0x7A then some (c.val - 0x61 + 26)
  else if isDigit c then some (c.val - 0x30 + 52)
  else if c.val = 0x2B then some 62
  else if c.val = 0x2F then some 63
  else none

/-- Decodes base64 text without line breaks, four characters at a time. -/
def base64DecodeQuanta : Bytes → Option Bytes
  | [] => some []
  | [a, b, c, d] =>
    match b64Val a, b64Val b with
    | some x, some y =>
      if c.val = 0x3D then
        if d.val = 0x3D then some [Fin.ofNat (x * 4 + y / 16)] else none
      else
        match b64Val c with
        | none => none
        | some z =>
          if d.val = 0x3D then some [Fin.ofNat (x * 4 + y / 16), Fin.ofNat (y % 16 * 16 + z / 4)]
          else
            match b64Val d with
            | none => none
            | some w =>
              some [Fin.ofNat (x * 4 + y / 16), Fin.ofNat (y % 16 * 16 + z / 4),
                Fin.ofNat (z % 4 * 64 + w)]
    | _, _ => none
  | a :: b :: c :: d :: rest =>
    match b64Val a, b64Val b, b64Val c, b64Val d with
    | some x, some y, some z, some w =>
      (base64DecodeQuanta rest).map
        ([Fin.ofNat (x * 4 + y / 16), Fin.ofNat (y % 16 * 16 + z / 4),
          Fin.ofNat (z % 4 * 64 + w)] ++ ·)
    | _, _, _, _ => none
  | _ => none

/-- Go `base64.StdEncoding.Decode`: carriage returns and line feeds are skipped,
padding is required. -/
def base64Decode (s : Bytes) : Option Bytes :=
  base64DecodeQuanta (s.filter (fun c => !(c.val = 0x0A || c.val = 0x0D)))

/-- Value of a run of decimal digits, if that is what the bytes are. -/
def parseDigits : Nat → Bytes → Option Nat
  | acc, [] => some acc
  | acc, c :: rest => if isDigit c then parseDigits (acc * 10 + (c.val - 0x30)) rest else none

/-- Go `strconv.ParseUint(s, 10, 64)` on a number literal, with the overflow check
for `uint8`. -/
def parseUint8 (lit : Bytes) : Option Byte :=
  match lit with
  | [] => none
  | _ =>
    match parseDigits 0 lit with
    | none => none
    | some n => if n < 256 then some (Fin.ofNat n) else none

/-- Go `strconv.ParseInt(s, 10, 64)` on a number literal. -/
def parseInt64 (lit : Bytes) : Option Int :=
  match lit with
  | [] => none
  | c :: rest =>
    if c.val = 0x2D then
      match rest with
      | [] => none
      | _ =>
        match parseDigits 0 rest with
        | none => none
        | some n => if n ≤ 2 ^ 63 then some (-(n : Int)) else none
    else
      match parseDigits 0 (c :: rest) with
      | none => none
      | some n => if n < 2 ^ 63 then some (n : Int) else none

/-- Decoding one element of a JSON array into a `uint8`. -/
def decodeUint8 : JSON → Except Error Byte
  | JSON.null => .ok 0
  | JSON.number lit =>
    match parseUint8 lit with
    | some b => .ok b
    | none => .error Error.UnmarshalTypeError
  | _ => .error Error.UnmarshalTypeError

/-- Decoding a JSON value into a zero `[]byte`: `null` leaves it nil, a string is
base64, an array gives its elements. -/
def decodeByteSlice : JSON → Except Error ByteSlice
  | JSON.null => .ok none
  | JSON.string raw =>
    match unquote raw with
    | none => .error Error.SyntaxError
    | some t =>
      match base64Decode t with
      | none => .error Error.CorruptInputError
      | some b => .ok (some b)
  | JSON.array items => (items.mapM decodeUint8).map some
  | _ => .error Error.UnmarshalTypeError

/-- Decoding the members of a JSON object into a non-nil `map[string][]byte`, one
after the other; a later member with the same key overwrites an earlier one. -/
def decodeEntries (m : GoMap) : List (Bytes × JSON) → Except Error GoMap
  | [] => .ok m
  | (rawKey, v) :: rest =>
    match unquote rawKey with
    | none => .error Error.SyntaxError
    | some key =>
      match decodeByteSlice v with
      | .error e => .error e
      | .ok b => decodeEntries (m.set key b) rest

/-- Decoding a JSON value into the field `Data`: `null` makes the map nil, an object
is decoded into the map (made first when nil). -/
def decodeData (cur : Option GoMap) : JSON → Except Error (Option GoMap)
  | JSON.null => .ok none
  | JSON.object members => (decodeEntries (cur.getD GoMap.empty) members).map some
  | _ => .error Error.UnmarshalTypeError

/-- Decoding a JSON value into the field `CommitCount`: `null` leaves it alone. -/
def decodeCommitCount (cur : Int) : JSON → Except Error Int
  | JSON.null => .ok cur
  | JSON.number lit =>
    match parseInt64 lit with
    | some n => .ok n
    | none => .error Error.UnmarshalTypeError
  | _ => .error Error.UnmarshalTypeError

/-- Upper-case form of an ASCII letter (the byte itself otherwise). -/
def upperAscii (c : Byte) : Byte :=
  if 0x61 ≤ c.val ∧ c.val ≤ 0x7A then Fin.ofNat (c.val - 0x20) else c

/-- How the decoder matches an object key against the name of a struct field:
equal up to the case of ASCII letters. -/
def fieldMatches (name key : Bytes) : Bool :=
  decide (name.map upperAscii = key.map upperAscii)

/-- Decoding the members of the top-level object into the struct, one after the
other: `data` and `commit_count` are matched without regard to case, members with
other keys are skipped. -/
def decodeFields (cur : serializationFormat) :
    List (Bytes × JSON) → Except Error serializationFormat
  | [] => .ok cur
  | (rawKey, v) :: rest =>
    match unquote rawKey with
    | none => .error Error.SyntaxError
    | some key =>
      if fieldMatches (ascii "data") key then
        match decodeData cur.Data v with
        | .error e => .error e
        | .ok d => decodeFields { cur with Data := d } rest
      else if fieldMatches (ascii "commit_count") key then
        match decodeCommitCount cur.CommitCount v with
        | .error e => .error e
        | .ok n => decodeFields { cur with CommitCount := n } rest
      else decodeFields cur rest

/-- Go `decodeState.unmarshal` into a zero `serializationFormat`, on the bytes of one
scanned JSON value. Any error recorded on the way makes the call fail. -/
def unmarshal (value : Bytes) : Except Error serializationFormat :=
  match parseValue (value.length + 1) value with
  | none => .error Error.SyntaxError
  | some (JSON.null, _) => .ok { Data := none, CommitCount := 0 }
  | some (JSON.object members, _) => decodeFields { Data := none, CommitCount := 0 } members
  | some _ => .error Error.UnmarshalTypeError

/-- Go `json.NewDecoder(r).Decode(&v)` with `v` a zero `serializationFormat` and `r`
a reader over `src`: the decoded struct and the number of bytes read from `r`. -/
def jsonDecode (src : Bytes) : Except Error (serializationFormat × Nat) :=
  match readValue (src.length + 1) src 512 with
  | .error e => .error e
  | .ok (value, read) =>
    match unmarshal value with
    | .error e => .error e
    | .ok v => .ok (v, read)

/-! ## state.go: Restore -/

/-- `State.Restore` of state.go, reading from a source that holds the bytes `r`: the
hash is taken over the bytes the decoder has read through the tee. -/
def State.Restore (s : State) (r : Bytes) : State × Option Error :=
  match jsonDecode r with
  | .error e => (s, some e)
  | .ok (v, read) =>
    ({ data := v.Data, commitCount := v.CommitCount,
       lastCommitHash := some (sha256 (r.take read)) }, none)

/-- The entries `range m` visits, in the order it visits them: none for a nil map. -/
def mapEntries : Option GoMap → List (GoString × ByteSlice)
  | none => []
  | some m => m.entries

/-- `copyState` of state.go: the destination after the call. Ranging over a nil map
visits nothing, so the destination's map is never nil. -/
def copyState (dst src : State) : State :=
  { dst with
    data := some ((mapEntries src.data).foldl (fun d e => d.set e.1 e.2) GoMap.empty)
    commitCount := src.commitCount
    lastCommitHash := src.lastCommitHash }

/-! ## application.go: the ABCI adapter -/

/-- `tendermintabci.CodeTypeOK`. -/
def CodeTypeOK : Nat := 0

/-- `codeBadRequest` of application.go. -/
def codeBadRequest : Nat := 513

/-- `codeCASFailure` of application.go. -/
def codeCASFailure : Nat := 514

/-- The text of `err.Error()`. -/
def Error.text : Error → String
  | Error.ErrCASFailure => "CAS failure"
  | Error.ErrKeyNotFound => "key not found"
  | Error.ErrShortWrite => "short write"
  | Error.EOF => "EOF"
  | Error.ErrUnexpectedEOF => "unexpected EOF"
  | Error.SyntaxError => "invalid character"
  | Error.UnmarshalTypeError => "json: cannot unmarshal"
  | Error.CorruptInputError => "illegal base64 data"
  | Error.External _ => "external error"

/-- Splits at the first `:`, which is dropped; `none` when there is none. -/
def cutAtColon : Bytes → Option (Bytes × Bytes)
  | [] => none
  | c :: rest =>
    if c.val = 0x3A then some ([], rest)
    else (cutAtColon rest).map (fun q => (c :: q.1, q.2))

/-- Go `bytes.SplitN(s, []byte{':'}, n)` for `n ≥ 0`: at most `n` pieces, the last
one holding the unsplit rest. -/
def splitN : Nat → Bytes → List Bytes
  | 0, _ => []
  | 1, s => [s]
  | n + 2, s =>
    match cutAtColon s with
    | none => [s]
    | some (piece, rest) => piece :: splitN (n + 1) rest

/-- `parseTx` of application.go: key, old, new, code and log. -/
def parseTx (p : Bytes) : GoString × ByteSlice × ByteSlice × Nat × String :=
  match splitN 3 p with
  | [k, o, n] => (k, some o, some n, CodeTypeOK, "")
  | _ => ([], none, none, codeBadRequest, "bad request: tx data must be \"<key>:<old>:<new>\"")

/-- The struct `Application` of application.go (without its logger). -/
structure Application where
  mempool : State
  consensus : State
  persist : WriteCloser

/-- The fields of `tendermintabci.ResponseInfo` the application sets. -/
structure ResponseInfo where
  Data : String
  Version : String
  LastBlockHeight : Int
  LastBlockAppHash : ByteSlice
  deriving DecidableEq

/-- The fields of `tendermintabci.ResponseQuery` the application sets. -/
structure ResponseQuery where
  Code : Nat
  Key : ByteSlice
  Value : ByteSlice
  Log : String
  deriving DecidableEq

/-- The fields of `tendermintabci.ResponseCheckTx` the application sets. -/
structure ResponseCheckTx where
  Code : Nat
  Log : String
  deriving DecidableEq

/-- The fields of `tendermintabci.ResponseDeliverTx` the application sets. -/
structure ResponseDeliverTx where
  Code : Nat
  Log : String
  deriving DecidableEq

/-- The field of `tendermintabci.ResponseCommit` the application sets. -/
structure ResponseCommit where
  Data : ByteSlice
  deriving DecidableEq

/-- `NewApplication` of application.go; `initial` holds the bytes of the reader, if
one is given. -/
def NewApplication (initial : Option Bytes) (persist : Option WriteCloser) :
    Except Error Application :=
  let consensus := NewState
  let restored : State × Option Error :=
    match initial with
    | none => (consensus, none)
    | some r => consensus.Restore r
  match restored with
  | (_, some err) => .error err
  | (consensus, none) =>
    .ok { mempool := copyState NewState consensus
          consensus := consensus
          persist := persist.getD (newNopWriteCloser Discard) }

/-- `Application.Info`. -/
def Application.Info (a : Application) : ResponseInfo :=
  { Data := "", Version := "", LastBlockHeight := a.consensus.Commits,
    LastBlockAppHash := a.consensus.Hash }

/-- `Application.Query`: the key looked up is `string(query.Data)`. -/
def Application.Query (a : Application) (data : ByteSlice) : ResponseQuery :=
  match a.consensus.Get (sliceBytes data) with
  | (_, some err) => { Code := codeBadRequest, Key := data, Value := none, Log := err.text }
  | (value, none) => { Code := CodeTypeOK, Key := data, Value := value, Log := "" }

/-- `Application.CheckTx`. -/
def Application.CheckTx (a : Application) (p : Bytes) :
    Except Panic (Application × ResponseCheckTx) :=
  match parseTx p with
  | (key, old, new, code, log) =>
    if code ≠ CodeTypeOK then .ok (a, { Code := code, Log := log })
    else
      match a.mempool.CompareAndSwap key old new with
      | .error e => .error e
      | .ok (m, some err) => .ok ({ a with mempool := m }, { Code := codeCASFailure, Log := err.text })
      | .ok (m, none) => .ok ({ a with mempool := m }, { Code := CodeTypeOK, Log := "" })

/-- `Application.DeliverTx`. -/
def Application.DeliverTx (a : Application) (p : Bytes) :
    Except Panic (Application × ResponseDeliverTx) :=
  match parseTx p with
  | (key, old, new, code, log) =>
    if code ≠ CodeTypeOK then .ok (a, { Code := code, Log := log })
    else
      match a.consensus.CompareAndSwap key old new with
      | .error e => .error e
      | .ok (c, some err) =>
        .ok ({ a with consensus := c }, { Code := codeCASFailure, Log := err.text })
      | .ok (c, none) => .ok ({ a with consensus := c }, { Code := CodeTypeOK, Log := "" })

/-- `Application.Commit`: a failed commit of the engine panics. -/
def Application.Commit (a : Application) : Except Panic (Application × ResponseCommit) :=
  match a.consensus.Commit a.persist with
  | (_, _, some err) => .error (Panic.commitFailed err)
  | (c, wc, none) =>
    .ok ({ mempool := copyState a.mempool c, consensus := c, persist := wc }, { Data := c.Hash })

/-- The calls of the ABCI the application answers. -/
inductive Request where
  | Info
  | SetOption
  | InitChain
  | Query (data : ByteSlice)
  | CheckTx (p : Bytes)
  | BeginBlock
  | DeliverTx (p : Bytes)
  | EndBlock
  | Commit

/-- The answers to the calls. -/
inductive Response where
  | Info (r : ResponseInfo)
  | SetOption (code : Nat)
  | InitChain
  | Query (r : ResponseQuery)
  | CheckTx (r : ResponseCheckTx)
  | BeginBlock
  | DeliverTx (r : ResponseDeliverTx)
  | EndBlock
  | Commit (r : ResponseCommit)
  deriving DecidableEq

/-- One call on the application. `SetOption`, `InitChain`, `BeginBlock` and
`EndBlock` answer without touching the application. -/
def Application.handle (a : Application) : Request → Except Panic (Application × Response)
  | Request.Info => .ok (a, Response.Info a.Info)
  | Request.SetOption => .ok (a, Response.SetOption CodeTypeOK)
  | Request.InitChain => .ok (a, Response.InitChain)
  | Request.Query data => .ok (a, Response.Query (a.Query data))
  | Request.CheckTx p => (a.CheckTx p).map (fun r => (r.1, Response.CheckTx r.2))
  | Request.BeginBlock => .ok (a, Response.BeginBlock)
  | Request.DeliverTx p => (a.DeliverTx p).map (fun r => (r.1, Response.DeliverTx r.2))
  | Request.EndBlock => .ok (a, Response.EndBlock)
  | Request.Commit => a.Commit.map (fun r => (r.1, Response.Commit r.2))

/-- A sequence of calls, one after the other, with the answers in order. -/
def Application.run (a : Application) : List Request → Except Panic (Application × List Response)
  | [] => .ok (a, [])
  | q :: qs =>
    match a.handle q with
    | .error e => .error e
    | .ok (a1, r) =>
      match a1.run qs with
      | .error e => .error e
      | .ok (a2, rs) => .ok (a2, r :: rs)

/-! ## The state engine: compare-and-swap -/

theorem assocGet_assocSet_same (k : GoString) (v : ByteSlice) :
    ∀ es : List (GoString × ByteSlice), assocGet k (assocSet k v es) = some v
  | [] => by simp [assocSet, assocGet]
  | e :: es => by
      by_cases h : e.1 = k
      · simp [assocSet, assocGet, h]
      · simp [assocSet, assocGet, h, assocGet_assocSet_same k v es]

theorem assocGet_assocSet_other (k : GoString) (v : ByteSlice) (x : GoString) (hx : x ≠ k) :
    ∀ es : List (GoString × ByteSlice), assocGet x (assocSet k v es) = assocGet x es
  | [] => by simp [assocSet, assocGet, Ne.symm hx]
  | (ek, ev) :: es => by
      by_cases h : ek = k
      · subst h
        simp only [assocSet, assocGet, if_true, Ne.symm hx, if_false]
      · by_cases h1 : ek = x
        · subst h1
          simp only [assocSet, assocGet, h, if_false, if_true]
        · simp only [assocSet, assocGet, h, if_false, h1, assocGet_assocSet_other k v x hx es]

/-- On an engine whose map is not nil, `CompareAndSwap` succeeds exactly when the
current value (empty when the key is absent) equals `old`, fails with `ErrCASFailure`
otherwise, and after a success `Get` returns `new`. -/
theorem compareAndSwap_initialised (s : State) (m : GoMap) (hm : s.data = some m)
    (key : GoString) (old new : ByteSlice) :
    ((∃ s', s.CompareAndSwap key old new = .ok (s', none)) ↔
        sliceBytes ((s.Get key).1) = sliceBytes old) ∧
    (sliceBytes ((s.Get key).1) ≠ sliceBytes old →
        s.CompareAndSwap key old new = .ok (s, some Error.ErrCASFailure)) ∧
    (∀ s', s.CompareAndSwap key old new = .ok (s', none) → s'.Get key = (new, none)) := by
  have hget : (mapIndex s.data key).getD none = (s.Get key).1 := by
    unfold State.Get
    cases h : mapIndex s.data key <;> simp
  by_cases hc : sliceBytes ((s.Get key).1) = sliceBytes old
  · have hstep : s.CompareAndSwap key old new =
        .ok ({ s with data := some (m.set key new) }, none) := by
      simp only [State.CompareAndSwap, hget, bytesEqual, hc, decide_True, Bool.not_true,
        Bool.false_eq_true, if_false]
      rw [hm]
    refine ⟨⟨fun _ => hc, fun _ => ⟨_, hstep⟩⟩, fun h => absurd hc h, ?_⟩
    intro s' hs'
    rw [hstep] at hs'
    cases hs'
    simp [State.Get, mapIndex, GoMap.set, assocGet_assocSet_same]
  · have hstep : s.CompareAndSwap key old new = .ok (s, some Error.ErrCASFailure) := by
      simp only [State.CompareAndSwap, hget, bytesEqual, hc, decide_False, Bool.not_false,
        if_true]
    refine ⟨⟨?_, fun h => absurd h hc⟩, fun _ => hstep, ?_⟩
    · rintro ⟨s', hs'⟩
      rw [hstep] at hs'
      cases hs'
    · intro s' hs'
      rw [hstep] at hs'
      cases hs'

/-- The bytes of a reader holding a persisted state without a `data` member. -/
def noDataSource : Bytes := ascii "\x7b\"commit_count\":7\x7d"

/-- C2, at the failing input: `Restore` accepts a source without a `data` member and
leaves the engine with a nil map; the key `a` is absent, so its current value equals
the empty `old`, and `CompareAndSwap` panics on the map assignment instead of
returning success. -/
theorem C2_compareAndSwap_nil_map_panics :
    (NewState.Restore noDataSource).2 = none ∧
    (NewState.Restore noDataSource).1.Commits = 7 ∧
    (NewState.Restore noDataSource).1.Get (ascii "a") = (none, some Error.ErrKeyNotFound) ∧
    (NewState.Restore noDataSource).1.CompareAndSwap (ascii "a") none (some (ascii "x")) =
      .error Panic.assignmentToNilMap := by
  and_intros <;> decide

/-- C3: when `CompareAndSwap` returns `ErrCASFailure` the engine is the one it was:
`Get` of every key, `Commits` and `Hash` return what they returned before. -/
theorem C3_failed_cas_leaves_engine_unchanged (s s' : State) (key : GoString)
    (old new : ByteSlice)
    (h : s.CompareAndSwap key old new = .ok (s', some Error.ErrCASFailure)) :
    s' = s ∧ (∀ k, s'.Get k = s.Get k) ∧ s'.Commits = s.Commits ∧ s'.Hash = s.Hash := by
  have hs : s' = s := by
    simp only [State.CompareAndSwap] at h
    by_cases hb : (!bytesEqual ((mapIndex s.data key).getD none) old) = true
    · rw [if_pos hb] at h
      cases h
      rfl
    · rw [if_neg hb] at h
      cases hd : s.data <;> rw [hd] at h <;> cases h
  subst hs
  exact ⟨rfl, fun _ => rfl, rfl, rfl⟩

/-- An engine holding `b = "beta one"`. -/
def engineBeta : State :=
  { data := some ⟨[(ascii "b", some (ascii "beta one"))], by decide⟩
    commitCount := 0, lastCommitHash := none }

theorem C3_failed_cas_witness :
    engineBeta.CompareAndSwap (ascii "b") none (some (ascii "should not work")) =
        .ok (engineBeta, some Error.ErrCASFailure) ∧
      (engineBeta = engineBeta ∧ (∀ k, engineBeta.Get k = engineBeta.Get k) ∧
        engineBeta.Commits = engineBeta.Commits ∧ engineBeta.Hash = engineBeta.Hash) :=
  ⟨by decide,
   C3_failed_cas_leaves_engine_unchanged engineBeta engineBeta (ascii "b") none
     (some (ascii "should not work")) (by decide)⟩

/-! ## The state engine: commit and restore -/

theorem readValue_succ (fuel : Nat) (src : Bytes) (cap : Nat) :
    readValue (fuel + 1) src cap =
      match scanBuf Scanner.reset 0 (src.take cap) with
      | ScanOutcome.done n => .ok ((src.take cap).take n, (src.take cap).length)
      | ScanOutcome.failed => .error Error.SyntaxError
      | ScanOutcome.more s =>
        if src.length ≤ cap then
          if (scanStep s 0x20).2 = ScanCode.scanEnd then .ok (src.take cap, (src.take cap).length)
          else if (src.take cap).any (fun c => !isSpace c) then .error Error.ErrUnexpectedEOF
          else .error Error.EOF
        else readValue fuel src (2 * cap + 512) := rfl

/-- The bound on the number of refills in `readValue` is never reached: once it is
large enough for the buffer to outgrow the source, a larger one changes nothing. In
`jsonDecode` it is the length of the source plus one, which is large enough. -/
theorem readValue_fuel (src : Bytes) : ∀ (f1 f2 cap : Nat),
    src.length ≤ cap + 512 * f1 → src.length ≤ cap + 512 * f2 →
    readValue (f1 + 1) src cap = readValue (f2 + 1) src cap := by
  intro f1
  induction f1 with
  | zero =>
    intro f2 cap h1 _
    have hle : src.length ≤ cap := by omega
    rw [readValue_succ, readValue_succ]
    simp only [hle, if_true]
  | succ f1 ih =>
    intro f2 cap h1 h2
    rw [readValue_succ (f1 + 1), readValue_succ f2]
    by_cases hle : src.length ≤ cap
    · simp only [hle, if_true]
    · cases f2 with
      | zero => omega
      | succ f2 =>
        simp only [hle, if_false, ih f2 (2 * cap + 512) (by omega) (by omega)]

/-- An engine holding one key that is not valid UTF-8, the single byte 0xFF. -/
def engineFF : State :=
  { data := some ⟨[([0xFF], some (ascii "x"))], by decide⟩
    commitCount := 0, lastCommitHash := none }

/-- An engine whose next commit writes 513 bytes: the key `abc` with a value of 357
bytes. -/
def engine513 : State :=
  { data := some ⟨[(ascii "abc", some (List.replicate 357 0x61))], by decide⟩
    commitCount := 0, lastCommitHash := none }

/-- C4, at the failing inputs. (1) The engine obtained from a new one by
`CompareAndSwap("\xff", nil, "x")` commits to a buffer; the committed engine answers
`Get("\xff")` with `x`, a new engine restored from the buffer answers it with
`ErrKeyNotFound`, because the encoder wrote the key as U+FFFD. (2) An engine
whose commit writes 513 bytes: the decoder reads 512 of them, which end with the
closing brace, so the restored hash is taken over 512 bytes and differs from the
hash of the commit. -/
theorem C4_round_trip_fails :
    (NewState.CompareAndSwap [0xFF] none (some (ascii "x")) = .ok (engineFF, none) ∧
      (engineFF.Commit (newNopWriteCloser bufferWriter)).2.2 = none ∧
      bufferContents (engineFF.Commit (newNopWriteCloser bufferWriter)).2.1 =
        engineFF.commitBytes ∧
      engineFF.commitBytes =
        ascii "\x7b\"data\":\x7b\"\\ufffd\":\"eA==\"\x7d,\"commit_count\":1\x7d\n" ∧
      (engineFF.Commit (newNopWriteCloser bufferWriter)).1.Get [0xFF] =
        (some (ascii "x"), none) ∧
      (NewState.Restore engineFF.commitBytes).2 = none ∧
      (NewState.Restore engineFF.commitBytes).1.Get [0xFF] =
        (none, some Error.ErrKeyNotFound) ∧
      (NewState.Restore engineFF.commitBytes).1.Get [0xEF, 0xBF, 0xBD] =
        (some (ascii "x"), none)) ∧
    (NewState.CompareAndSwap (ascii "abc") none (some (List.replicate 357 0x61)) =
        .ok (engine513, none) ∧
      (engine513.Commit (newNopWriteCloser bufferWriter)).2.2 = none ∧
      bufferContents (engine513.Commit (newNopWriteCloser bufferWriter)).2.1 =
        engine513.commitBytes ∧
      engine513.commitBytes.length = 513 ∧
      (NewState.Restore engine513.commitBytes).2 = none ∧
      (NewState.Restore engine513.commitBytes).1.Hash =
        some (sha256 (engine513.commitBytes.take 512)) ∧
      (NewState.Restore engine513.commitBytes).1.Hash ≠
        (engine513.Commit (newNopWriteCloser bufferWriter)).1.Hash) := by
  and_intros <;> decide!

/-! ### The order of the keys -/

theorem strLE_refl : ∀ a : Bytes, strLE a a = true
  | [] => rfl
  | a :: as => by simp [strLE, strLE_refl as]

theorem strLE_total : ∀ a b : Bytes, strLE a b = true ∨ strLE b a = true
  | [], _ => Or.inl rfl
  | _ :: _, [] => Or.inr rfl
  | a :: as, b :: bs => by
      rcases lt_trichotomy a b with h | h | h
      · left; simp [strLE, h]
      · subst h
        rcases strLE_total as bs with h1 | h1
        · left; simp [strLE, h1]
        · right; simp [strLE, h1]
      · right; simp [strLE, h]

theorem strLE_trans : ∀ a b c : Bytes, strLE a b = true → strLE b c = true → strLE a c = true
  | [], _, _, _, _ => rfl
  | _ :: _, [], _, h, _ => by simp [strLE] at h
  | _ :: _, _ :: _, [], _, h => by simp [strLE] at h
  | a :: as, b :: bs, c :: cs, h1, h2 => by
      simp only [strLE, Bool.or_eq_true, Bool.and_eq_true, decide_eq_true_eq] at h1 h2 ⊢
      rcases h1 with h1 | ⟨h1, h1'⟩
      · rcases h2 with h2 | ⟨h2, _⟩
        · exact Or.inl (lt_trans h1 h2)
        · exact Or.inl (h2 ▸ h1)
      · rcases h2 with h2 | ⟨h2, h2'⟩
        · exact Or.inl (h1 ▸ h2)
        · exact Or.inr ⟨h1.trans h2, strLE_trans as bs cs h1' h2'⟩

theorem strLE_antisymm : ∀ a b : Bytes, strLE a b = true → strLE b a = true → a = b
  | [], [], _, _ => rfl
  | [], _ :: _, _, h => by simp [strLE] at h
  | _ :: _, [], h, _ => by simp [strLE] at h
  | a :: as, b :: bs, h1, h2 => by
      simp only [strLE, Bool.or_eq_true, Bool.and_eq_true, decide_eq_true_eq] at h1 h2
      rcases h1 with h1 | ⟨h1, h1'⟩
      · rcases h2 with h2 | ⟨h2, _⟩
        · exact absurd (lt_trans h1 h2) (lt_irrefl _)
        · exact absurd (h2 ▸ h1) (lt_irrefl _)
      · subst h1
        rcases h2 with h2 | ⟨_, h2'⟩
        · exact absurd h2 (lt_irrefl _)
        · rw [strLE_antisymm as bs h1' h2']

instance entryLE.isTotal : IsTotal (GoString × ByteSlice) entryLE :=
  ⟨fun a b => strLE_total a.1 b.1⟩

instance entryLE.isTrans : IsTrans (GoString × ByteSlice) entryLE :=
  ⟨fun a b c => strLE_trans a.1 b.1 c.1⟩

/-- Entries in strictly increasing order of their keys. -/
def entryLT (a b : GoString × ByteSlice) : Prop := entryLE a b ∧ a.1 ≠ b.1

theorem entryLT.isAntisymm : IsAntisymm (GoString × ByteSlice) entryLT :=
  ⟨fun a b h1 h2 => absurd (strLE_antisymm a.1 b.1 h1.1 h2.1) h1.2⟩

/-- Sorting entries with distinct keys gives a list that is strictly increasing. -/
theorem sorted_entryLT (es : List (GoString × ByteSlice)) (h : (es.map Prod.fst).Nodup) :
    (es.insertionSort entryLE).Sorted entryLT := by
  have hs : (es.insertionSort entryLE).Sorted entryLE := List.sorted_insertionSort entryLE es
  have hp : (es.insertionSort entryLE).Perm es := List.perm_insertionSort entryLE es
  have hn : ((es.insertionSort entryLE).map Prod.fst).Nodup :=
    (hp.map Prod.fst).nodup_iff.mpr h
  have hn' : (es.insertionSort entryLE).Pairwise (fun a b => a.1 ≠ b.1) := by
    rw [List.Nodup, List.pairwise_map] at hn
    exact hn
  exact List.Pairwise.and hs hn'

/-- The sorted list of entries depends only on the set of entries. -/
theorem insertionSort_eq_of_perm (es1 es2 : List (GoString × ByteSlice))
    (h1 : (es1.map Prod.fst).Nodup) (hp : es1.Perm es2) :
    es1.insertionSort entryLE = es2.insertionSort entryLE := by
  have h2 : (es2.map Prod.fst).Nodup := (hp.map Prod.fst).nodup_iff.mp h1
  haveI := entryLT.isAntisymm
  refine List.eq_of_perm_of_sorted ?_ (sorted_entryLT es1 h1) (sorted_entryLT es2 h2)
  exact ((List.perm_insertionSort entryLE es1).trans hp).trans
    (List.perm_insertionSort entryLE es2).symm

theorem assocGet_eq_none (k : GoString) :
    ∀ es : List (GoString × ByteSlice), assocGet k es = none ↔ k ∉ es.map Prod.fst
  | [] => by simp [assocGet]
  | e :: es => by
      by_cases h : e.1 = k
      · simp [assocGet, h]
      · simp only [assocGet, h, if_false, assocGet_eq_none k es, List.map_cons, List.mem_cons,
          not_or]
        exact ⟨fun h1 => ⟨fun h2 => h h2.symm, h1⟩, fun h1 => h1.2⟩

/-- With distinct keys, the entries are exactly the pairs `assocGet` returns. -/
theorem mem_iff_assocGet (k : GoString) (v : ByteSlice) :
    ∀ es : List (GoString × ByteSlice), (es.map Prod.fst).Nodup →
      ((k, v) ∈ es ↔ assocGet k es = some v)
  | [], _ => by simp [assocGet]
  | (ek, ev) :: es, h => by
      rw [List.map_cons, List.nodup_cons] at h
      by_cases hk : ek = k
      · subst hk
        have hnot : ∀ w, (ek, w) ∉ es := fun w hw =>
          h.1 (List.mem_map.mpr ⟨(ek, w), hw, rfl⟩)
        simp only [assocGet, if_true, List.mem_cons, Prod.mk.injEq, true_and, Option.some.injEq,
          hnot v, or_false]
        exact eq_comm
      · simp only [assocGet, hk, if_false, List.mem_cons, Prod.mk.injEq, mem_iff_assocGet k v es h.2]
        constructor
        · rintro (⟨h1, _⟩ | h1)
          · exact absurd h1.symm hk
          · exact h1
        · exact Or.inr

/-- Two maps with the same lookups hold the same entries, in some order. -/
theorem entries_perm_of_lookup_eq (m1 m2 : GoMap)
    (h : ∀ k, assocGet k m1.entries = assocGet k m2.entries) : m1.entries.Perm m2.entries := by
  rw [List.perm_ext_iff_of_nodup (List.Nodup.of_map _ m1.nodup) (List.Nodup.of_map _ m2.nodup)]
  rintro ⟨k, v⟩
  rw [mem_iff_assocGet k v _ m1.nodup, mem_iff_assocGet k v _ m2.nodup, h k]

/-- Maps with the same lookups are encoded by the same bytes. -/
theorem encodeMap_eq_of_lookup_eq (m1 m2 : GoMap)
    (h : ∀ k, assocGet k m1.entries = assocGet k m2.entries) :
    encodeMap (some m1) = encodeMap (some m2) := by
  simp only [encodeMap]
  rw [insertionSort_eq_of_perm m1.entries m2.entries m1.nodup (entries_perm_of_lookup_eq m1 m2 h)]

/-! ### Commit -/

/-- A successful `Commit` hands `commitBytes` to the sink in one `Write`, closes it,
advances the count and stores the hash of those bytes; the map is left alone. -/
theorem commit_ok (s : State) (wc : WriteCloser) (h : (s.Commit wc).2.2 = none) :
    (s.Commit wc).1 =
        { s with commitCount := wrapInt64 (s.commitCount + 1),
                 lastCommitHash := some (sha256 s.commitBytes) } ∧
      (s.Commit wc).2.1.calls = wc.calls ++ [SinkCall.Write s.commitBytes, SinkCall.Close] := by
  unfold State.Commit multiWrite WriteCloser.Write at *
  rcases hw : wc.onWrite wc.calls s.commitBytes with ⟨n, _ | e⟩
  · simp only [hw] at h ⊢
    by_cases hn : n = s.commitBytes.length
    · simp only [hn, ne_eq, not_true_eq_false, if_false, WriteCloser.Close] at h ⊢
      rcases hc : wc.onClose (wc.calls ++ [SinkCall.Write s.commitBytes]) with _ | e
      · simp [hc]
      · simp [hc] at h
    · simp [hn] at h
  · simp [hw] at h

/-- A failed `Commit` returns the engine as it was. -/
theorem commit_error (s : State) (wc : WriteCloser) (e : Error) (h : (s.Commit wc).2.2 = some e) :
    (s.Commit wc).1 = s := by
  unfold State.Commit multiWrite WriteCloser.Write at *
  rcases hw : wc.onWrite wc.calls s.commitBytes with ⟨n, _ | e⟩
  · simp only [hw] at h ⊢
    by_cases hn : n = s.commitBytes.length
    · simp only [hn, ne_eq, not_true_eq_false, if_false, WriteCloser.Close] at h ⊢
      rcases hc : wc.onClose (wc.calls ++ [SinkCall.Write s.commitBytes]) with _ | e
      · simp [hc] at h
      · simp [hc]
    · simp [hn]
  · simp [hw]

/-- The engines built from a new one by `CompareAndSwap` and `Commit` calls. -/
inductive State.Built : State → Prop where
  | newState : State.Built NewState
  | compareAndSwap (s s' : State) (key : GoString) (old new : ByteSlice) (e : Option Error) :
      State.Built s → s.CompareAndSwap key old new = .ok (s', e) → State.Built s'
  | commit (s : State) (wc : WriteCloser) : State.Built s → State.Built (s.Commit wc).1

/-- `CompareAndSwap` never turns a map that is not nil into a nil one. -/
theorem compareAndSwap_data_isSome (s s' : State) (key : GoString) (old new : ByteSlice)
    (e : Option Error) (h : s.CompareAndSwap key old new = .ok (s', e))
    (hs : s.data.isSome = true) : s'.data.isSome = true := by
  simp only [State.CompareAndSwap] at h
  by_cases hb : (!bytesEqual ((mapIndex s.data key).getD none) old) = true
  · rw [if_pos hb] at h
    cases h
    exact hs
  · rw [if_neg hb] at h
    cases hd : s.data <;> rw [hd] at h <;> cases h
    rfl

/-- `Commit` leaves the map alone. -/
theorem commit_data (s : State) (wc : WriteCloser) : (s.Commit wc).1.data = s.data := by
  rcases h : (s.Commit wc).2.2 with _ | e
  · rw [(commit_ok s wc h).1]
  · rw [commit_error s wc e h]

theorem State.Built.data_isSome {s : State} (h : s.Built) : s.data.isSome = true := by
  induction h with
  | newState => rfl
  | compareAndSwap s s' key old new e _ hcas ih =>
    exact compareAndSwap_data_isSome s s' key old new e hcas ih
  | commit s wc _ ih => rw [commit_data]; exact ih

/-- Engines whose maps are not nil and answer every `Get` alike, with the same commit
count, commit the same bytes. -/
theorem commitBytes_eq_of_get_eq (s1 s2 : State) (h1 : s1.data.isSome = true)
    (h2 : s2.data.isSome = true) (hget : ∀ k, s1.Get k = s2.Get k)
    (hcount : s1.commitCount = s2.commitCount) : s1.commitBytes = s2.commitBytes := by
  rcases hd1 : s1.data with _ | m1
  · simp [hd1] at h1
  rcases hd2 : s2.data with _ | m2
  · simp [hd2] at h2
  have hl : ∀ k, assocGet k m1.entries = assocGet k m2.entries := by
    intro k
    have hk := hget k
    simp only [State.Get, hd1, hd2, mapIndex] at hk
    cases ha : assocGet k m1.entries <;> cases hb : assocGet k m2.entries <;>
      simp_all
  simp only [State.commitBytes, jsonEncode, hd1, hd2, hcount, encodeMap_eq_of_lookup_eq m1 m2 hl]

/-- The encoding of a nil map differs from that of any map that is not nil. -/
theorem jsonEncode_nil_ne (m : GoMap) (c1 c2 : Int) :
    jsonEncode { Data := none, CommitCount := c1 } ≠
      jsonEncode { Data := some m, CommitCount := c2 } := by
  intro h
  simp only [jsonEncode, encodeMap, List.append_assoc, List.cons.injEq, true_and] at h
  have h1 := List.append_cancel_left h
  simp only [List.cons_append, List.cons.injEq] at h1
  exact absurd h1.1 (by decide)

/-- The engine `Restore` leaves when its source is the empty object: no map. -/
def engineNoMap : State := (NewState.Restore (ascii "\x7b\x7d")).1

/-- C5. Two engines that answer every `Get` alike and have the same commit count,
both committing successfully: when both maps are nil or both are not (so for any
two engines built by `CompareAndSwap` and `Commit` calls, in whatever order), both
hand the same bytes to their sinks and have the same `Hash` afterwards; when one
map is nil and the other is not, the bytes handed to the sinks differ. At the
failing input, a new engine and one restored from the empty object: both answer
every `Get` with `ErrKeyNotFound` at commit count 0, the first commits an empty
object as its data, the second `null`, and their hashes differ. -/
theorem C5_commit_bytes_of_equal_engines (s1 s2 : State) (wc1 wc2 : WriteCloser) :
    ((∀ k, s1.Get k = s2.Get k) → s1.Commits = s2.Commits →
      (s1.Commit wc1).2.2 = none → (s2.Commit wc2).2.2 = none →
      (s1.data.isSome = s2.data.isSome →
        ∃ b : Bytes,
          (s1.Commit wc1).2.1.calls = wc1.calls ++ [SinkCall.Write b, SinkCall.Close] ∧
          (s2.Commit wc2).2.1.calls = wc2.calls ++ [SinkCall.Write b, SinkCall.Close] ∧
          (s1.Commit wc1).1.Hash = (s2.Commit wc2).1.Hash) ∧
      (s1.data.isSome ≠ s2.data.isSome →
        ∃ b1 b2 : Bytes, b1 ≠ b2 ∧
          (s1.Commit wc1).2.1.calls = wc1.calls ++ [SinkCall.Write b1, SinkCall.Close] ∧
          (s2.Commit wc2).2.1.calls = wc2.calls ++ [SinkCall.Write b2, SinkCall.Close])) ∧
    (s1.Built → s2.Built → s1.data.isSome = s2.data.isSome) ∧
    ((NewState.Restore (ascii "\x7b\x7d")).2 = none ∧
      (∀ k, engineNoMap.Get k = NewState.Get k) ∧ engineNoMap.Commits = NewState.Commits ∧
      (NewState.Commit (newNopWriteCloser bufferWriter)).2.2 = none ∧
      (engineNoMap.Commit (newNopWriteCloser bufferWriter)).2.2 = none ∧
      bufferContents (NewState.Commit (newNopWriteCloser bufferWriter)).2.1 =
        ascii "\x7b\"data\":\x7b\x7d,\"commit_count\":1\x7d\n" ∧
      bufferContents (engineNoMap.Commit (newNopWriteCloser bufferWriter)).2.1 =
        ascii "\x7b\"data\":null,\"commit_count\":1\x7d\n" ∧
      (NewState.Commit (newNopWriteCloser bufferWriter)).1.Hash ≠
        (engineNoMap.Commit (newNopWriteCloser bufferWriter)).1.Hash) := by
  refine ⟨fun hget hcount hok1 hok2 => ⟨fun hsome => ?_, fun hsome => ?_⟩,
    fun h1 h2 => by rw [h1.data_isSome, h2.data_isSome], by decide, fun k => ?_, by decide,
    by decide, by decide!, by decide, by decide!, by decide!⟩
  · have hb : s1.commitBytes = s2.commitBytes := by
      rcases hd1 : s1.data with _ | m1 <;> rcases hd2 : s2.data with _ | m2
      · have hc : s1.commitCount = s2.commitCount := hcount
        simp only [State.commitBytes, hd1, hd2, hc]
      · rw [hd1, hd2] at hsome
        cases hsome
      · rw [hd1, hd2] at hsome
        cases hsome
      · exact commitBytes_eq_of_get_eq s1 s2 (by rw [hd1]; rfl) (by rw [hd2]; rfl) hget hcount
    refine ⟨s1.commitBytes, (commit_ok s1 wc1 hok1).2, ?_, ?_⟩
    · rw [hb]; exact (commit_ok s2 wc2 hok2).2
    · rw [(commit_ok s1 wc1 hok1).1, (commit_ok s2 wc2 hok2).1, hb]
      rfl
  · refine ⟨s1.commitBytes, s2.commitBytes, ?_, (commit_ok s1 wc1 hok1).2,
      (commit_ok s2 wc2 hok2).2⟩
    rcases hd1 : s1.data with _ | m1 <;> rcases hd2 : s2.data with _ | m2
    · rw [hd1, hd2] at hsome
      exact absurd rfl hsome
    · simp only [State.commitBytes, hd1, hd2]
      exact jsonEncode_nil_ne m2 _ _
    · simp only [State.commitBytes, hd1, hd2]
      exact fun h => jsonEncode_nil_ne m1 _ _ h.symm
    · rw [hd1, hd2] at hsome
      exact absurd rfl hsome
  · have hd : engineNoMap.data = none := by decide
    simp only [State.Get, hd, mapIndex]
    rfl

/-- The engine built by writing `a` and then `b`. -/
def engineAB : State :=
  { data := some ⟨[(ascii "a", some (ascii "one")), (ascii "b", some (ascii "two"))], by decide⟩
    commitCount := 0, lastCommitHash := none }

/-- The engine built by writing `b` and then `a`. -/
def engineBA : State :=
  { data := some ⟨[(ascii "b", some (ascii "two")), (ascii "a", some (ascii "one"))], by decide⟩
    commitCount := 0, lastCommitHash := none }

/-- The engine built by writing `a`. -/
def engineA : State :=
  { data := some ⟨[(ascii "a", some (ascii "one"))], by decide⟩
    commitCount := 0, lastCommitHash := none }

/-- The engine built by writing `b`. -/
def engineB : State :=
  { data := some ⟨[(ascii "b", some (ascii "two"))], by decide⟩
    commitCount := 0, lastCommitHash := none }

theorem engineAB_built : engineAB.Built :=
  State.Built.compareAndSwap engineA engineAB (ascii "b") none (some (ascii "two")) none
    (State.Built.compareAndSwap NewState engineA (ascii "a") none (some (ascii "one")) none
      State.Built.newState (by decide))
    (by decide)

theorem engineBA_built : engineBA.Built :=
  State.Built.compareAndSwap engineB engineBA (ascii "a") none (some (ascii "one")) none
    (State.Built.compareAndSwap NewState engineB (ascii "b") none (some (ascii "two")) none
      State.Built.newState (by decide))
    (by decide)

theorem engineAB_get_eq (k : GoString) : engineAB.Get k = engineBA.Get k := by
  by_cases ha : ascii "a" = k
  · subst ha; decide
  · by_cases hb : ascii "b" = k
    · subst hb; decide
    · simp [State.Get, mapIndex, engineAB, engineBA, assocGet, ha, hb]

theorem C5_commit_bytes_witness :
    engineAB.data ≠ engineBA.data ∧
    ∃ b : Bytes,
      (engineAB.Commit (newNopWriteCloser bufferWriter)).2.1.calls =
        (newNopWriteCloser bufferWriter).calls ++ [SinkCall.Write b, SinkCall.Close] ∧
      (engineBA.Commit (newNopWriteCloser Discard)).2.1.calls =
        (newNopWriteCloser Discard).calls ++ [SinkCall.Write b, SinkCall.Close] ∧
      (engineAB.Commit (newNopWriteCloser bufferWriter)).1.Hash =
        (engineBA.Commit (newNopWriteCloser Discard)).1.Hash :=
  ⟨by decide,
   ((C5_commit_bytes_of_equal_engines engineAB engineBA (newNopWriteCloser bufferWriter)
     (newNopWriteCloser Discard)).1 engineAB_get_eq rfl (by decide!) (by decide!)).1 rfl⟩

/-- C6: a failed `Commit`. When the write fails, is short, or the close fails,
`Commit` returns that error; and whenever `Commit` returns an error, `Commits`,
`Hash` and every `Get` answer are what they were before the call. -/
theorem C6_failed_commit_leaves_engine_unchanged (s : State) (wc : WriteCloser) :
    (∀ e, (wc.Write s.commitBytes).2.2 = some e → (s.Commit wc).2.2 = some e) ∧
    ((wc.Write s.commitBytes).2.2 = none →
      (wc.Write s.commitBytes).2.1 ≠ s.commitBytes.length →
      (s.Commit wc).2.2 = some Error.ErrShortWrite) ∧
    (∀ e, (wc.Write s.commitBytes).2.2 = none →
      (wc.Write s.commitBytes).2.1 = s.commitBytes.length →
      ((wc.Write s.commitBytes).1.Close).2 = some e → (s.Commit wc).2.2 = some e) ∧
    (∀ e, (s.Commit wc).2.2 = some e →
      (s.Commit wc).1.Commits = s.Commits ∧ (s.Commit wc).1.Hash = s.Hash ∧
      (∀ k, (s.Commit wc).1.Get k = s.Get k) ∧ (s.Commit wc).1 = s) := by
  refine ⟨?_, ?_, ?_, ?_⟩
  · intro e h
    simp only [WriteCloser.Write] at h
    rcases hw : wc.onWrite wc.calls s.commitBytes with ⟨n, eo⟩
    simp only [hw] at h
    subst h
    simp [State.Commit, multiWrite, WriteCloser.Write, hw]
  · intro h hn
    simp only [WriteCloser.Write] at h hn
    rcases hw : wc.onWrite wc.calls s.commitBytes with ⟨n, eo⟩
    simp only [hw] at h hn
    subst h
    simp [State.Commit, multiWrite, WriteCloser.Write, hw, hn]
  · intro e h hn hc
    simp only [WriteCloser.Write] at h hn hc
    rcases hw : wc.onWrite wc.calls s.commitBytes with ⟨n, eo⟩
    simp only [hw] at h hn
    subst h hn
    simp only [WriteCloser.Close] at hc
    simp [State.Commit, multiWrite, WriteCloser.Write, WriteCloser.Close, hw, hc]
  · intro e h
    rw [commit_error s wc e h]
    exact ⟨rfl, rfl, fun _ => rfl, rfl⟩

/-- A sink whose `Write` succeeds and whose `Close` fails. -/
def closeFails : WriteCloser :=
  { calls := [], onWrite := fun _ p => (p.length, none),
    onClose := fun _ => some (Error.External 1) }

/-- A sink whose `Write` fails. -/
def writeFails : WriteCloser :=
  { calls := [], onWrite := fun _ _ => (0, some (Error.External 2)), onClose := fun _ => none }

theorem C6_failed_commit_witness :
    (engineAB.Commit closeFails).2.2 = some (Error.External 1) ∧
    (engineAB.Commit writeFails).2.2 = some (Error.External 2) ∧
    ((engineAB.Commit closeFails).1.Commits = engineAB.Commits ∧
      (engineAB.Commit closeFails).1.Hash = engineAB.Hash ∧
      (∀ k, (engineAB.Commit closeFails).1.Get k = engineAB.Get k) ∧
      (engineAB.Commit closeFails).1 = engineAB) :=
  ⟨(C6_failed_commit_leaves_engine_unchanged engineAB closeFails).2.2.1 (Error.External 1)
      rfl (by decide!) rfl,
   (C6_failed_commit_leaves_engine_unchanged engineAB writeFails).1 (Error.External 2) rfl,
   (C6_failed_commit_leaves_engine_unchanged engineAB closeFails).2.2.2 (Error.External 1)
      (by decide!)⟩

/-! ### The commit count in the bytes written -/

theorem wrapInt64_of_inRange (x : Int) (hlo : -2 ^ 63 ≤ x) (hhi : x < 2 ^ 63) :
    wrapInt64 x = x := by
  unfold wrapInt64
  omega

theorem parseDigits_append (l1 l2 : Bytes) :
    ∀ a : Nat, parseDigits a (l1 ++ l2) = (parseDigits a l1).bind (fun x => parseDigits x l2) := by
  induction l1 with
  | nil => intro a; rfl
  | cons c l1 ih =>
    intro a
    by_cases hc : isDigit c = true
    · simp only [List.cons_append, parseDigits, hc, if_true]
      exact ih _
    · simp only [List.cons_append, parseDigits, hc, Bool.false_eq_true, if_false, Option.none_bind,
        Option.bind]

theorem digit_spec (d : Nat) (h : d < 10) :
    isDigit (Fin.ofNat (0x30 + d) : Byte) = true ∧ (Fin.ofNat (0x30 + d) : Byte).val - 0x30 = d := by
  interval_cases d <;> decide

/-- The digits `formatNatAux` writes are read back by `parseDigits` as the number. -/
theorem formatNatAux_spec : ∀ (fuel n : Nat) (acc : Bytes), n < fuel →
    ∃ ds : Bytes, formatNatAux fuel n acc = ds ++ acc ∧
      (∀ a, parseDigits a ds = some (a * 10 ^ ds.length + n)) ∧
      (∃ c rest, ds = c :: rest ∧ isDigit c = true)
  | 0, _, _, h => absurd h (Nat.not_lt_zero _)
  | fuel + 1, n, acc, h => by
      by_cases hn : n < 10
      · refine ⟨[Fin.ofNat (0x30 + n)], by simp [formatNatAux, hn], ?_, _, _, rfl, (digit_spec n hn).1⟩
        intro a
        simp [parseDigits, (digit_spec n hn).1, (digit_spec n hn).2]
      · have hlt : n / 10 < fuel := by omega
        obtain ⟨ds, hds, hparse, c, rest, hc, hcd⟩ :=
          formatNatAux_spec fuel (n / 10) (Fin.ofNat (0x30 + n % 10) :: acc) hlt
        have hd := digit_spec (n % 10) (Nat.mod_lt _ (by decide))
        refine ⟨ds ++ [Fin.ofNat (0x30 + n % 10)], ?_, ?_, c, rest ++ [Fin.ofNat (0x30 + n % 10)],
          by rw [hc]; rfl, hcd⟩
        · simp [formatNatAux, hn, hds]
        · intro a
          rw [parseDigits_append, hparse]
          simp only [Option.some_bind, parseDigits, hd.1, if_true, hd.2, List.length_append,
            List.length_singleton, Option.some.injEq]
          rw [pow_succ]
          have := Nat.div_add_mod n 10
          nlinarith [this]

theorem parseDigits_formatNat (n : Nat) :
    parseDigits 0 (formatNat n) = some n ∧ ∃ c rest, formatNat n = c :: rest ∧ isDigit c = true := by
  obtain ⟨ds, hds, hparse, hne⟩ := formatNatAux_spec (n + 1) n [] (Nat.lt_succ_self n)
  rw [List.append_nil] at hds
  unfold formatNat
  rw [hds]
  exact ⟨by simpa using hparse 0, hne⟩

/-- The decimal text written for an `int64` is read back as the same number. -/
theorem parseInt64_formatInt (i : Int) (hlo : -2 ^ 63 ≤ i) (hhi : i < 2 ^ 63) :
    parseInt64 (formatInt i) = some i := by
  by_cases hneg : i < 0
  · obtain ⟨hp, c, rest, hc, _⟩ := parseDigits_formatNat i.natAbs
    have hle : i.natAbs ≤ 2 ^ 63 := by omega
    have hi : -((i.natAbs : Nat) : Int) = i := by omega
    simp only [formatInt, hneg, if_true, parseInt64]
    rw [show ((0x2D : Byte).val = 0x2D) from rfl]
    simp only [if_true]
    rw [hc] at hp ⊢
    simp only [hp, hle, if_true, hi]
  · obtain ⟨hp, c, rest, hc, hcd⟩ := parseDigits_formatNat i.toNat
    have hlt : i.toNat < 2 ^ 63 := by omega
    have hi : ((i.toNat : Nat) : Int) = i := by omega
    have hc2 : ¬ c.val = 0x2D := by
      intro h
      simp [isDigit, h] at hcd
    simp only [formatInt, hneg, if_false]
    rw [hc] at hp ⊢
    simp only [parseInt64, hc2, if_false, hp, hlt, if_true, hi]

/-- The bytes of a reader holding a commit count of 2^63 - 1. -/
def maxCountSource : Bytes :=
  ascii "\x7b\"data\":\x7b\x7d,\"commit_count\":9223372036854775807\x7d"

/-- C7 as stated fails when the count is the largest `int64`: the engine restored
from `maxCountSource` has `Commits() = 2^63 - 1`; its commit succeeds, and
afterwards `Commits()` is `-2^63`, not `2^63`. -/
theorem C7_commit_count_wraps_at_max :
    (NewState.Restore maxCountSource).2 = none ∧
    (NewState.Restore maxCountSource).1.Commits = 2 ^ 63 - 1 ∧
    ((NewState.Restore maxCountSource).1.Commit (newNopWriteCloser bufferWriter)).2.2 = none ∧
    ((NewState.Restore maxCountSource).1.Commit (newNopWriteCloser bufferWriter)).1.Commits =
      -2 ^ 63 ∧
    ((NewState.Restore maxCountSource).1.Commit (newNopWriteCloser bufferWriter)).1.Commits ≠
      (NewState.Restore maxCountSource).1.Commits + 1 := by
  and_intros <;> decide!

/-- C7, amended: for an engine with `Commits() = n`, `n` an `int64` below the largest
one, a successful `Commit` leaves `Commits() = n + 1`; the bytes handed to the sink
are the encoding of the map with the count `n + 1`, in which the count stands as the
decimal text of `n + 1` after `"commit_count":`, text that the decoder reads back
as `n + 1`; and every `Get` answer is what it was. -/
theorem C7_commit_advances_count (s : State) (wc : WriteCloser) (n : Int)
    (hn : s.Commits = n) (hlo : -2 ^ 63 ≤ n) (hhi : n < 2 ^ 63 - 1)
    (hok : (s.Commit wc).2.2 = none) :
    (s.Commit wc).1.Commits = n + 1 ∧
    (s.Commit wc).2.1.calls = wc.calls ++
      [SinkCall.Write (jsonEncode { Data := s.data, CommitCount := n + 1 }), SinkCall.Close] ∧
    jsonEncode { Data := s.data, CommitCount := n + 1 } =
      0x7B :: (ascii "\"data\":" ++ encodeMap s.data ++ ascii ",\"commit_count\":" ++
        formatInt (n + 1) ++ [0x7D, 0x0A]) ∧
    parseInt64 (formatInt (n + 1)) = some (n + 1) ∧
    (∀ k, (s.Commit wc).1.Get k = s.Get k) := by
  have hw : wrapInt64 (s.commitCount + 1) = n + 1 := by
    have : s.commitCount = n := hn
    rw [this]
    exact wrapInt64_of_inRange (n + 1) (by omega) (by omega)
  obtain ⟨h1, h2⟩ := commit_ok s wc hok
  refine ⟨?_, ?_, rfl, parseInt64_formatInt (n + 1) (by omega) (by omega), ?_⟩
  · rw [h1]
    exact hw
  · rw [h2, State.commitBytes, hw]
  · intro k
    rw [h1]
    rfl

theorem C7_commit_advances_count_witness :
    (engineAB.Commit (newNopWriteCloser bufferWriter)).1.Commits = 0 + 1 ∧
    (engineAB.Commit (newNopWriteCloser bufferWriter)).2.1.calls =
      (newNopWriteCloser bufferWriter).calls ++
        [SinkCall.Write (jsonEncode { Data := engineAB.data, CommitCount := 0 + 1 }),
          SinkCall.Close] ∧
    jsonEncode { Data := engineAB.data, CommitCount := 0 + 1 } =
      0x7B :: (ascii "\"data\":" ++ encodeMap engineAB.data ++ ascii ",\"commit_count\":" ++
        formatInt (0 + 1) ++ [0x7D, 0x0A]) ∧
    parseInt64 (formatInt (0 + 1)) = some (0 + 1) ∧
    (∀ k, (engineAB.Commit (newNopWriteCloser bufferWriter)).1.Get k = engineAB.Get k) :=
  C7_commit_advances_count engineAB (newNopWriteCloser bufferWriter) 0 rfl (by decide)
    (by decide) (by decide!)

/-! ## The adapter: reconciliation at commit -/

theorem assocSet_of_not_mem (k : GoString) (v : ByteSlice) :
    ∀ es : List (GoString × ByteSlice), k ∉ es.map Prod.fst → assocSet k v es = es ++ [(k, v)]
  | [], _ => rfl
  | e :: es, h => by
      rw [List.map_cons, List.mem_cons, not_or] at h
      have h1 : ¬ e.1 = k := fun h2 => h.1 h2.symm
      simp only [assocSet, h1, if_false, assocSet_of_not_mem k v es h.2, List.cons_append]

/-- Copying entries with distinct keys one by one into a map reproduces them. -/
theorem foldl_set_entries : ∀ (es : List (GoString × ByteSlice)) (acc : GoMap),
    ((acc.entries ++ es).map Prod.fst).Nodup →
      (es.foldl (fun d e => d.set e.1 e.2) acc).entries = acc.entries ++ es
  | [], acc, _ => by simp
  | e :: es, acc, h => by
      have hnot : e.1 ∉ acc.entries.map Prod.fst := by
        rw [List.map_append, List.map_cons] at h
        intro hmem
        exact (List.nodup_append.mp h).2.2 hmem (List.mem_cons_self _ _)
      have hset : (acc.set e.1 e.2).entries = acc.entries ++ [e] := by
        simp only [GoMap.set]
        rw [assocSet_of_not_mem e.1 e.2 acc.entries hnot]
      rw [List.foldl_cons, foldl_set_entries es (acc.set e.1 e.2) (by
        rw [hset, List.append_assoc]; exact h), hset, List.append_assoc]
      rfl

/-- After `copyState` the destination answers every `Get` as the source does. -/
theorem copyState_get (dst src : State) (k : GoString) : (copyState dst src).Get k = src.Get k := by
  have hm : mapIndex (copyState dst src).data k = mapIndex src.data k := by
    simp only [copyState, mapIndex]
    rw [foldl_set_entries]
    · cases hd : src.data <;> simp [mapEntries, GoMap.empty, assocGet]
    · cases hd : src.data
      · simp [mapEntries, GoMap.empty]
      · rename_i m
        simpa [mapEntries, GoMap.empty] using m.nodup
  simp only [State.Get, hm]

/-- When the engine's commit succeeds, `Application.Commit` returns. -/
theorem Application.commit_of_ok (a : Application)
    (h : (a.consensus.Commit a.persist).2.2 = none) :
    a.Commit = .ok
      ({ mempool := copyState a.mempool (a.consensus.Commit a.persist).1,
         consensus := (a.consensus.Commit a.persist).1,
         persist := (a.consensus.Commit a.persist).2.1 },
       { Data := (a.consensus.Commit a.persist).1.Hash }) := by
  unfold Application.Commit
  rcases hc : a.consensus.Commit a.persist with ⟨c, wc, eo⟩
  rw [hc] at h
  simp only at h
  subst h
  rfl

/-- When `Application.Commit` returns, the engine's commit succeeded and the
application is the one `commit_of_ok` describes. -/
theorem Application.commit_inv (a a' : Application) (r : ResponseCommit)
    (h : a.Commit = .ok (a', r)) :
    (a.consensus.Commit a.persist).2.2 = none ∧
    a' = { mempool := copyState a.mempool (a.consensus.Commit a.persist).1,
           consensus := (a.consensus.Commit a.persist).1,
           persist := (a.consensus.Commit a.persist).2.1 } ∧
    r = { Data := (a.consensus.Commit a.persist).1.Hash } := by
  unfold Application.Commit at h
  rcases hc : a.consensus.Commit a.persist with ⟨c, wc, eo⟩
  rw [hc] at h
  cases eo with
  | some e => simp at h
  | none =>
    simp only [Except.ok.injEq, Prod.mk.injEq] at h
    exact ⟨rfl, h.1.symm, h.2.symm⟩

/-- C8: right after `Application.Commit` has returned, the mempool engine answers
every `Get` as the consensus engine does (so they hold the same keys with the same
values), and has the same `Commits` and `Hash`; it does not depend on what the
mempool engine was before; and the consensus engine is the one its own `Commit`
left, untouched by the copy. -/
theorem C8_commit_reconciles_mempool (a a' : Application) (r : ResponseCommit)
    (h : a.Commit = .ok (a', r)) :
    (∀ k, a'.mempool.Get k = a'.consensus.Get k) ∧
    a'.mempool.Commits = a'.consensus.Commits ∧
    a'.mempool.Hash = a'.consensus.Hash ∧
    a'.mempool = copyState NewState a'.consensus ∧
    a'.consensus = (a.consensus.Commit a.persist).1 := by
  obtain ⟨_, ha', _⟩ := Application.commit_inv a a' r h
  subst ha'
  exact ⟨fun k => copyState_get a.mempool (a.consensus.Commit a.persist).1 k, rfl, rfl, rfl, rfl⟩

/-- A new application with a buffer as its sink. -/
def appNew : Application :=
  { mempool := NewState, consensus := NewState, persist := newNopWriteCloser bufferWriter }

/-- An application whose engines have drifted apart: `a = one` was delivered,
`z = zed` was only checked. -/
def appDrifted : Application :=
  { mempool := { data := some ⟨[(ascii "z", some (ascii "zed"))], by decide⟩
                 commitCount := 0, lastCommitHash := none }
    consensus := engineA
    persist := newNopWriteCloser bufferWriter }

theorem C8_commit_reconciles_witness :
    ∃ a' r, appDrifted.Commit = .ok (a', r) ∧
      appDrifted.mempool.Get (ascii "z") ≠ appDrifted.consensus.Get (ascii "z") ∧
      ((∀ k, a'.mempool.Get k = a'.consensus.Get k) ∧
        a'.mempool.Commits = a'.consensus.Commits ∧
        a'.mempool.Hash = a'.consensus.Hash ∧
        a'.mempool = copyState NewState a'.consensus ∧
        a'.consensus = (appDrifted.consensus.Commit appDrifted.persist).1) :=
  ⟨_, _, Application.commit_of_ok appDrifted (by decide!), by decide,
    C8_commit_reconciles_mempool appDrifted _ _ (Application.commit_of_ok appDrifted (by decide!))⟩

/-! ## The adapter: each transaction hook and its engine -/

/-- What `CheckTx` returns in terms of the mempool engine alone. -/
theorem Application.checkTx_inv (a a' : Application) (p : Bytes) (r : ResponseCheckTx)
    (h : a.CheckTx p = .ok (a', r)) :
    a'.consensus = a.consensus ∧ a'.persist = a.persist := by
  unfold Application.CheckTx at h
  rcases hp : parseTx p with ⟨key, old, new, code, log⟩
  rw [hp] at h
  simp only at h
  by_cases hc : code ≠ CodeTypeOK
  · rw [if_pos hc] at h
    cases h
    exact ⟨rfl, rfl⟩
  · rw [if_neg hc] at h
    rcases hcas : a.mempool.CompareAndSwap key old new with e | ⟨m, _ | err⟩ <;>
      rw [hcas] at h <;> cases h <;> exact ⟨rfl, rfl⟩

/-- What `DeliverTx` leaves alone. -/
theorem Application.deliverTx_inv (a a' : Application) (p : Bytes) (r : ResponseDeliverTx)
    (h : a.DeliverTx p = .ok (a', r)) :
    a'.mempool = a.mempool ∧ a'.persist = a.persist := by
  unfold Application.DeliverTx at h
  rcases hp : parseTx p with ⟨key, old, new, code, log⟩
  rw [hp] at h
  simp only at h
  by_cases hc : code ≠ CodeTypeOK
  · rw [if_pos hc] at h
    cases h
    exact ⟨rfl, rfl⟩
  · rw [if_neg hc] at h
    rcases hcas : a.consensus.CompareAndSwap key old new with e | ⟨m, _ | err⟩ <;>
      rw [hcas] at h <;> cases h <;> exact ⟨rfl, rfl⟩

/-- The answer of `CheckTx`, without the application it leaves. -/
def Application.checkTxResponse (a : Application) (p : Bytes) : Except Panic ResponseCheckTx :=
  (a.CheckTx p).map (fun r => r.2)

/-- The answers of a run, without the application it leaves. -/
def Application.responses (a : Application) (qs : List Request) : Except Panic (List Response) :=
  (a.run qs).map (fun r => r.2)

/-- `CheckTx` reads and writes the mempool engine only. -/
theorem Application.checkTx_congr (a b : Application) (p : Bytes) (h : a.mempool = b.mempool) :
    (a.CheckTx p).map (fun r => (r.1.mempool, r.2)) =
      (b.CheckTx p).map (fun r => (r.1.mempool, r.2)) := by
  unfold Application.CheckTx
  rcases parseTx p with ⟨key, old, new, code, log⟩
  simp only
  by_cases hc : code ≠ CodeTypeOK
  · simp only [if_pos hc, Except.map, h]
  · simp only [if_neg hc, h]
    rcases b.mempool.CompareAndSwap key old new with e | ⟨m, _ | err⟩ <;> rfl

/-- A run of `CheckTx` calls is answered from the mempool engine alone. -/
theorem Application.run_checks_congr (ps : List Bytes) :
    ∀ a b : Application, a.mempool = b.mempool →
      a.responses (ps.map Request.CheckTx) = b.responses (ps.map Request.CheckTx) := by
  induction ps with
  | nil => intro a b _; rfl
  | cons p ps ih =>
    intro a b h
    have hc := Application.checkTx_congr a b p h
    simp only [Application.responses, List.map_cons, Application.run, Application.handle] at ih ⊢
    rcases ha : a.CheckTx p with ea | ⟨a1, ra⟩ <;> rcases hb : b.CheckTx p with eb | ⟨b1, rb⟩ <;>
      rw [ha, hb] at hc <;> simp only [Except.map, Except.ok.injEq, Except.error.injEq,
        Prod.mk.injEq, reduceCtorEq] at hc
    · subst hc
      rfl
    · obtain ⟨hm, hr⟩ := hc
      subst hr
      have := ih a1 b1 hm
      simp only [Except.map]
      rcases h1 : a1.run (List.map Request.CheckTx ps) with e1 | ⟨a2, rs1⟩ <;>
        rcases h2 : b1.run (List.map Request.CheckTx ps) with e2 | ⟨b2, rs2⟩ <;>
        rw [h1, h2] at this <;> simp only [Except.map, Except.ok.injEq, Except.error.injEq,
          reduceCtorEq] at this
      · subst this; rfl
      · subst this; rfl

/-- C9: a `CheckTx` that returns leaves the consensus engine and the sink as they
were, so every `Query` answer, the answer of `Info` and the whole result of the next
commit of the engine (bytes written, hash, error) are as if it had not happened; a
`DeliverTx` that returns leaves the mempool engine as it was, so every later run of
`CheckTx` calls is answered as if it had not happened. -/
theorem C9_hooks_touch_own_engine (a a' : Application) (p : Bytes) :
    (∀ r, a.CheckTx p = .ok (a', r) →
      a'.consensus = a.consensus ∧ a'.persist = a.persist ∧
      (∀ d, a'.Query d = a.Query d) ∧ a'.Info = a.Info ∧
      a'.consensus.Commit a'.persist = a.consensus.Commit a.persist) ∧
    (∀ r, a.DeliverTx p = .ok (a', r) →
      a'.mempool = a.mempool ∧
      (∀ q, a'.checkTxResponse q = a.checkTxResponse q) ∧
      (∀ qs : List Bytes, a'.responses (qs.map Request.CheckTx) =
        a.responses (qs.map Request.CheckTx))) := by
  constructor
  · intro r h
    obtain ⟨hc, hp⟩ := Application.checkTx_inv a a' p r h
    refine ⟨hc, hp, fun d => ?_, ?_, ?_⟩
    · simp only [Application.Query, hc]
    · simp only [Application.Info, hc]
    · rw [hc, hp]
  · intro r h
    obtain ⟨hm, _⟩ := Application.deliverTx_inv a a' p r h
    refine ⟨hm, fun q => ?_, fun qs => Application.run_checks_congr qs a' a hm⟩
    have := Application.checkTx_congr a' a q hm
    simp only [Application.checkTxResponse]
    rcases h1 : a'.CheckTx q with e1 | ⟨a1, r1⟩ <;> rcases h2 : a.CheckTx q with e2 | ⟨a2, r2⟩ <;>
      rw [h1, h2] at this <;> simp only [Except.map, Except.ok.injEq, Except.error.injEq,
        Prod.mk.injEq, reduceCtorEq] at this ⊢
    · exact this
    · exact this.2

/-- The application after `a = one` was checked but not delivered. -/
def appChecked : Application :=
  { mempool := engineA, consensus := NewState, persist := newNopWriteCloser bufferWriter }

/-- The application after `a = one` was delivered but not checked. -/
def appDelivered : Application :=
  { mempool := NewState, consensus := engineA, persist := newNopWriteCloser bufferWriter }

theorem C9_hooks_witness :
    appNew.CheckTx (ascii "a::one") = .ok (appChecked, { Code := 0, Log := "" }) ∧
    appNew.DeliverTx (ascii "a::one") = .ok (appDelivered, { Code := 0, Log := "" }) ∧
    (appChecked.consensus = appNew.consensus ∧ appChecked.persist = appNew.persist ∧
      (∀ d, appChecked.Query d = appNew.Query d) ∧ appChecked.Info = appNew.Info ∧
      appChecked.consensus.Commit appChecked.persist =
        appNew.consensus.Commit appNew.persist) ∧
    (appDelivered.mempool = appNew.mempool ∧
      (∀ q, appDelivered.checkTxResponse q = appNew.checkTxResponse q) ∧
      (∀ qs : List Bytes, appDelivered.responses (qs.map Request.CheckTx) =
        appNew.responses (qs.map Request.CheckTx))) :=
  ⟨rfl, rfl,
   (C9_hooks_touch_own_engine appNew appChecked (ascii "a::one")).1 _ rfl,
   (C9_hooks_touch_own_engine appNew appDelivered (ascii "a::one")).2 _ rfl⟩

/-! ## The adapter: result codes -/

/-- The code `DeliverTx` returns, when it returns. -/
def Application.deliverTxCode (a : Application) (p : Bytes) : Option Nat :=
  match a.DeliverTx p with
  | .ok (_, r) => some r.Code
  | .error _ => none

/-- The code `CheckTx` returns, when it returns. -/
def Application.checkTxCode (a : Application) (p : Bytes) : Option Nat :=
  match a.CheckTx p with
  | .ok (_, r) => some r.Code
  | .error _ => none

/-- `p` parses as `key:old:new`: splitting at the first two colons gives three pieces. -/
def parsesAs (p : Bytes) (key : GoString) (old new : Bytes) : Prop :=
  splitN 3 p = [key, old, new]

theorem parseTx_of_parsesAs (p : Bytes) (key : GoString) (old new : Bytes)
    (h : parsesAs p key old new) : parseTx p = (key, some old, some new, CodeTypeOK, "") := by
  unfold parsesAs at h
  simp only [parseTx, h]

theorem parseTx_of_not_parses (p : Bytes) (h : ¬ ∃ key old new, parsesAs p key old new) :
    (parseTx p).2.2.2.1 = codeBadRequest := by
  unfold parseTx
  split
  · rename_i k o n heq
    exact absurd ⟨k, o, n, heq⟩ h
  · rfl

/-- `CompareAndSwap` returns no error other than `ErrCASFailure`. -/
theorem compareAndSwap_error (s s' : State) (key : GoString) (old new : ByteSlice) (e : Error)
    (h : s.CompareAndSwap key old new = .ok (s', some e)) : e = Error.ErrCASFailure := by
  simp only [State.CompareAndSwap] at h
  by_cases hb : (!bytesEqual ((mapIndex s.data key).getD none) old) = true
  · rw [if_pos hb] at h
    cases h
    rfl
  · rw [if_neg hb] at h
    cases hd : s.data <;> rw [hd] at h <;> cases h

/-- The code of a transaction hook, from the parse and the compare-and-swap on the
engine `s` the hook works on. -/
theorem hook_code (s : State) (p : Bytes) (code : Option Nat)
    (hbad : (¬ ∃ key old new, parsesAs p key old new) → code = some codeBadRequest)
    (hcas : ∀ key old new, parsesAs p key old new →
      code = match s.CompareAndSwap key (some old) (some new) with
        | .error _ => none
        | .ok (_, some _) => some codeCASFailure
        | .ok (_, none) => some CodeTypeOK) :
    (code = some CodeTypeOK ↔ ∃ key old new, parsesAs p key old new ∧
        ∃ s', s.CompareAndSwap key (some old) (some new) = .ok (s', none)) ∧
    (code = some codeCASFailure ↔ ∃ key old new, parsesAs p key old new ∧
        ∃ s', s.CompareAndSwap key (some old) (some new) = .ok (s', some Error.ErrCASFailure)) ∧
    (code = some codeBadRequest ↔ ¬ ∃ key old new, parsesAs p key old new) := by
  by_cases hp : ∃ key old new, parsesAs p key old new
  · obtain ⟨key, old, new, hk⟩ := hp
    have huniq : ∀ k o n, parsesAs p k o n → k = key ∧ o = old ∧ n = new := by
      intro k o n h
      have := h.symm.trans hk
      simp only [List.cons.injEq, and_true] at this
      exact this
    have hex : ∀ e' : Option Error,
        (∃ k o n, parsesAs p k o n ∧ ∃ s', s.CompareAndSwap k (some o) (some n) = .ok (s', e')) ↔
          ∃ s', s.CompareAndSwap key (some old) (some new) = .ok (s', e') := by
      intro e'
      constructor
      · rintro ⟨k, o, n, h, s', hs'⟩
        obtain ⟨rfl, rfl, rfl⟩ := huniq k o n h
        exact ⟨s', hs'⟩
      · rintro ⟨s', hs'⟩
        exact ⟨key, old, new, hk, s', hs'⟩
    have hyes : ∃ k o n, parsesAs p k o n := ⟨key, old, new, hk⟩
    rw [hex, hex, hcas key old new hk]
    rcases hr : s.CompareAndSwap key (some old) (some new) with e | ⟨s', _ | err⟩
    · simp [hyes]
    · simp [hyes, CodeTypeOK, codeCASFailure, codeBadRequest]
    · have herr := compareAndSwap_error s s' key (some old) (some new) err hr
      subst herr
      simp [hyes, CodeTypeOK, codeCASFailure, codeBadRequest]
  · have hc := hbad hp
    subst hc
    refine ⟨⟨fun h => ?_, fun h => ?_⟩, ⟨fun h => ?_, fun h => ?_⟩, ⟨fun _ => hp, fun _ => rfl⟩⟩
    · simp [CodeTypeOK, codeBadRequest] at h
    · obtain ⟨k, o, n, h, _⟩ := h
      exact absurd ⟨k, o, n, h⟩ hp
    · simp [codeCASFailure, codeBadRequest] at h
    · obtain ⟨k, o, n, h, _⟩ := h
      exact absurd ⟨k, o, n, h⟩ hp

/-- C10: `DeliverTx(p)` returns code 0 exactly when `p` parses as `key:old:new` and
`CompareAndSwap(key, old, new)` on the consensus engine returns success, code 514
exactly when `p` parses and that call returns `ErrCASFailure`, and code 513 exactly
when `p` does not parse; `CheckTx(p)` likewise, with the mempool engine. -/
theorem C10_result_code_mapping (a : Application) (p : Bytes) :
    ((a.deliverTxCode p = some 0 ↔ ∃ key old new, parsesAs p key old new ∧
        ∃ s', a.consensus.CompareAndSwap key (some old) (some new) = .ok (s', none)) ∧
      (a.deliverTxCode p = some 514 ↔ ∃ key old new, parsesAs p key old new ∧
        ∃ s', a.consensus.CompareAndSwap key (some old) (some new) =
          .ok (s', some Error.ErrCASFailure)) ∧
      (a.deliverTxCode p = some 513 ↔ ¬ ∃ key old new, parsesAs p key old new)) ∧
    ((a.checkTxCode p = some 0 ↔ ∃ key old new, parsesAs p key old new ∧
        ∃ s', a.mempool.CompareAndSwap key (some old) (some new) = .ok (s', none)) ∧
      (a.checkTxCode p = some 514 ↔ ∃ key old new, parsesAs p key old new ∧
        ∃ s', a.mempool.CompareAndSwap key (some old) (some new) =
          .ok (s', some Error.ErrCASFailure)) ∧
      (a.checkTxCode p = some 513 ↔ ¬ ∃ key old new, parsesAs p key old new)) := by
  constructor
  · apply hook_code a.consensus p (a.deliverTxCode p)
    · intro h
      have hcode := parseTx_of_not_parses p h
      unfold Application.deliverTxCode Application.DeliverTx
      rcases hp : parseTx p with ⟨key, old, new, code, log⟩
      rw [hp] at hcode
      simp only at hcode
      subst hcode
      rfl
    · intro key old new h
      unfold Application.deliverTxCode Application.DeliverTx
      rw [parseTx_of_parsesAs p key old new h]
      simp only [ne_eq, not_true_eq_false, if_false]
      rcases a.consensus.CompareAndSwap key (some old) (some new) with e | ⟨s', _ | err⟩ <;> rfl
  · apply hook_code a.mempool p (a.checkTxCode p)
    · intro h
      have hcode := parseTx_of_not_parses p h
      unfold Application.checkTxCode Application.CheckTx
      rcases hp : parseTx p with ⟨key, old, new, code, log⟩
      rw [hp] at hcode
      simp only at hcode
      subst hcode
      rfl
    · intro key old new h
      unfold Application.checkTxCode Application.CheckTx
      rw [parseTx_of_parsesAs p key old new h]
      simp only [ne_eq, not_true_eq_false, if_false]
      rcases a.mempool.CompareAndSwap key (some old) (some new) with e | ⟨s', _ | err⟩ <;> rfl

/-! ## Replica determinism -/

/-- The calls whose order the replicas agree on: `DeliverTx` and `Commit`. -/
def Request.isOrdered : Request → Bool
  | Request.DeliverTx _ => true
  | Request.Commit => true
  | _ => false

/-- What the replication engine compares between replicas. -/
inductive Observed where
  | deliverCode (code : Nat)
  | commitDigest (digest : ByteSlice)
  deriving DecidableEq

/-- The part of an answer the replicas must agree on: the code of a `DeliverTx`, the
digest of a `Commit`. -/
def Response.observed : Response → Option Observed
  | Response.DeliverTx r => some (Observed.deliverCode r.Code)
  | Response.Commit r => some (Observed.commitDigest r.Data)
  | _ => none

/-- The consensus engine after one call that returned, and what was observed, as a
function of the consensus engine before the call and of the call. -/
def orderedStep (c : State) : Request → State × Option Observed
  | Request.DeliverTx p =>
    match parseTx p with
    | (key, old, new, code, _) =>
      if code ≠ CodeTypeOK then (c, some (Observed.deliverCode code))
      else
        match c.CompareAndSwap key old new with
        | .error _ => (c, none)
        | .ok (c1, some _) => (c1, some (Observed.deliverCode codeCASFailure))
        | .ok (c1, none) => (c1, some (Observed.deliverCode CodeTypeOK))
  | Request.Commit =>
    ({ c with commitCount := wrapInt64 (c.commitCount + 1),
              lastCommitHash := some (sha256 c.commitBytes) },
     some (Observed.commitDigest (some (sha256 c.commitBytes))))
  | _ => (c, none)

/-- The consensus engine and the observations after a sequence of ordered calls. -/
def orderedRun (c : State) : List Request → State × List Observed
  | [] => (c, [])
  | q :: qs =>
    ((orderedRun (orderedStep c q).1 qs).1,
     ((orderedStep c q).2.toList ++ (orderedRun (orderedStep c q).1 qs).2))

theorem Application.deliverTx_ordered (a a' : Application) (p : Bytes) (r : ResponseDeliverTx)
    (h : a.DeliverTx p = .ok (a', r)) :
    a'.consensus = (orderedStep a.consensus (Request.DeliverTx p)).1 ∧
      some (Observed.deliverCode r.Code) = (orderedStep a.consensus (Request.DeliverTx p)).2 := by
  unfold Application.DeliverTx at h
  unfold orderedStep
  rcases hp : parseTx p with ⟨key, old, new, code, log⟩
  rw [hp] at h
  simp only [hp] at h ⊢
  by_cases hc : code ≠ CodeTypeOK
  · rw [if_pos hc] at h ⊢
    cases h
    exact ⟨rfl, rfl⟩
  · rw [if_neg hc] at h ⊢
    rcases hcas : a.consensus.CompareAndSwap key old new with e | ⟨m, _ | err⟩ <;>
      rw [hcas] at h <;> cases h <;> exact ⟨rfl, rfl⟩

theorem Application.handle_ordered (a a' : Application) (q : Request) (r : Response)
    (h : a.handle q = .ok (a', r)) :
    a'.consensus = (orderedStep a.consensus q).1 ∧
      (if q.isOrdered then r.observed = (orderedStep a.consensus q).2
       else a'.consensus = a.consensus ∧ r.observed = none) := by
  cases q with
  | DeliverTx p =>
    simp only [Application.handle] at h
    rcases hc : a.DeliverTx p with e | ⟨a1, r1⟩
    · rw [hc] at h
      cases h
    · rw [hc] at h
      simp only [Except.map, Except.ok.injEq, Prod.mk.injEq] at h
      obtain ⟨rfl, rfl⟩ := h
      obtain ⟨h1, h2⟩ := Application.deliverTx_ordered a a1 p r1 hc
      exact ⟨h1, by simpa [Request.isOrdered, Response.observed] using h2⟩
  | Commit =>
    simp only [Application.handle] at h
    rcases hc : a.Commit with e | ⟨a1, r1⟩
    · rw [hc] at h
      cases h
    · rw [hc] at h
      simp only [Except.map, Except.ok.injEq, Prod.mk.injEq] at h
      obtain ⟨rfl, rfl⟩ := h
      obtain ⟨hok, ha1, hr1⟩ := Application.commit_inv a a1 r1 hc
      have hst := (commit_ok a.consensus a.persist hok).1
      subst ha1 hr1
      refine ⟨?_, ?_⟩
      · show (a.consensus.Commit a.persist).1 = _
        rw [hst]
        rfl
      · simp only [Request.isOrdered, if_true, Response.observed, orderedStep, State.Hash]
        rw [hst]
  | CheckTx p =>
    simp only [Application.handle] at h
    rcases hc : a.CheckTx p with e | ⟨a1, r1⟩
    · rw [hc] at h
      cases h
    · rw [hc] at h
      simp only [Except.map, Except.ok.injEq, Prod.mk.injEq] at h
      obtain ⟨rfl, rfl⟩ := h
      have := (Application.checkTx_inv a a1 p r1 hc).1
      exact ⟨this, by simp [Request.isOrdered, this, Response.observed]⟩
  | Info | SetOption | InitChain | Query d | BeginBlock | EndBlock =>
    simp only [Application.handle, Except.ok.injEq, Prod.mk.injEq] at h
    obtain ⟨rfl, rfl⟩ := h
    exact ⟨rfl, by simp [Request.isOrdered, Response.observed]⟩

/-- A run that returns leaves the consensus engine, and the observations, that the
ordered calls among its calls determine from the consensus engine it started with. -/
theorem Application.run_ordered : ∀ (qs : List Request) (a a' : Application)
    (rs : List Response), a.run qs = .ok (a', rs) →
    (a'.consensus, rs.filterMap Response.observed) =
      orderedRun a.consensus (qs.filter Request.isOrdered)
  | [], a, a', rs, h => by
      simp only [Application.run, Except.ok.injEq, Prod.mk.injEq] at h
      obtain ⟨rfl, rfl⟩ := h
      rfl
  | q :: qs, a, a', rs, h => by
      simp only [Application.run] at h
      rcases hq : a.handle q with e | ⟨a1, r⟩
      · rw [hq] at h
        cases h
      · rw [hq] at h
        simp only at h
        rcases hrest : a1.run qs with e | ⟨a2, rs2⟩
        · rw [hrest] at h
          cases h
        · rw [hrest] at h
          simp only [Except.ok.injEq, Prod.mk.injEq] at h
          obtain ⟨rfl, rfl⟩ := h
          have ih := Application.run_ordered qs a1 a2 rs2 hrest
          obtain ⟨hstep, hobs⟩ := Application.handle_ordered a a1 q r hq
          by_cases ho : q.isOrdered = true
          · rw [if_pos ho] at hobs
            rw [List.filter_cons_of_pos ho]
            simp only [orderedRun]
            rw [← hstep, ← ih, ← hobs]
            cases hro : r.observed <;> simp [List.filterMap_cons, hro]
          · rw [if_neg ho] at hobs
            rw [List.filter_cons_of_neg ho, ← hobs.1, ← ih]
            simp only [List.filterMap_cons, hobs.2]

/-- Two engines in the same state: both maps nil or both not, the same value (or
none) under every key, the same commit count and the same hash. The order in which
the model lists the entries of a map, which Go does not define, plays no part. -/
def State.same (s t : State) : Prop :=
  s.data.isSome = t.data.isSome ∧ (∀ k, mapIndex s.data k = mapIndex t.data k) ∧
    s.commitCount = t.commitCount ∧ s.lastCommitHash = t.lastCommitHash

theorem State.same_refl (s : State) : s.same s := ⟨rfl, fun _ => rfl, rfl, rfl⟩

theorem mapIndex_set (m : GoMap) (k : GoString) (v : ByteSlice) (x : GoString) :
    mapIndex (some (m.set k v)) x = if x = k then some v else mapIndex (some m) x := by
  by_cases h : x = k
  · subst h
    simp only [mapIndex, GoMap.set, assocGet_assocSet_same, if_true]
  · simp only [mapIndex, GoMap.set, assocGet_assocSet_other k v x h, h, if_false]

/-- Engines in the same state commit the same bytes. -/
theorem State.same.commitBytes_eq {s t : State} (h : s.same t) : s.commitBytes = t.commitBytes := by
  obtain ⟨hsome, hidx, hcount, _⟩ := h
  rcases hs : s.data with _ | m1 <;> rcases ht : t.data with _ | m2 <;>
    simp only [hs, ht, Option.isSome_none, Option.isSome_some, reduceCtorEq] at hsome
  · simp only [State.commitBytes, hs, ht, hcount]
  · have hl : ∀ k, assocGet k m1.entries = assocGet k m2.entries := by
      intro k
      have := hidx k
      simpa only [hs, ht, mapIndex] using this
    simp only [State.commitBytes, jsonEncode, hs, ht, hcount, encodeMap_eq_of_lookup_eq m1 m2 hl]

/-- `CompareAndSwap` on engines in the same state: the same panic, or the same
returned error and engines in the same state again. -/
theorem State.same.compareAndSwap {s t : State} (h : s.same t) (key : GoString)
    (old new : ByteSlice) :
    match s.CompareAndSwap key old new, t.CompareAndSwap key old new with
    | .ok (s', e), .ok (t', e') => e = e' ∧ s'.same t'
    | .error _, .error _ => True
    | _, _ => False := by
  obtain ⟨hsome, hidx, hcount, hhash⟩ := h
  simp only [State.CompareAndSwap, hidx key]
  by_cases hb : (!bytesEqual ((mapIndex t.data key).getD none) old) = true
  · simp only [if_pos hb]
    exact ⟨by trivial, hsome, hidx, hcount, hhash⟩
  · simp only [if_neg hb]
    rcases hs : s.data with _ | m1 <;> rcases ht : t.data with _ | m2 <;>
      simp only [hs, ht, Option.isSome_none, Option.isSome_some, reduceCtorEq] at hsome
    · trivial
    · refine ⟨by trivial, rfl, fun k => ?_, hcount, hhash⟩
      have := hidx k
      rw [hs, ht] at this
      simp only [mapIndex_set, this]

/-- One ordered call on engines in the same state is observed alike and leaves
engines in the same state. -/
theorem State.same.orderedStep {c d : State} (h : c.same d) (q : Request) :
    (orderedStep c q).2 = (orderedStep d q).2 ∧ (orderedStep c q).1.same (orderedStep d q).1 := by
  cases q with
  | DeliverTx p =>
    unfold Cas.orderedStep
    rcases hp : parseTx p with ⟨key, old, new, code, log⟩
    simp only [hp]
    by_cases hc : code ≠ CodeTypeOK
    · simp only [if_pos hc]
      exact ⟨by trivial, h⟩
    · simp only [if_neg hc]
      have hcas := h.compareAndSwap key old new
      rcases hs : c.CompareAndSwap key old new with e | ⟨c1, _ | err⟩ <;>
        rcases ht : d.CompareAndSwap key old new with e' | ⟨d1, _ | err'⟩ <;>
        rw [hs, ht] at hcas <;> (try simp only [reduceCtorEq, false_and] at hcas) <;>
        first
          | exact ⟨by trivial, h⟩
          | exact ⟨by trivial, hcas.2⟩
  | Commit =>
    have hb := h.commitBytes_eq
    obtain ⟨hsome, hidx, hcount, _⟩ := h
    simp only [Cas.orderedStep, hb, hcount]
    exact ⟨trivial, hsome, hidx, rfl, rfl⟩
  | Info | SetOption | InitChain | Query x | CheckTx p | BeginBlock | EndBlock =>
    exact ⟨rfl, h⟩

theorem State.same.orderedRun : ∀ (qs : List Request) {c d : State}, c.same d →
    (orderedRun c qs).2 = (orderedRun d qs).2 ∧ (orderedRun c qs).1.same (orderedRun d qs).1
  | [], _, _, h => ⟨rfl, h⟩
  | q :: qs, c, d, h => by
      obtain ⟨h1, h2⟩ := h.orderedStep q
      obtain ⟨h3, h4⟩ := State.same.orderedRun qs h2
      simp only [Cas.orderedRun, h1, h3]
      exact ⟨trivial, h4⟩

/-- C1: two applications that start with consensus engines in the same state and are
given call sequences with the same `DeliverTx` and `Commit` calls in the same order,
whatever other calls lie between them: when both runs return, the codes of the
`DeliverTx` calls and the digests of the `Commit` calls agree one by one, and the
consensus engines at the end are in the same state (the same map, commit count and
hash). -/
theorem C1_replica_determinism (a1 a2 b1 b2 : Application) (t1 t2 : List Request)
    (r1 r2 : List Response) (hstart : a1.consensus.same a2.consensus)
    (hcalls : t1.filter Request.isOrdered = t2.filter Request.isOrdered)
    (hrun1 : a1.run t1 = .ok (b1, r1)) (hrun2 : a2.run t2 = .ok (b2, r2)) :
    r1.filterMap Response.observed = r2.filterMap Response.observed ∧
      b1.consensus.same b2.consensus := by
  have h1 := Application.run_ordered t1 a1 b1 r1 hrun1
  have h2 := Application.run_ordered t2 a2 b2 r2 hrun2
  obtain ⟨h3, h4⟩ := State.same.orderedRun (t2.filter Request.isOrdered) hstart
  rw [hcalls] at h1
  rw [← h1, ← h2] at h3 h4
  exact ⟨h3, h4⟩

/-- A new application that discards what it commits. -/
def appDiscarding : Application :=
  { mempool := NewState, consensus := NewState, persist := newNopWriteCloser Discard }

/-- One replica's calls: a block with two transactions, with checks and queries
between the ordered calls. -/
def replicaCalls1 : List Request :=
  [Request.Info, Request.CheckTx (ascii "z::zed"), Request.BeginBlock,
   Request.DeliverTx (ascii "a::one"), Request.Query (some (ascii "a")),
   Request.DeliverTx (ascii "a::two"), Request.CheckTx (ascii "a::other"), Request.EndBlock,
   Request.Commit, Request.Info]

/-- Another replica's calls: the same ordered calls, nothing else. -/
def replicaCalls2 : List Request :=
  [Request.DeliverTx (ascii "a::one"), Request.DeliverTx (ascii "a::two"), Request.Commit]

theorem C1_replica_determinism_witness :
    ∃ b1 r1 b2 r2, appNew.run replicaCalls1 = .ok (b1, r1) ∧
      appDiscarding.run replicaCalls2 = .ok (b2, r2) ∧
      r1.length = 10 ∧ r2.length = 3 ∧
      (r1.filterMap Response.observed = r2.filterMap Response.observed ∧
        b1.consensus.same b2.consensus) :=
  ⟨_, _, _, _, rfl, rfl, rfl, rfl,
    C1_replica_determinism appNew appDiscarding _ _ replicaCalls1 replicaCalls2 _ _
      (State.same_refl _) rfl rfl rfl⟩

/-! ## The wire format of a transaction -/

theorem colon_iff (c : Byte) : c.val = 0x3A ↔ c = 0x3A := by
  constructor
  · intro h
    exact Fin.ext h
  · intro h
    rw [h]
    rfl

theorem colon_val : (0x3A : Byte).val = 0x3A := rfl

theorem cutAtColon_none : ∀ p : Bytes, cutAtColon p = none ↔ (0x3A : Byte) ∉ p
  | [] => by simp [cutAtColon]
  | c :: rest => by
      by_cases hc : c.val = 0x3A
      · have := (colon_iff c).mp hc
        simp [cutAtColon, hc, this, colon_val]
      · have hne : ¬ (0x3A : Byte) = c := fun h => hc ((colon_iff c).mpr h.symm)
        simp only [cutAtColon, hc, if_false, Option.map_eq_none', cutAtColon_none rest,
          List.mem_cons, hne, false_or]

theorem cutAtColon_some : ∀ (p piece rest : Bytes), cutAtColon p = some (piece, rest) →
    p = piece ++ 0x3A :: rest ∧ (0x3A : Byte) ∉ piece
  | [], _, _, h => by simp [cutAtColon] at h
  | c :: p, piece, rest, h => by
      by_cases hc : c.val = 0x3A
      · have hc' := (colon_iff c).mp hc
        simp only [cutAtColon, hc, if_true, Option.some.injEq, Prod.mk.injEq] at h
        obtain ⟨rfl, rfl⟩ := h
        simp [hc']
      · have hne : ¬ (0x3A : Byte) = c := fun h => hc ((colon_iff c).mpr h.symm)
        simp only [cutAtColon, hc, if_false, Option.map_eq_some', Prod.mk.injEq] at h
        obtain ⟨⟨q1, q2⟩, hq, rfl, rfl⟩ := h
        obtain ⟨h1, h2⟩ := cutAtColon_some p q1 q2 hq
        simp only at h1 h2 ⊢
        refine ⟨by rw [h1]; rfl, ?_⟩
        simp only [List.mem_cons, hne, false_or]
        exact h2

/-- A byte string without a colon is cut nowhere. -/
theorem cutAtColon_of_not_mem (p : Bytes) (h : (0x3A : Byte) ∉ p) : cutAtColon p = none :=
  (cutAtColon_none p).mpr h

/-- A byte string is cut at its first colon. -/
theorem cutAtColon_append (piece rest : Bytes) (h : (0x3A : Byte) ∉ piece) :
    cutAtColon (piece ++ 0x3A :: rest) = some (piece, rest) := by
  induction piece with
  | nil => simp [cutAtColon, colon_val]
  | cons c piece ih =>
    rw [List.mem_cons, not_or] at h
    have hc : ¬ c.val = 0x3A := fun hc => h.1 ((colon_iff c).mp hc).symm
    show cutAtColon (c :: (piece ++ 0x3A :: rest)) = _
    simp only [cutAtColon, hc, if_false, ih h.2, Option.map_some']

/-- The pieces `parseTx` looks at, by the number of colons in the input. -/
theorem splitN_three (p : Bytes) :
    (p.count 0x3A < 2 ∧ (splitN 3 p).length < 3) ∨
    (2 ≤ p.count 0x3A ∧ ∃ key old new, splitN 3 p = [key, old, new] ∧
      p = key ++ 0x3A :: (old ++ 0x3A :: new) ∧ (0x3A : Byte) ∉ key ∧ (0x3A : Byte) ∉ old) := by
  rcases h1 : cutAtColon p with _ | ⟨key, rest⟩
  · left
    have hn := (cutAtColon_none p).mp h1
    simp [splitN, h1, List.count_eq_zero_of_not_mem hn]
  · obtain ⟨hp, hk⟩ := cutAtColon_some p key rest h1
    rcases h2 : cutAtColon rest with _ | ⟨old, new⟩
    · left
      have hn := (cutAtColon_none rest).mp h2
      subst hp
      simp [splitN, h1, h2, List.count_eq_zero_of_not_mem hn, List.count_eq_zero_of_not_mem hk]
    · right
      obtain ⟨hr, ho⟩ := cutAtColon_some rest old new h2
      subst hr hp
      refine ⟨?_, key, old, new, by simp [splitN, h1, h2], rfl, hk, ho⟩
      simp [List.count_eq_zero_of_not_mem hk, List.count_eq_zero_of_not_mem ho]

/-- A byte string with fewer than two colons does not parse. -/
theorem not_parses_of_count (p : Bytes) (h : p.count 0x3A < 2) :
    ¬ ∃ key old new, parsesAs p key old new := by
  rintro ⟨key, old, new, hp⟩
  rcases splitN_three p with ⟨_, hl⟩ | ⟨h2, _⟩
  · unfold parsesAs at hp
    rw [hp] at hl
    simp at hl
  · omega

/-- C12: `parseTx(p)` returns the malformed code exactly when `p` holds fewer than two
`:` bytes; otherwise it returns OK with `key` the bytes before the first `:`, `old`
the bytes between the first and the second `:`, and `new` all the bytes after the
second `:`, further `:` bytes included. -/
theorem C12_parseTx_splits_at_first_two_colons (p : Bytes) :
    ((parseTx p).2.2.2.1 = codeBadRequest ↔ p.count 0x3A < 2) ∧
    (parseTx [] = ([], none, none, codeBadRequest,
      "bad request: tx data must be \"<key>:<old>:<new>\"")) ∧
    (2 ≤ p.count 0x3A →
      ∃ key old new, parseTx p = (key, some old, some new, CodeTypeOK, "") ∧
        p = key ++ 0x3A :: (old ++ 0x3A :: new) ∧
        (0x3A : Byte) ∉ key ∧ (0x3A : Byte) ∉ old) := by
  rcases splitN_three p with ⟨hc, hl⟩ | ⟨hc, key, old, new, hs, hp, hk, ho⟩
  · refine ⟨⟨fun _ => hc, fun _ => parseTx_of_not_parses p (not_parses_of_count p hc)⟩, rfl, ?_⟩
    intro h
    omega
  · have hparse := parseTx_of_parsesAs p key old new hs
    refine ⟨⟨fun h => ?_, fun h => by omega⟩, rfl, fun _ => ⟨key, old, new, hparse, hp, hk, ho⟩⟩
    rw [hparse] at h
    simp [CodeTypeOK, codeBadRequest] at h

theorem C12_parseTx_witness :
    ∃ key old new, parseTx (ascii "k:v1:v2:with:colons") =
        (key, some old, some new, CodeTypeOK, "") ∧
      ascii "k:v1:v2:with:colons" = key ++ 0x3A :: (old ++ 0x3A :: new) ∧
      (0x3A : Byte) ∉ key ∧ (0x3A : Byte) ∉ old :=
  (C12_parseTx_splits_at_first_two_colons (ascii "k:v1:v2:with:colons")).2.2 (by decide)

/-! ## Malformed transactions -/

/-- C11: a byte string that does not parse as a transaction: `CheckTx` and `DeliverTx`
both return the malformed-request code 513 (which is neither OK nor the CAS-failure
code) and the application they leave is the one they were given, both engines
included. A byte string without a `:` is such a string. -/
theorem C11_malformed_rejected_untouched (a : Application) (p : Bytes)
    (h : ¬ ∃ key old new, parsesAs p key old new) :
    (∃ log, a.CheckTx p = .ok (a, { Code := codeBadRequest, Log := log })) ∧
    (∃ log, a.DeliverTx p = .ok (a, { Code := codeBadRequest, Log := log })) ∧
    a.checkTxCode p = some 513 ∧ a.deliverTxCode p = some 513 ∧
    codeBadRequest ≠ CodeTypeOK ∧ codeBadRequest ≠ codeCASFailure := by
  have hcode := parseTx_of_not_parses p h
  rcases hp : parseTx p with ⟨key, old, new, code, log⟩
  rw [hp] at hcode
  simp only at hcode
  subst hcode
  have h1 : a.CheckTx p = .ok (a, { Code := codeBadRequest, Log := log }) := by
    simp only [Application.CheckTx, hp]
    rfl
  have h2 : a.DeliverTx p = .ok (a, { Code := codeBadRequest, Log := log }) := by
    simp only [Application.DeliverTx, hp]
    rfl
  refine ⟨⟨log, h1⟩, ⟨log, h2⟩, ?_, ?_, by decide, by decide⟩
  · simp only [Application.checkTxCode, h1]
    rfl
  · simp only [Application.deliverTxCode, h2]
    rfl

theorem C11_malformed_witness :
    (∃ log, appDrifted.CheckTx (ascii "no delimiter") =
      .ok (appDrifted, { Code := codeBadRequest, Log := log })) ∧
    (∃ log, appDrifted.DeliverTx (ascii "no delimiter") =
      .ok (appDrifted, { Code := codeBadRequest, Log := log })) ∧
    appDrifted.checkTxCode (ascii "no delimiter") = some 513 ∧
    appDrifted.deliverTxCode (ascii "no delimiter") = some 513 ∧
    codeBadRequest ≠ CodeTypeOK ∧ codeBadRequest ≠ codeCASFailure :=
  C11_malformed_rejected_untouched appDrifted (ascii "no delimiter")
    (not_parses_of_count _ (by decide))

/-! ## Queries and their codes -/

/-- C13 as stated fails: the code `Query` returns for an absent key is
`codeBadRequest`, the very code `DeliverTx` and `CheckTx` return for a malformed
transaction; there is no fourth code. -/
theorem C13_not_found_code_is_malformed_code :
    appNew.consensus.Get (ascii "x") = (none, some Error.ErrKeyNotFound) ∧
    (appNew.Query (some (ascii "x"))).Code = 513 ∧
    appNew.deliverTxCode (ascii "no delimiter") = some 513 ∧
    appNew.checkTxCode (ascii "no delimiter") = some 513 ∧
    (appNew.Query (some (ascii "x"))).Code = codeBadRequest := by
  and_intros <;> decide

/-- C13, amended: the codes are three pairwise distinct values, OK (zero),
malformed-request (513) and CAS-precondition-failed (514); the code `Query` returns
for a key absent from the consensus engine is the malformed-request code, which
differs from OK and from the code of a CAS failure. -/
theorem C13_result_codes (a : Application) (d : ByteSlice)
    (h : (a.consensus.Get (sliceBytes d)).2 ≠ none) :
    CodeTypeOK = 0 ∧ codeBadRequest = 513 ∧ codeCASFailure = 514 ∧
    CodeTypeOK ≠ codeBadRequest ∧ CodeTypeOK ≠ codeCASFailure ∧
    codeBadRequest ≠ codeCASFailure ∧
    (a.Query d).Code = codeBadRequest ∧ (a.Query d).Code ≠ CodeTypeOK ∧
    (a.Query d).Code ≠ codeCASFailure := by
  have hq : (a.Query d).Code = codeBadRequest := by
    unfold Application.Query
    rcases hg : a.consensus.Get (sliceBytes d) with ⟨v, _ | e⟩
    · rw [hg] at h
      exact absurd rfl h
    · rfl
  rw [hq]
  and_intros <;> decide

theorem C13_result_codes_witness :
    CodeTypeOK = 0 ∧ codeBadRequest = 513 ∧ codeCASFailure = 514 ∧
    CodeTypeOK ≠ codeBadRequest ∧ CodeTypeOK ≠ codeCASFailure ∧
    codeBadRequest ≠ codeCASFailure ∧
    (appDelivered.Query (some (ascii "b"))).Code = codeBadRequest ∧
    (appDelivered.Query (some (ascii "b"))).Code ≠ CodeTypeOK ∧
    (appDelivered.Query (some (ascii "b"))).Code ≠ codeCASFailure :=
  C13_result_codes appDelivered (some (ascii "b")) (by decide)

/-- C14: `Query(d)` answers from the consensus engine alone. When the key
`string(d)` is present there the code is OK and `Value` is its value; when it is
absent the code is not OK and `Value` is nil; the two cases are told apart by the
code. `Key` is `d`. An application with the same consensus engine, whatever its
mempool engine and sink, gives the same answer. The call leaves the application as
it was. -/
theorem C14_query_reads_consensus (a : Application) (d : ByteSlice) :
    (∀ v, mapIndex a.consensus.data (sliceBytes d) = some v →
      (a.Query d).Code = CodeTypeOK ∧ (a.Query d).Value = v) ∧
    (mapIndex a.consensus.data (sliceBytes d) = none →
      (a.Query d).Code ≠ CodeTypeOK ∧ (a.Query d).Value = none) ∧
    ((a.Query d).Code = CodeTypeOK ↔ (mapIndex a.consensus.data (sliceBytes d)).isSome = true) ∧
    (a.Query d).Key = d ∧
    (∀ b : Application, b.consensus = a.consensus → b.Query d = a.Query d) ∧
    a.handle (Request.Query d) = .ok (a, Response.Query (a.Query d)) := by
  have hsome : ∀ v, mapIndex a.consensus.data (sliceBytes d) = some v →
      a.Query d = { Code := CodeTypeOK, Key := d, Value := v, Log := "" } := by
    intro v hv
    simp only [Application.Query, State.Get, hv]
  have hnone : mapIndex a.consensus.data (sliceBytes d) = none →
      a.Query d = { Code := codeBadRequest, Key := d, Value := none,
                    Log := Error.ErrKeyNotFound.text } := by
    intro hv
    simp only [Application.Query, State.Get, hv]
  refine ⟨fun v hv => by rw [hsome v hv]; exact ⟨rfl, rfl⟩,
    fun hv => by rw [hnone hv]; exact ⟨by simp [codeBadRequest, CodeTypeOK], rfl⟩, ?_, ?_, ?_,
    rfl⟩
  · rcases hv : mapIndex a.consensus.data (sliceBytes d) with _ | v
    · rw [hnone hv]
      simp [codeBadRequest, CodeTypeOK]
    · rw [hsome v hv]
      simp
  · rcases hv : mapIndex a.consensus.data (sliceBytes d) with _ | v
    · rw [hnone hv]
    · rw [hsome v hv]
  · intro b hb
    simp only [Application.Query, hb]

/-! ## The digest -/

/-- C16: when `Application.Commit` returns, the `Data` of its response is the
`Hash()` of the consensus engine, and that is the SHA-256 of the bytes the commit
handed to the sink in its one `Write` call: the encoding of the map with the new
commit count. -/
theorem C16_digest_is_hash_of_persisted_bytes (a a' : Application) (r : ResponseCommit)
    (h : a.Commit = .ok (a', r)) :
    r.Data = a'.consensus.Hash ∧
    ∃ b : Bytes,
      a'.persist.calls = a.persist.calls ++ [SinkCall.Write b, SinkCall.Close] ∧
      a'.consensus.Hash = some (sha256 b) ∧
      b = jsonEncode { Data := a.consensus.data, CommitCount := a'.consensus.Commits } := by
  obtain ⟨hok, ha', hr⟩ := Application.commit_inv a a' r h
  obtain ⟨hst, hcalls⟩ := commit_ok a.consensus a.persist hok
  subst ha' hr
  refine ⟨rfl, a.consensus.commitBytes, hcalls, ?_, ?_⟩
  · show (a.consensus.Commit a.persist).1.Hash = _
    rw [hst]
    rfl
  · show _ = jsonEncode { Data := _, CommitCount := (a.consensus.Commit a.persist).1.Commits }
    rw [hst]
    rfl

theorem C16_digest_witness :
    ∃ a' r, appDelivered.Commit = .ok (a', r) ∧
      (r.Data = a'.consensus.Hash ∧
      ∃ b : Bytes,
        a'.persist.calls = appDelivered.persist.calls ++ [SinkCall.Write b, SinkCall.Close] ∧
        a'.consensus.Hash = some (sha256 b) ∧
        b = jsonEncode { Data := appDelivered.consensus.data,
                         CommitCount := a'.consensus.Commits }) :=
  ⟨_, _, Application.commit_of_ok appDelivered (by decide!),
    C16_digest_is_hash_of_persisted_bytes appDelivered _ _
      (Application.commit_of_ok appDelivered (by decide!))⟩

/-! ## The state engine: what a compare-and-swap touches -/

/-- The two ways `CompareAndSwap` returns: with `ErrCASFailure` and the engine as it
was, or with success and the engine's map (which is not nil) holding `new` under
the key. -/
theorem compareAndSwap_inv (s s' : State) (key : GoString) (old new : ByteSlice)
    (e : Option Error) (h : s.CompareAndSwap key old new = .ok (s', e)) :
    (e = some Error.ErrCASFailure ∧ s' = s ∧
      sliceBytes ((mapIndex s.data key).getD none) ≠ sliceBytes old) ∨
    (e = none ∧ sliceBytes ((mapIndex s.data key).getD none) = sliceBytes old ∧
      ∃ m, s.data = some m ∧ s' = { s with data := some (m.set key new) }) := by
  simp only [State.CompareAndSwap] at h
  by_cases hb : (!bytesEqual ((mapIndex s.data key).getD none) old) = true
  · rw [if_pos hb] at h
    cases h
    left
    refine ⟨rfl, rfl, ?_⟩
    simpa [bytesEqual] using hb
  · rw [if_neg hb] at h
    right
    have hb' : sliceBytes ((mapIndex s.data key).getD none) = sliceBytes old := by
      simpa [bytesEqual] using hb
    rcases hd : s.data with _ | m
    · rw [hd] at h
      cases h
    · rw [hd] at h
      cases h
      exact ⟨rfl, hd ▸ hb', m, rfl, rfl⟩

theorem get_set_other (s : State) (m : GoMap) (hm : s.data = some m) (key : GoString)
    (new : ByteSlice) (k : GoString) (hk : k ≠ key) :
    ({ s with data := some (m.set key new) } : State).Get k = s.Get k := by
  simp only [State.Get, mapIndex_set, hk, if_false, hm]

theorem get_set_same (s : State) (m : GoMap) (key : GoString) (new : ByteSlice) :
    ({ s with data := some (m.set key new) } : State).Get key = (new, none) := by
  simp only [State.Get, mapIndex_set, if_true]

/-- C20: whatever a `CompareAndSwap` call returns, success or `ErrCASFailure`,
`Hash()` and `Commits()` are afterwards what they were before, and so is the `Get`
answer of every key other than the one the call names. -/
theorem C20_cas_leaves_digest_count_other_keys (s s' : State) (key : GoString)
    (old new : ByteSlice) (e : Option Error)
    (h : s.CompareAndSwap key old new = .ok (s', e)) :
    s'.Hash = s.Hash ∧ s'.Commits = s.Commits ∧ (∀ k, k ≠ key → s'.Get k = s.Get k) := by
  rcases compareAndSwap_inv s s' key old new e h with ⟨_, rfl, _⟩ | ⟨_, _, m, hm, rfl⟩
  · exact ⟨rfl, rfl, fun _ _ => rfl⟩
  · exact ⟨rfl, rfl, fun k hk => get_set_other s m hm key new k hk⟩

theorem C20_cas_frame_witness :
    engineA.CompareAndSwap (ascii "b") none (some (ascii "two")) = .ok (engineAB, none) ∧
    (engineAB.Hash = engineA.Hash ∧ engineAB.Commits = engineA.Commits ∧
      (∀ k, k ≠ ascii "b" → engineAB.Get k = engineA.Get k)) :=
  ⟨by decide,
   C20_cas_leaves_digest_count_other_keys engineA engineAB (ascii "b") none
     (some (ascii "two")) none (by decide)⟩

/-! ## The state engine: keys never written -/

/-- A sequence of `CompareAndSwap(key, old, new)` calls, one after the other, with
the errors they return. -/
def State.casAll (s : State) :
    List (GoString × ByteSlice × ByteSlice) → Except Panic (State × List (Option Error))
  | [] => .ok (s, [])
  | c :: cs =>
    match s.CompareAndSwap c.1 c.2.1 c.2.2 with
    | .error e => .error e
    | .ok (s1, e) =>
      match s1.casAll cs with
      | .error e' => .error e'
      | .ok (s2, es) => .ok (s2, e :: es)

/-- On an engine whose map is not nil every sequence of calls returns. -/
theorem casAll_returns : ∀ (calls : List (GoString × ByteSlice × ByteSlice)) (s : State),
    s.data.isSome = true → ∃ s' errs, s.casAll calls = .ok (s', errs) ∧
      errs.length = calls.length
  | [], s, _ => ⟨s, [], rfl, rfl⟩
  | c :: cs, s, hs => by
      rcases hc : s.CompareAndSwap c.1 c.2.1 c.2.2 with e | ⟨s1, e⟩
      · simp only [State.CompareAndSwap] at hc
        rcases hd : s.data with _ | m
        · simp [hd] at hs
        · rw [hd] at hc
          split at hc <;> cases hc
      · have h1 := compareAndSwap_data_isSome s s1 c.1 c.2.1 c.2.2 e hc hs
        obtain ⟨s2, es, h2, hlen⟩ := casAll_returns cs s1 h1
        exact ⟨s2, e :: es, by simp only [State.casAll, hc, h2], by simp [hlen]⟩

/-- A key that is absent stays absent over calls none of which both names it and
succeeds. -/
theorem casAll_absent (k : GoString) :
    ∀ (calls : List (GoString × ByteSlice × ByteSlice)) (s s' : State)
      (errs : List (Option Error)),
      s.Get k = (none, some Error.ErrKeyNotFound) → s.casAll calls = .ok (s', errs) →
      (∀ ce ∈ calls.zip errs, ce.1.1 = k → ce.2 ≠ none) →
      s'.Get k = (none, some Error.ErrKeyNotFound)
  | [], s, s', errs, hg, h, _ => by
      simp only [State.casAll, Except.ok.injEq, Prod.mk.injEq] at h
      rw [← h.1]
      exact hg
  | c :: cs, s, s', errs, hg, h, hno => by
      simp only [State.casAll] at h
      rcases hc : s.CompareAndSwap c.1 c.2.1 c.2.2 with e | ⟨s1, e⟩
      · rw [hc] at h
        cases h
      · rw [hc] at h
        simp only at h
        rcases hr : s1.casAll cs with e' | ⟨s2, es⟩
        · rw [hr] at h
          cases h
        · rw [hr] at h
          simp only [Except.ok.injEq, Prod.mk.injEq] at h
          obtain ⟨rfl, rfl⟩ := h
          have hg1 : s1.Get k = (none, some Error.ErrKeyNotFound) := by
            rcases compareAndSwap_inv s s1 c.1 c.2.1 c.2.2 e hc with
              ⟨_, rfl, _⟩ | ⟨he, _, m, hm, rfl⟩
            · exact hg
            · have hne : k ≠ c.1 := by
                intro hk
                exact hno (c, e) (by simp) hk.symm he
              rw [get_set_other s m hm c.1 c.2.2 k hne]
              exact hg
          refine casAll_absent k cs s1 s2 es hg1 hr ?_
          intro ce hce
          exact hno ce (by
            rw [List.zip_cons_cons]
            exact List.mem_cons_of_mem _ hce)

/-- C19: `Get(k)` on a new engine returns `ErrKeyNotFound` and no value, for every
`k`; and so it does after any sequence of `CompareAndSwap` calls on a new engine
(every such sequence returns) in which no call that succeeded named `k`. -/
theorem C19_never_written_key_not_found (k : GoString)
    (calls : List (GoString × ByteSlice × ByteSlice)) :
    NewState.Get k = (none, some Error.ErrKeyNotFound) ∧
    ∃ s' errs, NewState.casAll calls = .ok (s', errs) ∧ errs.length = calls.length ∧
      ((∀ ce ∈ calls.zip errs, ce.1.1 = k → ce.2 ≠ none) →
        s'.Get k = (none, some Error.ErrKeyNotFound)) := by
  obtain ⟨s', errs, h, hlen⟩ := casAll_returns calls NewState rfl
  exact ⟨rfl, s', errs, h, hlen, casAll_absent k calls NewState s' errs rfl h⟩

/-- The first four calls of the engine's test. -/
def testCalls : List (GoString × ByteSlice × ByteSlice) :=
  [(ascii "a", none, some (ascii "alpha one")), (ascii "b", none, some (ascii "beta one")),
   (ascii "a", some (ascii "alpha one"), some (ascii "alpha two")),
   (ascii "b", none, some (ascii "should not work"))]

theorem C19_never_written_witness :
    ∃ s', NewState.casAll testCalls = .ok (s', [none, none, none, some Error.ErrCASFailure]) ∧
      s'.Get (ascii "x") = (none, some Error.ErrKeyNotFound) ∧
      s'.Get (ascii "b") = (some (ascii "beta one"), none) := by
  obtain ⟨_, s', errs, h, _, hx⟩ := C19_never_written_key_not_found (ascii "x") testCalls
  have he : NewState.casAll testCalls = .ok
      (({ data := some ⟨[(ascii "a", some (ascii "alpha two")),
            (ascii "b", some (ascii "beta one"))], by decide⟩,
          commitCount := 0, lastCommitHash := none } : State),
        [none, none, none, some Error.ErrCASFailure]) := by decide
  rw [he] at h
  simp only [Except.ok.injEq, Prod.mk.injEq] at h
  obtain ⟨rfl, rfl⟩ := h
  exact ⟨_, he, hx (by decide), by decide⟩

/-! ## The state engine: the first write of a key -/

/-- The engine holding `a` with an empty value. -/
def engineEmptyA : State :=
  { data := some ⟨[(ascii "a", some [])], by decide⟩, commitCount := 0, lastCommitHash := none }

/-- The engine holding `a = x`. -/
def engineXA : State :=
  { data := some ⟨[(ascii "a", some (ascii "x"))], by decide⟩
    commitCount := 0, lastCommitHash := none }

/-- C18 as stated fails when `v1` is empty: on a new engine
`CompareAndSwap("a", nil, [])` succeeds, the value of `a` is then still empty, and
the second call `CompareAndSwap("a", nil, "x")` succeeds too and leaves `x`. -/
theorem C18_second_cas_succeeds_after_empty_value :
    NewState.CompareAndSwap (ascii "a") none (some []) = .ok (engineEmptyA, none) ∧
    engineEmptyA.CompareAndSwap (ascii "a") none (some (ascii "x")) = .ok (engineXA, none) ∧
    engineXA.Get (ascii "a") = (some (ascii "x"), none) := by
  and_intros <;> decide

/-- C18, amended: on an engine whose map is not nil, for a key `k` that is absent or
holds an empty value, an empty `old`, a value `v1` that is not empty and any `v2`:
`CompareAndSwap(k, old, v1)` succeeds, a second `CompareAndSwap(k, old, v2)` right
after it returns `ErrCASFailure`, and `Get(k)` then still returns `v1`. -/
theorem C18_first_write_then_cas_failure (s : State) (m : GoMap) (hm : s.data = some m)
    (k : GoString) (old old' v1 v2 : ByteSlice)
    (hk : sliceBytes (s.Get k).1 = []) (hold : sliceBytes old = [])
    (hold' : sliceBytes old' = []) (hv1 : sliceBytes v1 ≠ []) :
    ∃ s1, s.CompareAndSwap k old v1 = .ok (s1, none) ∧
      s1.CompareAndSwap k old' v2 = .ok (s1, some Error.ErrCASFailure) ∧
      s1.Get k = (v1, none) := by
  obtain ⟨h1, _, h3⟩ := compareAndSwap_initialised s m hm k old v1
  obtain ⟨s1, hs1⟩ := h1.mpr (hk.trans hold.symm)
  have hget := h3 s1 hs1
  have hm1 : s1.data.isSome = true :=
    compareAndSwap_data_isSome s s1 k old v1 none hs1 (by rw [hm]; rfl)
  rcases hd : s1.data with _ | m1
  · rw [hd] at hm1
    cases hm1
  · obtain ⟨_, h2, _⟩ := compareAndSwap_initialised s1 m1 hd k old' v2
    refine ⟨s1, hs1, h2 ?_, hget⟩
    rw [hget, hold']
    exact hv1

theorem C18_first_write_witness :
    ∃ s1, NewState.CompareAndSwap (ascii "b") none (some (ascii "foo")) = .ok (s1, none) ∧
      s1.CompareAndSwap (ascii "b") (some []) (some (ascii "bar")) =
        .ok (s1, some Error.ErrCASFailure) ∧
      s1.Get (ascii "b") = (some (ascii "foo"), none) :=
  C18_first_write_then_cas_failure NewState GoMap.empty rfl (ascii "b") none (some [])
    (some (ascii "foo")) (some (ascii "bar")) (by decide) rfl rfl (by decide)

/-! ## Persistence at commit boundaries -/

/-- The application a run of calls leaves, when it returns. -/
def Application.after (a : Application) (qs : List Request) : Option Application :=
  match a.run qs with
  | .ok (b, _) => some b
  | .error _ => none

/-- What a new application, built from the bytes in the buffer that is the sink of
`b`, answers to a query. -/
def restoredQuery (b : Application) (d : ByteSlice) : Option ResponseQuery :=
  match NewApplication (some (bufferContents b.persist)) none with
  | .ok a => some (a.Query d)
  | .error _ => none

/-- A transaction that `DeliverTx` accepted is visible to `Query` on the running
application at once. -/
theorem Application.deliverTx_visible (a a' : Application) (p : Bytes) (key : GoString)
    (old new : Bytes) (r : ResponseDeliverTx) (hp : parsesAs p key old new)
    (h : a.DeliverTx p = .ok (a', r)) (hr : r.Code = CodeTypeOK) :
    a'.Query (some key) = { Code := CodeTypeOK, Key := some key, Value := some new, Log := "" } := by
  unfold Application.DeliverTx at h
  rw [parseTx_of_parsesAs p key old new hp] at h
  simp only [ne_eq, not_true_eq_false, if_false] at h
  rcases hc : a.consensus.CompareAndSwap key (some old) (some new) with e | ⟨c, _ | err⟩ <;>
    rw [hc] at h <;> cases h
  · rcases compareAndSwap_inv _ _ _ _ _ _ hc with ⟨he, _⟩ | ⟨_, _, m, _, rfl⟩
    · cases he
    · simp only [Application.Query, sliceBytes, get_set_same]
  · simp [codeCASFailure, CodeTypeOK] at hr

/-- The calls of the application's test: five transactions and a commit, then one
more transaction that is not committed. -/
def scenarioCalls : List Request :=
  [Request.BeginBlock, Request.DeliverTx (ascii "a::one"), Request.DeliverTx (ascii "a:one:two"),
   Request.DeliverTx (ascii "a:two:three"), Request.DeliverTx (ascii "b::foo"),
   Request.DeliverTx (ascii "b::bar"), Request.EndBlock, Request.Commit, Request.BeginBlock,
   Request.DeliverTx (ascii "a:three:four")]

/-- A transaction that writes `x` under the key made of the single byte 0xFF, and a
commit. -/
def lossyCalls : List Request :=
  [Request.BeginBlock, Request.DeliverTx [0xFF, 0x3A, 0x3A, 0x78], Request.EndBlock,
   Request.Commit]

/-- C15. In the scenario of the claim the running application answers `a = four`
and an application restored from the persisted bytes answers `a = three` and
`b = foo`. At the failing input, a committed transaction whose key is the byte
0xFF, the application answers the query for that key with OK and `x` right after
the commit, and an application restored from the persisted bytes answers it with
code 513 and no value: the key was persisted as U+FFFD. -/
theorem C15_restore_after_commit :
    (appNew.after scenarioCalls).map (fun b =>
        (b.Query (some (ascii "a")), restoredQuery b (some (ascii "a")),
          restoredQuery b (some (ascii "b")))) =
      some ({ Code := 0, Key := some (ascii "a"), Value := some (ascii "four"), Log := "" },
        some { Code := 0, Key := some (ascii "a"), Value := some (ascii "three"), Log := "" },
        some { Code := 0, Key := some (ascii "b"), Value := some (ascii "foo"), Log := "" }) ∧
    (appNew.after lossyCalls).map (fun b =>
        (b.Query (some [0xFF]), restoredQuery b (some [0xFF]))) =
      some ({ Code := 0, Key := some [0xFF], Value := some (ascii "x"), Log := "" },
        some { Code := 513, Key := some [0xFF], Value := none, Log := "key not found" }) := by
  and_intros <;> decide!

/-! ## Info -/

/-- The number of `Commit` calls among the calls. -/
def commitCalls : List Request → Nat
  | [] => 0
  | Request.Commit :: qs => commitCalls qs + 1
  | _ :: qs => commitCalls qs

/-- The `Data` of the last `Commit` answer among the answers, if there is one. -/
def lastCommitData : List Response → Option ByteSlice
  | [] => none
  | r :: rs =>
    match lastCommitData rs with
    | some d => some d
    | none =>
      match r with
      | Response.Commit c => some c.Data
      | _ => none

/-- What one call that returns does to the commit count and the hash of the
consensus engine: a `Commit` advances the count and answers with the new hash, any
other call leaves both alone. -/
theorem Application.handle_count_hash (a a' : Application) (q : Request) (r : Response)
    (h : a.handle q = .ok (a', r)) :
    (commitCalls [q] = 1 ∧
      a'.consensus.commitCount = wrapInt64 (a.consensus.commitCount + 1) ∧
      lastCommitData [r] = some a'.consensus.lastCommitHash) ∨
    (commitCalls [q] = 0 ∧ a'.consensus.commitCount = a.consensus.commitCount ∧
      a'.consensus.lastCommitHash = a.consensus.lastCommitHash ∧ lastCommitData [r] = none) := by
  cases q with
  | Commit =>
    left
    simp only [Application.handle] at h
    rcases hc : a.Commit with e | ⟨a1, r1⟩
    · rw [hc] at h
      cases h
    · rw [hc] at h
      simp only [Except.map, Except.ok.injEq, Prod.mk.injEq] at h
      obtain ⟨rfl, rfl⟩ := h
      obtain ⟨hok, ha1, hr1⟩ := Application.commit_inv a a1 r1 hc
      have hst := (commit_ok a.consensus a.persist hok).1
      subst ha1 hr1
      refine ⟨rfl, ?_, rfl⟩
      show (a.consensus.Commit a.persist).1.commitCount = _
      rw [hst]
  | DeliverTx p =>
    right
    simp only [Application.handle] at h
    rcases hc : a.DeliverTx p with e | ⟨a1, r1⟩
    · rw [hc] at h
      cases h
    · rw [hc] at h
      simp only [Except.map, Except.ok.injEq, Prod.mk.injEq] at h
      obtain ⟨rfl, rfl⟩ := h
      have hstep := (Application.deliverTx_ordered a a1 p r1 hc).1
      have hframe : (orderedStep a.consensus (Request.DeliverTx p)).1.commitCount =
            a.consensus.commitCount ∧
          (orderedStep a.consensus (Request.DeliverTx p)).1.lastCommitHash =
            a.consensus.lastCommitHash := by
        unfold orderedStep
        rcases hp : parseTx p with ⟨key, old, new, code, log⟩
        simp only [hp]
        by_cases hcode : code ≠ CodeTypeOK
        · simp only [if_pos hcode]
          exact ⟨by trivial, by trivial⟩
        · simp only [if_neg hcode]
          rcases hcas : a.consensus.CompareAndSwap key old new with e | ⟨c1, e⟩
          · exact ⟨by trivial, by trivial⟩
          · rcases compareAndSwap_inv a.consensus c1 key old new e hcas with
              ⟨rfl, rfl, _⟩ | ⟨rfl, _, m, _, rfl⟩ <;> exact ⟨by trivial, by trivial⟩
      rw [hstep]
      exact ⟨rfl, hframe.1, hframe.2, rfl⟩
  | CheckTx p =>
    right
    simp only [Application.handle] at h
    rcases hc : a.CheckTx p with e | ⟨a1, r1⟩
    · rw [hc] at h
      cases h
    · rw [hc] at h
      simp only [Except.map, Except.ok.injEq, Prod.mk.injEq] at h
      obtain ⟨rfl, rfl⟩ := h
      rw [(Application.checkTx_inv a a1 p r1 hc).1]
      exact ⟨rfl, rfl, rfl, rfl⟩
  | Info | SetOption | InitChain | Query d | BeginBlock | EndBlock =>
    right
    simp only [Application.handle, Except.ok.injEq, Prod.mk.injEq] at h
    obtain ⟨rfl, rfl⟩ := h
    exact ⟨rfl, rfl, rfl, rfl⟩

theorem commitCalls_cons (q : Request) (qs : List Request) :
    commitCalls (q :: qs) = commitCalls [q] + commitCalls qs := by
  cases q <;> simp [commitCalls, Nat.add_comm]

theorem lastCommitData_cons (r : Response) (rs : List Response) :
    lastCommitData (r :: rs) = (lastCommitData rs).orElse (fun _ => lastCommitData [r]) := by
  cases h : lastCommitData rs <;> cases r <;> simp [lastCommitData, h]

/-- The commit count and the hash of the consensus engine after a run that returns,
as long as the count stays an `int64`. -/
theorem Application.run_count_hash : ∀ (qs : List Request) (a b : Application)
    (rs : List Response), a.run qs = .ok (b, rs) →
    -2 ^ 63 ≤ a.consensus.commitCount →
    a.consensus.commitCount + commitCalls qs < 2 ^ 63 →
    b.consensus.commitCount = a.consensus.commitCount + commitCalls qs ∧
    (0 < commitCalls qs → lastCommitData rs = some b.consensus.lastCommitHash) ∧
    (commitCalls qs = 0 → b.consensus.lastCommitHash = a.consensus.lastCommitHash ∧
      lastCommitData rs = none)
  | [], a, b, rs, h, _, _ => by
      simp only [Application.run, Except.ok.injEq, Prod.mk.injEq] at h
      obtain ⟨rfl, rfl⟩ := h
      simp [commitCalls, lastCommitData]
  | q :: qs, a, b, rs, h, hlo, hhi => by
      simp only [Application.run] at h
      rcases hq : a.handle q with e | ⟨a1, r⟩
      · rw [hq] at h
        cases h
      · rw [hq] at h
        simp only at h
        rcases hrest : a1.run qs with e | ⟨a2, rs2⟩
        · rw [hrest] at h
          cases h
        · rw [hrest] at h
          simp only [Except.ok.injEq, Prod.mk.injEq] at h
          obtain ⟨rfl, rfl⟩ := h
          rw [commitCalls_cons] at hhi ⊢
          rw [lastCommitData_cons]
          rcases Application.handle_count_hash a a1 q r hq with
            ⟨hone, hcount, hlast⟩ | ⟨hzero, hcount, hhash, hlast⟩
          · rw [hone] at hhi ⊢
            have hw : a1.consensus.commitCount = a.consensus.commitCount + 1 := by
              rw [hcount]
              exact wrapInt64_of_inRange _ (by omega) (by omega)
            obtain ⟨ih1, ih2, ih3⟩ := Application.run_count_hash qs a1 a2 rs2 hrest
              (by omega) (by rw [hw]; push_cast at hhi ⊢; omega)
            refine ⟨by rw [ih1, hw]; push_cast; omega, fun _ => ?_, fun h0 => by omega⟩
            rcases Nat.eq_zero_or_pos (commitCalls qs) with h0 | hpos
            · rw [(ih3 h0).2, hlast, (ih3 h0).1]
              rfl
            · rw [ih2 hpos]
              rfl
          · rw [hzero] at hhi ⊢
            obtain ⟨ih1, ih2, ih3⟩ := Application.run_count_hash qs a1 a2 rs2 hrest
              (by rw [hcount]; exact hlo) (by rw [hcount]; push_cast at hhi ⊢; omega)
            refine ⟨by rw [ih1, hcount]; push_cast; omega, fun hpos => ?_, fun h0 => ?_⟩
            · rw [ih2 (by omega)]
              rfl
            · have h0' : commitCalls qs = 0 := by omega
              rw [(ih3 h0').1, (ih3 h0').2, hhash, hlast]
              exact ⟨rfl, rfl⟩

theorem NewApplication_none (persist : Option WriteCloser) :
    NewApplication none persist = .ok
      { mempool := copyState NewState NewState, consensus := NewState,
        persist := persist.getD (newNopWriteCloser Discard) } := rfl

/-- An application built from a reader holds what `Restore` made of its bytes. -/
theorem NewApplication_some (r : Bytes) (persist : Option WriteCloser) (a : Application)
    (h : NewApplication (some r) persist = .ok a) :
    ∃ v read, jsonDecode r = .ok (v, read) ∧ (NewState.Restore r).2 = none ∧
      a.consensus = (NewState.Restore r).1 ∧
      a.consensus = { data := v.Data, commitCount := v.CommitCount,
                      lastCommitHash := some (sha256 (r.take read)) } := by
  unfold NewApplication at h
  simp only at h
  unfold State.Restore at h ⊢
  rcases hd : jsonDecode r with e | ⟨v, read⟩
  · rw [hd] at h
    cases h
  · rw [hd] at h
    simp only [Except.ok.injEq] at h
    subst h
    exact ⟨v, read, rfl, rfl, rfl, rfl⟩

/-- The commit counts `Info` reports for an application built from the bytes
`initial`, before and after a run of calls. -/
def heightsAround (initial : Bytes) (qs : List Request) : Option (Int × Int) :=
  match NewApplication (some initial) none with
  | .ok a => (a.after qs).map (fun b => (a.Info.LastBlockHeight, b.Info.LastBlockHeight))
  | .error _ => none

/-- C17 as stated fails when the count reaches the largest `int64`: an application
built from persisted bytes whose stored commit count is 2^63 - 1 reports that
height, and after one further successful `Commit` it reports -2^63, not 2^63. -/
theorem C17_height_wraps_at_max :
    heightsAround maxCountSource [Request.Commit] = some (2 ^ 63 - 1, -2 ^ 63) ∧
    commitCalls [Request.Commit] = 1 := by
  and_intros <;> decide!

/-- C17, amended. `Info` leaves the application as it was and reports the commit
count and the hash of the consensus engine. For an application built without
initial state these are 0 and the nil hash. For one built from persisted bytes
they are the commit count the decoder reads from the bytes and the hash `Restore`
computes over the bytes it has read. After a run of calls with `m` of them `Commit`,
all returning, started at a height `n` that is an `int64` with `n + m < 2^63`, the
height is `n + m`, and the hash is the `Data` of the last `Commit` answer (when
`m` is zero, the hash it was before). -/
theorem C17_info_reports_count_and_digest (persist : Option WriteCloser) (r : Bytes)
    (a b : Application) (qs : List Request) (rs : List Response) :
    (∃ a0, NewApplication none persist = .ok a0 ∧ a0.Info.LastBlockHeight = 0 ∧
      a0.Info.LastBlockAppHash = none) ∧
    (NewApplication (some r) persist = .ok a →
      ∃ v read, jsonDecode r = .ok (v, read) ∧ a.Info.LastBlockHeight = v.CommitCount ∧
        a.Info.LastBlockAppHash = some (sha256 (r.take read)) ∧
        a.Info.LastBlockAppHash = (NewState.Restore r).1.Hash) ∧
    (a.run qs = .ok (b, rs) → -2 ^ 63 ≤ a.Info.LastBlockHeight →
      a.Info.LastBlockHeight + commitCalls qs < 2 ^ 63 →
      b.Info.LastBlockHeight = a.Info.LastBlockHeight + commitCalls qs ∧
      (0 < commitCalls qs → lastCommitData rs = some b.Info.LastBlockAppHash) ∧
      (commitCalls qs = 0 → b.Info.LastBlockAppHash = a.Info.LastBlockAppHash)) ∧
    a.handle Request.Info = .ok (a, Response.Info a.Info) := by
  refine ⟨⟨_, NewApplication_none persist, rfl, rfl⟩, ?_, ?_, rfl⟩
  · intro h
    obtain ⟨v, read, hd, _, hres, hc⟩ := NewApplication_some r persist a h
    refine ⟨v, read, hd, ?_, ?_, ?_⟩
    · simp only [Application.Info, State.Commits, hc]
    · simp only [Application.Info, State.Hash, hc]
    · simp only [Application.Info, hres]
  · intro hrun hlo hhi
    obtain ⟨h1, h2, h3⟩ := Application.run_count_hash qs a b rs hrun hlo hhi
    exact ⟨h1, h2, fun h0 => (h3 h0).1⟩

/-- The bytes the application's test persists. -/
def scenarioSource : Bytes :=
  ascii "\x7b\"data\":\x7b\"a\":\"dGhyZWU=\",\"b\":\"Zm9v\"\x7d,\"commit_count\":1\x7d\n"

/-- Two further blocks. -/
def twoBlocks : List Request :=
  [Request.BeginBlock, Request.DeliverTx (ascii "a:three:four"), Request.EndBlock,
   Request.Commit, Request.Info, Request.CheckTx (ascii "c::sea"), Request.BeginBlock,
   Request.DeliverTx (ascii "b:foo:bar"), Request.EndBlock, Request.Commit]

/-- The application the constructor builds from `scenarioSource`. -/
def appRestored : Application :=
  { mempool := copyState NewState (NewState.Restore scenarioSource).1,
    consensus := (NewState.Restore scenarioSource).1,
    persist := newNopWriteCloser Discard }

theorem C17_info_witness :
    NewApplication (some scenarioSource) none = .ok appRestored ∧
    appRestored.Info.LastBlockHeight = 1 ∧ commitCalls twoBlocks = 2 ∧
    (∃ v read, jsonDecode scenarioSource = .ok (v, read) ∧
      appRestored.Info.LastBlockHeight = v.CommitCount ∧
      appRestored.Info.LastBlockAppHash = some (sha256 (scenarioSource.take read)) ∧
      appRestored.Info.LastBlockAppHash = (NewState.Restore scenarioSource).1.Hash) ∧
    ∃ b rs, appRestored.run twoBlocks = .ok (b, rs) ∧
      b.Info.LastBlockHeight = appRestored.Info.LastBlockHeight + commitCalls twoBlocks ∧
      lastCommitData rs = some b.Info.LastBlockAppHash := by
  have hnew : NewApplication (some scenarioSource) none = .ok appRestored := rfl
  have hrun : ∃ p, appRestored.run twoBlocks = .ok p := ⟨_, rfl⟩
  obtain ⟨⟨b, rs⟩, hrun⟩ := hrun
  have h := C17_info_reports_count_and_digest none scenarioSource appRestored b twoBlocks rs
  have h3 := h.2.2.1 hrun (by decide!) (by decide!)
  exact ⟨hnew, by decide!, by decide, h.2.1 hnew, b, rs, hrun, h3.1, h3.2.1 (by decide)⟩


/-! ## A failed restore -/

/-- A source that breaks off in the middle of a value. -/
def truncatedSource : Bytes := ascii "\x7b\"data\":\x7b\"a\":\"dGhy"

/-- C21: when the bytes of the source cannot be decoded, `Restore` returns the
decoder's error and the engine it leaves is the one it was given (map, commit
count, hash, and so every `Get` answer); and `NewApplication` given such a source
as its initial state returns that error and no application. -/
theorem C21_failed_restore_leaves_engine_unchanged (s : State) (r : Bytes) (e : Error)
    (persist : Option WriteCloser) (h : jsonDecode r = .error e) :
    s.Restore r = (s, some e) ∧
    (s.Restore r).1.data = s.data ∧ (s.Restore r).1.Commits = s.Commits ∧
    (s.Restore r).1.Hash = s.Hash ∧ (∀ k, (s.Restore r).1.Get k = s.Get k) ∧
    NewApplication (some r) persist = .error e := by
  have hr : s.Restore r = (s, some e) := by
    simp only [State.Restore, h]
  have hn : NewState.Restore r = (NewState, some e) := by
    simp only [State.Restore, h]
  refine ⟨hr, ?_, ?_, ?_, ?_, ?_⟩
  · rw [hr]
  · rw [hr]
  · rw [hr]
  · intro k
    rw [hr]
  · simp only [NewApplication, hn]

theorem C21_failed_restore_witness :
    jsonDecode truncatedSource = .error Error.ErrUnexpectedEOF ∧
    engineAB.Restore truncatedSource = (engineAB, some Error.ErrUnexpectedEOF) ∧
    (engineAB.Restore truncatedSource).1.data = engineAB.data ∧
    (engineAB.Restore truncatedSource).1.Commits = engineAB.Commits ∧
    (engineAB.Restore truncatedSource).1.Hash = engineAB.Hash ∧
    (∀ k, (engineAB.Restore truncatedSource).1.Get k = engineAB.Get k) ∧
    NewApplication (some truncatedSource) none = .error Error.ErrUnexpectedEOF :=
  ⟨by decide,
    C21_failed_restore_leaves_engine_unchanged engineAB truncatedSource Error.ErrUnexpectedEOF
      none (by decide)⟩

/-! ## The wire format: what the client API sends -/

/-- The transaction `handleSet` of cas_api.go builds from the key of the request
and the form values `old` and `new`: `fmt.Sprintf("%s:%s:%s", key, old, new)`. -/
def handleSetData (key old new : GoString) : Bytes :=
  key ++ 0x3A :: (old ++ 0x3A :: new)

theorem handleSetData_count (key old new : GoString) :
    2 ≤ (handleSetData key old new).count 0x3A := by
  simp only [handleSetData, List.count_append, List.count_cons_self]
  omega

/-- C22: the transaction built from `key`, `old` and `new` always parses with code
OK; the parse gives back `key`, `old` and `new` exactly when neither `key` nor `old`
holds a `:` byte; when one of them does, the key or the old value of the parse
differs from the one supplied. -/
theorem C22_wire_format_round_trip (key old new : GoString) :
    (parseTx (handleSetData key old new) = (key, some old, some new, CodeTypeOK, "") ↔
      (0x3A : Byte) ∉ key ∧ (0x3A : Byte) ∉ old) ∧
    (parseTx (handleSetData key old new)).2.2.2.1 = CodeTypeOK ∧
    ((0x3A : Byte) ∈ key ∨ (0x3A : Byte) ∈ old →
      (parseTx (handleSetData key old new)).1 ≠ key ∨
      (parseTx (handleSetData key old new)).2.1 ≠ some old) := by
  rcases splitN_three (handleSetData key old new) with ⟨hc, _⟩ | ⟨_, k, o, n, hs, _, hk, ho⟩
  · have := handleSetData_count key old new
    omega
  · have hparse := parseTx_of_parsesAs (handleSetData key old new) k o n hs
    rw [hparse]
    refine ⟨⟨fun h => ?_, fun h => ?_⟩, rfl, fun h => ?_⟩
    · simp only [Prod.mk.injEq, Option.some.injEq, and_true] at h
      obtain ⟨rfl, rfl, _⟩ := h
      exact ⟨hk, ho⟩
    · have h3 : splitN 3 (handleSetData key old new) = [key, old, new] := by
        simp only [handleSetData, splitN, cutAtColon_append key _ h.1,
          cutAtColon_append old _ h.2]
      rw [h3] at hs
      simp only [List.cons.injEq, and_true] at hs
      obtain ⟨rfl, rfl, rfl⟩ := hs
      rfl
    · by_contra hne
      simp only [ne_eq, not_or, not_not, Option.some.injEq] at hne
      obtain ⟨rfl, rfl⟩ := hne
      rcases h with h | h
      · exact hk h
      · exact ho h


/-! ## Pre-validation against ordered application -/

/-- `DeliverTx` reads and writes the consensus engine only. -/
theorem Application.deliverTx_congr (a b : Application) (p : Bytes)
    (h : a.consensus = b.consensus) :
    (a.DeliverTx p).map (fun r => (r.1.consensus, r.2)) =
      (b.DeliverTx p).map (fun r => (r.1.consensus, r.2)) := by
  unfold Application.DeliverTx
  rcases parseTx p with ⟨key, old, new, code, log⟩
  simp only
  by_cases hc : code ≠ CodeTypeOK
  · simp only [if_pos hc, Except.map, h]
  · simp only [if_neg hc, h]
    rcases b.consensus.CompareAndSwap key old new with e | ⟨m, _ | err⟩ <;> rfl

/-- What a `DeliverTx` that returns has done to the consensus engine, by its code:
nothing unless the code is OK, and then it has written `new` under `key`. -/
theorem Application.deliverTx_effect (a a' : Application) (p : Bytes) (r : ResponseDeliverTx)
    (h : a.DeliverTx p = .ok (a', r)) :
    (r.Code ≠ CodeTypeOK → a'.consensus = a.consensus) ∧
    (r.Code = CodeTypeOK → ∃ key old new, parsesAs p key old new ∧
      a'.consensus.Get key = (some new, none) ∧
      (∀ k, k ≠ key → a'.consensus.Get k = a.consensus.Get k) ∧
      a'.consensus.Commits = a.consensus.Commits ∧ a'.consensus.Hash = a.consensus.Hash) := by
  by_cases hp : ∃ key old new, parsesAs p key old new
  · obtain ⟨key, old, new, hk⟩ := hp
    unfold Application.DeliverTx at h
    rw [parseTx_of_parsesAs p key old new hk] at h
    simp only [ne_eq, not_true_eq_false, if_false] at h
    rcases hc : a.consensus.CompareAndSwap key (some old) (some new) with e | ⟨c, _ | err⟩ <;>
      rw [hc] at h <;> cases h
    · rcases compareAndSwap_inv _ _ _ _ _ _ hc with ⟨he, _⟩ | ⟨_, _, m, hm, rfl⟩
      · cases he
      · refine ⟨fun hne => absurd rfl hne, fun _ => ⟨key, old, new, hk, ?_, ?_, rfl, rfl⟩⟩
        · exact get_set_same a.consensus m key (some new)
        · intro k hne
          exact get_set_other a.consensus m hm key (some new) k hne
    · rcases compareAndSwap_inv _ _ _ _ _ _ hc with ⟨_, rfl, _⟩ | ⟨he, _⟩
      · refine ⟨fun _ => rfl, fun hcode => ?_⟩
        simp [codeCASFailure, CodeTypeOK] at hcode
      · cases he
  · have hcode := parseTx_of_not_parses p hp
    unfold Application.DeliverTx at h
    rcases hq : parseTx p with ⟨key, old, new, code, log⟩
    rw [hq] at hcode h
    simp only at hcode
    subst hcode
    simp only [ne_eq, codeBadRequest, CodeTypeOK, OfNat.ofNat_ne_zero, not_false_eq_true,
      if_true, Except.ok.injEq, Prod.mk.injEq] at h
    obtain ⟨rfl, rfl⟩ := h
    refine ⟨fun _ => rfl, fun hcode => ?_⟩
    simp [CodeTypeOK] at hcode

/-- C23: on the application a new one becomes by `DeliverTx("a::one")`, the
transaction `a::two` gets OK from `CheckTx` and CAS-failure from `DeliverTx`; on
the one a new application becomes by `CheckTx("a::one")` it gets CAS-failure from
`CheckTx` and OK from `DeliverTx`. In every application state, what `DeliverTx(p)`
answers and the consensus engine it leaves are the same whatever the mempool
engine holds, and the same after a `CheckTx(p)` as without it; the consensus
engine is as before unless `DeliverTx` answers OK, and then `new` stands under
`key` and nothing else has changed. -/
theorem C23_check_and_deliver_can_disagree (a : Application) (p : Bytes) :
    (appNew.after [Request.DeliverTx (ascii "a::one")]).map (fun x =>
        (x.checkTxCode (ascii "a::two"), x.deliverTxCode (ascii "a::two"))) =
      some (some CodeTypeOK, some codeCASFailure) ∧
    (appNew.after [Request.CheckTx (ascii "a::one")]).map (fun x =>
        (x.checkTxCode (ascii "a::two"), x.deliverTxCode (ascii "a::two"))) =
      some (some codeCASFailure, some CodeTypeOK) ∧
    (∀ b : Application, b.consensus = a.consensus →
      (b.DeliverTx p).map (fun r => (r.1.consensus, r.2)) =
        (a.DeliverTx p).map (fun r => (r.1.consensus, r.2))) ∧
    (∀ a1 r1, a.CheckTx p = .ok (a1, r1) →
      (a1.DeliverTx p).map (fun r => (r.1.consensus, r.2)) =
        (a.DeliverTx p).map (fun r => (r.1.consensus, r.2))) ∧
    (∀ a' r, a.DeliverTx p = .ok (a', r) →
      (r.Code ≠ CodeTypeOK → a'.consensus = a.consensus) ∧
      (r.Code = CodeTypeOK → ∃ key old new, parsesAs p key old new ∧
        a'.consensus.Get key = (some new, none) ∧
        (∀ k, k ≠ key → a'.consensus.Get k = a.consensus.Get k) ∧
        a'.consensus.Commits = a.consensus.Commits ∧
        a'.consensus.Hash = a.consensus.Hash)) := by
  refine ⟨by decide, by decide, fun b hb => Application.deliverTx_congr b a p hb, ?_,
    fun a' r h => Application.deliverTx_effect a a' p r h⟩
  intro a1 r1 h1
  exact Application.deliverTx_congr a1 a p (Application.checkTx_inv a a1 p r1 h1).1

theorem C23_deliver_outcome_witness :
    ∃ key old new, parsesAs (ascii "a::one") key old new ∧
      appDelivered.consensus.Get key = (some new, none) ∧
      (∀ k, k ≠ key → appDelivered.consensus.Get k = appNew.consensus.Get k) ∧
      appDelivered.consensus.Commits = appNew.consensus.Commits ∧
      appDelivered.consensus.Hash = appNew.consensus.Hash :=
  ((C23_check_and_deliver_can_disagree appNew (ascii "a::one")).2.2.2.2 appDelivered
    { Code := 0, Log := "" } rfl).2 rfl

/-! ## Keys stay present -/

/-- A key that is present stays present over any sequence of `CompareAndSwap`
calls. -/
theorem casAll_present (x : GoString) :
    ∀ (calls : List (GoString × ByteSlice × ByteSlice)) (s s' : State)
      (errs : List (Option Error)),
      s.casAll calls = .ok (s', errs) → (mapIndex s.data x).isSome = true →
      (mapIndex s'.data x).isSome = true
  | [], s, s', errs, h, hx => by
      simp only [State.casAll, Except.ok.injEq, Prod.mk.injEq] at h
      rw [← h.1]
      exact hx
  | c :: cs, s, s', errs, h, hx => by
      simp only [State.casAll] at h
      rcases hc : s.CompareAndSwap c.1 c.2.1 c.2.2 with e | ⟨s1, e⟩
      · rw [hc] at h
        cases h
      · rw [hc] at h
        simp only at h
        rcases hr : s1.casAll cs with e' | ⟨s2, es⟩
        · rw [hr] at h
          cases h
        · rw [hr] at h
          simp only [Except.ok.injEq, Prod.mk.injEq] at h
          obtain ⟨rfl, rfl⟩ := h
          refine casAll_present x cs s1 s2 es hr ?_
          rcases compareAndSwap_inv s s1 c.1 c.2.1 c.2.2 e hc with
            ⟨_, rfl, _⟩ | ⟨_, _, m, hm, rfl⟩
          · exact hx
          · show (mapIndex (some (m.set c.1 c.2.2)) x).isSome = true
            rw [mapIndex_set]
            by_cases hxc : x = c.1
            · simp [hxc]
            · rw [if_neg hxc, ← hm]
              exact hx

/-- The application `NewApplication` builds from `noDataSource` (with no sink). -/
def appNoData : Application :=
  { mempool := copyState NewState (NewState.Restore noDataSource).1,
    consensus := (NewState.Restore noDataSource).1,
    persist := newNopWriteCloser Discard }

/-- C24. A `CompareAndSwap` that returns success leaves its key present: `Get`
returns the new value, empty or not, and no error. Over a sequence of
`CompareAndSwap` calls that returns, a key that is present stays present. On an
application whose consensus map is not nil, for a key `k` without a `:` that is
absent, `Query(k)` answers not-found, `DeliverTx("k::")` answers OK and `Query(k)`
then answers OK with an empty value. At the failing input, the application built
from a source without a `data` member, `Query("k")` answers not-found and
`DeliverTx("k::")` panics on the assignment to the nil map. -/
theorem C24_keys_stay_present (s s' : State) (key : GoString) (old new : ByteSlice)
    (calls : List (GoString × ByteSlice × ByteSlice)) (a : Application) (k : GoString) :
    (s.CompareAndSwap key old new = .ok (s', none) →
      s'.Get key = (new, none) ∧ (mapIndex s'.data key).isSome = true) ∧
    (∀ t errs, s.casAll calls = .ok (t, errs) →
      ∀ x, (mapIndex s.data x).isSome = true → (mapIndex t.data x).isSome = true) ∧
    ((0x3A : Byte) ∉ k → a.consensus.data.isSome = true → mapIndex a.consensus.data k = none →
      a.Query (some k) = { Code := codeBadRequest, Key := some k, Value := none,
                           Log := "key not found" } ∧
      ∃ a', a.DeliverTx (k ++ [0x3A, 0x3A]) = .ok (a', { Code := CodeTypeOK, Log := "" }) ∧
        a'.Query (some k) = { Code := CodeTypeOK, Key := some k, Value := some [], Log := "" }) ∧
    (NewApplication (some noDataSource) none = .ok appNoData ∧
      appNoData.Query (some (ascii "k")) =
        { Code := codeBadRequest, Key := some (ascii "k"), Value := none,
          Log := "key not found" } ∧
      appNoData.DeliverTx (ascii "k::") = .error Panic.assignmentToNilMap) := by
  refine ⟨fun h => ?_, fun t errs h x hx => casAll_present x calls s t errs h hx, ?_,
    rfl, by decide, rfl⟩
  · rcases compareAndSwap_inv s s' key old new none h with ⟨he, _⟩ | ⟨_, _, m, _, rfl⟩
    · cases he
    · refine ⟨get_set_same s m key new, ?_⟩
      show (mapIndex (some (m.set key new)) key).isSome = true
      simp [mapIndex_set]
  · intro hk hsome habs
    rcases hd : a.consensus.data with _ | m
    · rw [hd] at hsome
      cases hsome
    have hq : a.Query (some k) =
        { Code := codeBadRequest, Key := some k, Value := none, Log := "key not found" } := by
      simp only [Application.Query, State.Get, sliceBytes, habs]
      rfl
    have hparse : parsesAs (k ++ [0x3A, 0x3A]) k [] [] := by
      show splitN 3 (k ++ 0x3A :: ([] ++ 0x3A :: [])) = [k, [], []]
      simp only [splitN, cutAtColon_append k _ hk,
        cutAtColon_append [] _ (List.not_mem_nil _)]
    have hget : sliceBytes (a.consensus.Get k).1 = sliceBytes (some []) := by
      simp only [State.Get, habs]
      rfl
    obtain ⟨c, hc⟩ := (compareAndSwap_initialised a.consensus m hd k (some []) (some [])).1.mpr hget
    have hdel : a.DeliverTx (k ++ [0x3A, 0x3A]) =
        .ok ({ a with consensus := c }, { Code := CodeTypeOK, Log := "" }) := by
      unfold Application.DeliverTx
      rw [parseTx_of_parsesAs _ k [] [] hparse]
      simp only [ne_eq, not_true_eq_false, if_false, hc]
    exact ⟨hq, _, hdel,
      Application.deliverTx_visible a _ _ k [] [] _ hparse hdel rfl⟩

theorem C24_keys_stay_present_witness :
    appNew.Query (some (ascii "k")) =
        { Code := codeBadRequest, Key := some (ascii "k"), Value := none,
          Log := "key not found" } ∧
      ∃ a', appNew.DeliverTx (ascii "k" ++ [0x3A, 0x3A]) =
          .ok (a', { Code := CodeTypeOK, Log := "" }) ∧
        a'.Query (some (ascii "k")) =
          { Code := CodeTypeOK, Key := some (ascii "k"), Value := some [], Log := "" } :=
  (C24_keys_stay_present NewState NewState [] none none [] appNew (ascii "k")).2.2.1
    (by decide) rfl rfl

/-! ## Engines whose map is nil -/

/-- Sources `Restore` accepts that hold no map: the literal `null`, an empty object,
and an object whose `data` member is `null`. -/
def nilMapSources : List Bytes :=
  [ascii "null", ascii "\x7b\x7d", ascii "\x7b\"data\":null,\"commit_count\":1\x7d"]

/-- The application `NewApplication` builds from the literal `null` (with no sink). -/
def appNull : Application :=
  { mempool := copyState NewState (NewState.Restore (ascii "null")).1,
    consensus := (NewState.Restore (ascii "null")).1,
    persist := newNopWriteCloser Discard }

/-- C25. On every engine built from a new one by `CompareAndSwap` and `Commit`
calls, `CompareAndSwap` returns, with success or with `ErrCASFailure`. At the
failing inputs it does not: `Restore` accepts each of the sources `null`, an empty
object and an object with a `null` data member and leaves the engine with a nil
map, on which `CompareAndSwap("a", nil, "x")` panics on the map assignment; a
commit of such an engine writes a `null` data member, so restoring from its own
bytes leaves the map nil again; and on the application built from `null`,
`DeliverTx("a::x")` panics likewise. -/
theorem C25_compareAndSwap_faults_after_restore (s : State) (key : GoString)
    (old new : ByteSlice) :
    (s.Built → ∃ s' e, s.CompareAndSwap key old new = .ok (s', e) ∧
      (e = none ∨ e = some Error.ErrCASFailure)) ∧
    (∀ r ∈ nilMapSources, (NewState.Restore r).2 = none ∧ (NewState.Restore r).1.data = none ∧
      (NewState.Restore r).1.CompareAndSwap (ascii "a") none (some (ascii "x")) =
        .error Panic.assignmentToNilMap) ∧
    ((NewState.Restore (ascii "null")).1.commitBytes =
        ascii "\x7b\"data\":null,\"commit_count\":1\x7d\n" ∧
      (NewState.Restore (NewState.Restore (ascii "null")).1.commitBytes).1.data = none) ∧
    (NewApplication (some (ascii "null")) none = .ok appNull ∧
      appNull.DeliverTx (ascii "a::x") = .error Panic.assignmentToNilMap) := by
  refine ⟨fun hb => ?_, by decide, by decide, rfl, rfl⟩
  have hsome := hb.data_isSome
  rcases hd : s.data with _ | m
  · rw [hd] at hsome
    cases hsome
  obtain ⟨h1, h2, _⟩ := compareAndSwap_initialised s m hd key old new
  by_cases hc : sliceBytes ((s.Get key).1) = sliceBytes old
  · obtain ⟨s', hs'⟩ := h1.mpr hc
    exact ⟨s', none, hs', Or.inl rfl⟩
  · exact ⟨s, _, h2 hc, Or.inr rfl⟩


theorem C25_built_engine_witness :
    ∃ s' e, engineAB.CompareAndSwap (ascii "a") none (some (ascii "x")) = .ok (s', e) ∧
      (e = none ∨ e = some Error.ErrCASFailure) :=
  (C25_compareAndSwap_faults_after_restore engineAB (ascii "a") none (some (ascii "x"))).1
    engineAB_built

/-! ## Restoring from a sink that holds more than one commit -/

/-- The scanner steps of `scanBuf` over the bytes `l`, for as long as neither the
end of the top-level value nor an error is met: the scanner after the last byte. -/
def scanRun : Scanner → Bytes → Option Scanner
  | s, [] => some s
  | s, c :: rest =>
    let r := scanStep s c
    if r.2 = ScanCode.scanEnd then none
    else if r.2 = ScanCode.scanEndObject ∨ r.2 = ScanCode.scanEndArray then
      let r1 := scanStep r.1 0x20
      if r1.2 = ScanCode.scanEnd then none else scanRun r1.1 rest
    else if r.2 = ScanCode.scanError then none
    else scanRun r.1 rest

theorem scanBuf_of_scanRun : ∀ (l : Bytes) (s s' : Scanner) (i : Nat) (rest : Bytes),
    scanRun s l = some s' → scanBuf s i (l ++ rest) = scanBuf s' (i + l.length) rest
  | [], s, s', i, rest, h => by
      simp only [scanRun, Option.some.injEq] at h
      subst h
      rfl
  | c :: l, s, s', i, rest, h => by
      simp only [scanRun] at h
      simp only [List.cons_append, scanBuf, List.length_cons]
      by_cases h1 : (scanStep s c).2 = ScanCode.scanEnd
      · simp [h1] at h
      · rw [if_neg h1] at h ⊢
        by_cases h2 : (scanStep s c).2 = ScanCode.scanEndObject ∨
            (scanStep s c).2 = ScanCode.scanEndArray
        · rw [if_pos h2] at h ⊢
          by_cases h3 : (scanStep (scanStep s c).1 0x20).2 = ScanCode.scanEnd
          · simp [h3] at h
          · rw [if_neg h3] at h ⊢
            exact (scanBuf_of_scanRun l _ s' (i + 1) rest h).trans (by congr 1; omega)
        · rw [if_neg h2] at h ⊢
          by_cases h4 : (scanStep s c).2 = ScanCode.scanError
          · simp [h4] at h
          · rw [if_neg h4] at h ⊢
            exact (scanBuf_of_scanRun l _ s' (i + 1) rest h).trans (by congr 1; omega)

theorem scanRun_append : ∀ (l1 l2 : Bytes) (s : Scanner),
    scanRun s (l1 ++ l2) = (scanRun s l1).bind (fun s1 => scanRun s1 l2)
  | [], l2, s => rfl
  | c :: l1, l2, s => by
      simp only [List.cons_append, scanRun]
      split_ifs <;> simp [scanRun_append l1 l2]

/-- The scanner inside a string literal. -/
def inString (ps : List ParseState) : Scanner :=
  { step := Step.stateInString, parseState := ps }

/-- A byte a string literal holds as it is. -/
def plainByte (b : Byte) : Prop := 0x20 ≤ b.val ∧ b.val ≠ 0x22 ∧ b.val ≠ 0x5C

instance plainByte.decidable (b : Byte) : Decidable (plainByte b) :=
  inferInstanceAs (Decidable (0x20 ≤ b.val ∧ b.val ≠ 0x22 ∧ b.val ≠ 0x5C))

theorem scanRun_plain (ps : List ParseState) : ∀ l : Bytes, (∀ b ∈ l, plainByte b) →
    scanRun (inString ps) l = some (inString ps)
  | [], _ => rfl
  | c :: l, h => by
      obtain ⟨h1, h2, h3⟩ := h c (List.mem_cons_self _ _)
      have hlt : ¬ c.val < 0x20 := by omega
      have hstep : scanStep (inString ps) c = (inString ps, ScanCode.scanContinue) := by
        simp only [scanStep, inString, h2, h3, hlt, if_false]
      simp only [scanRun, hstep, reduceCtorEq, if_false, or_self]
      exact scanRun_plain ps l (fun b hb => h b (List.mem_cons_of_mem _ hb))

theorem ofNat_val (x : Nat) : (Fin.ofNat x : Byte).val = x % 256 := rfl

theorem isHex_hexDigit (n : Nat) (h : n < 16) : isHex (hexDigit n) = true := by
  interval_cases n <;> rfl

theorem scanRun_cons (s s' : Scanner) (c : Byte) (l : Bytes)
    (h : scanStep s c = (s', ScanCode.scanContinue)) : scanRun s (c :: l) = scanRun s' l := by
  simp only [scanRun, h, reduceCtorEq, if_false, or_self]

theorem scanRun_escapeAscii (ps : List ParseState) (b : Byte) (hb : b.val < 0x80) :
    scanRun (inString ps) (escapeAscii b) = some (inString ps) := by
  unfold escapeAscii
  by_cases hs : htmlSafe b = true
  · rw [if_pos hs]
    apply scanRun_plain
    intro x hx
    simp only [List.mem_singleton] at hx
    subst hx
    simp only [htmlSafe, Bool.and_eq_true, decide_eq_true_eq, bne_iff_ne, ne_eq] at hs
    exact ⟨hs.1.1.1.1.1.1, hs.1.1.1.1.2, hs.2⟩
  · rw [if_neg hs]
    have h1 := isHex_hexDigit (b.val / 16) (by omega)
    have h2 := isHex_hexDigit (b.val % 16) (by omega)
    split_ifs with c1 c2 c3 c4
    · rcases c1 with c1 | c1
      · have : b = 0x5C := Fin.ext c1
        subst this
        rfl
      · have : b = 0x22 := Fin.ext c1
        subst this
        rfl
    · rfl
    · rfl
    · rfl
    · show scanRun (inString ps) ([0x5C, 0x75, 0x30, 0x30] ++ [hexDigit (b.val / 16),
        hexDigit (b.val % 16)]) = _
      rw [scanRun_append]
      show scanRun ⟨Step.stateInStringEscU12, ps⟩ [hexDigit (b.val / 16),
        hexDigit (b.val % 16)] = _
      rw [scanRun_cons _ ⟨Step.stateInStringEscU123, ps⟩ _ _ (by
        simp only [scanStep, h1, if_true, Scanner.goto]),
        scanRun_cons _ (inString ps) _ _ (by
        simp only [scanStep, h2, if_true, Scanner.goto, inString])]
      rfl

/-- The bytes of a rune `decodeRune` accepts, after the first one, are 0x80 or
above. -/
theorem decodeRune_tail (b : Byte) (rest : Bytes) :
    ∀ x ∈ rest.take ((decodeRune (b :: rest)).2 - 1), 0x80 ≤ x.val := by
  rcases rest with _ | ⟨b1, _ | ⟨b2, _ | ⟨b3, r3⟩⟩⟩ <;>
    simp only [decodeRune] <;> split_ifs <;> simp_all [isCont] <;> omega

theorem plainByte_of_high (b : Byte) (h : 0x80 ≤ b.val) : plainByte b := by
  unfold plainByte
  omega

/-- The scanner stays inside the string literal over the bytes `encodeState.string`
writes between the quotes. -/
theorem scanRun_encodeStringFrom (ps : List ParseState) :
    ∀ (l : Bytes) (n : Nat) (keep : Bool),
      (keep = true → ∀ b ∈ l.take n, 0x80 ≤ b.val) →
      scanRun (inString ps) (encodeStringFrom n keep l) = some (inString ps)
  | [], n, keep, _ => by
      cases n <;> rfl
  | b :: rest, n + 1, keep, h => by
      have ih := scanRun_encodeStringFrom ps rest n keep (fun hk x hx =>
        h hk x (by rw [List.take_succ_cons]; exact List.mem_cons_of_mem _ hx))
      cases keep with
      | false =>
        simpa [encodeStringFrom] using ih
      | true =>
        have hb : plainByte b :=
          plainByte_of_high b (h rfl b (by rw [List.take_succ_cons]; exact List.mem_cons_self _ _))
        simp only [encodeStringFrom, if_true, scanRun_append, scanRun_plain ps [b]
          (fun x hx => by rw [List.mem_singleton.mp hx]; exact hb), Option.some_bind]
        exact ih
  | b :: rest, 0, keep, _ => by
      simp only [encodeStringFrom]
      split_ifs with h1 h2 h3
      · rw [scanRun_append, scanRun_escapeAscii ps b h1, Option.some_bind]
        exact scanRun_encodeStringFrom ps rest 0 true (fun _ x hx => by simp at hx)
      · rw [scanRun_append, show scanRun (inString ps) [0x5C, 0x75, 0x66, 0x66, 0x66, 0x64] =
          some (inString ps) from rfl, Option.some_bind]
        exact scanRun_encodeStringFrom ps rest 0 true (fun _ x hx => by simp at hx)
      · have hlit : scanRun (inString ps)
            [0x5C, 0x75, 0x32, 0x30, 0x32, hexDigit ((decodeRune (b :: rest)).1 % 16)] =
            some (inString ps) := by
          rcases h3 with h3 | h3 <;> rw [h3] <;> rfl
        rw [scanRun_append, hlit, Option.some_bind]
        exact scanRun_encodeStringFrom ps rest _ false (fun hk => by cases hk)
      · have hb : plainByte b := plainByte_of_high b (by omega)
        rw [show b :: encodeStringFrom ((decodeRune (b :: rest)).2 - 1) true rest =
          [b] ++ encodeStringFrom ((decodeRune (b :: rest)).2 - 1) true rest from rfl,
          scanRun_append, scanRun_plain ps [b]
            (fun x hx => by rw [List.mem_singleton.mp hx]; exact hb), Option.some_bind]
        exact scanRun_encodeStringFrom ps rest _ true (fun _ => decodeRune_tail b rest)

theorem b64Char_plain (n : Nat) : plainByte (b64Char n) := by
  unfold b64Char plainByte
  split_ifs <;> first | decide | (simp only [ofNat_val]; omega)

theorem base64Encode_plain : ∀ l : Bytes, ∀ b ∈ base64Encode l, plainByte b
  | [] => by simp [base64Encode]
  | [a] => by
      intro b hb
      simp only [base64Encode, List.mem_cons, List.mem_singleton, List.not_mem_nil, or_false] at hb
      rcases hb with rfl | rfl | rfl | rfl <;> first | exact b64Char_plain _ | decide
  | [a, c] => by
      intro b hb
      simp only [base64Encode, List.mem_cons, List.mem_singleton, List.not_mem_nil, or_false] at hb
      rcases hb with rfl | rfl | rfl | rfl <;> first | exact b64Char_plain _ | decide
  | a :: c :: d :: rest => by
      intro b hb
      simp only [base64Encode, List.mem_cons] at hb
      rcases hb with rfl | rfl | rfl | rfl | hb
      · exact b64Char_plain _
      · exact b64Char_plain _
      · exact b64Char_plain _
      · exact b64Char_plain _
      · exact base64Encode_plain rest b hb

/-- The digits `formatNatAux` writes start with a digit that is not `0`, unless the
number is zero and `0` is all that is written. -/
theorem formatNatAux_lead : ∀ (fuel n : Nat) (acc : Bytes), n < fuel →
    ∃ d ds, formatNatAux fuel n acc = d :: (ds ++ acc) ∧ (∀ x ∈ ds, isDigit x = true) ∧
      ((n = 0 ∧ d = 0x30 ∧ ds = []) ∨ (0 < n ∧ 0x31 ≤ d.val ∧ d.val ≤ 0x39))
  | 0, _, _, h => absurd h (Nat.not_lt_zero _)
  | fuel + 1, n, acc, h => by
      by_cases hn : n < 10
      · refine ⟨Fin.ofNat (0x30 + n), [], by simp [formatNatAux, hn], by simp, ?_⟩
        rcases Nat.eq_zero_or_pos n with h0 | h0
        · left
          subst h0
          exact ⟨rfl, rfl, rfl⟩
        · right
          rw [ofNat_val]
          omega
      · obtain ⟨d, ds, hds, hdig, hlead⟩ :=
          formatNatAux_lead fuel (n / 10) (Fin.ofNat (0x30 + n % 10) :: acc) (by omega)
        refine ⟨d, ds ++ [Fin.ofNat (0x30 + n % 10)], ?_, ?_, ?_⟩
        · simp [formatNatAux, hn, hds]
        · intro x hx
          rcases List.mem_append.mp hx with hx | hx
          · exact hdig x hx
          · rw [List.mem_singleton.mp hx]
            exact (digit_spec (n % 10) (Nat.mod_lt _ (by decide))).1
        · right
          rcases hlead with ⟨h0, _, _⟩ | ⟨_, h1, h2⟩
          · omega
          · exact ⟨by omega, h1, h2⟩

theorem scanRun_digits (ps : List ParseState) : ∀ l : Bytes, (∀ x ∈ l, isDigit x = true) →
    scanRun ⟨Step.state1, ps⟩ l = some ⟨Step.state1, ps⟩
  | [], _ => rfl
  | c :: l, h => by
      rw [scanRun_cons _ ⟨Step.state1, ps⟩ c l (by
        simp only [scanStep, h c (List.mem_cons_self _ _), if_true, Scanner.goto])]
      exact scanRun_digits ps l (fun x hx => h x (List.mem_cons_of_mem _ hx))

/-- From either of the two states in which a number may start, the scanner reads
the digits of `n` and is then inside the number. -/
theorem scanRun_formatNat (ps : List ParseState) (n : Nat) (st : Step)
    (hst : st = Step.stateBeginValue ∨ (st = Step.stateNeg ∧ 0 < n)) :
    scanRun ⟨st, ps⟩ (formatNat n) = some ⟨Step.state1, ps⟩ ∨
      scanRun ⟨st, ps⟩ (formatNat n) = some ⟨Step.state0, ps⟩ := by
  obtain ⟨d, ds, hds, hdig, hlead⟩ := formatNatAux_lead (n + 1) n [] (Nat.lt_succ_self n)
  rw [List.append_nil] at hds
  unfold formatNat
  rw [hds]
  rcases hlead with ⟨h0, rfl, rfl⟩ | ⟨hpos, h1, h2⟩
  · right
    rcases hst with rfl | ⟨_, hn⟩
    · rfl
    · omega
  · left
    have hne : ∀ k : Nat, k < 0x31 → ¬ d.val = k := fun k hk => by omega
    have hsp : isSpace d = false := by
      simp only [isSpace, Bool.or_eq_false_iff, decide_eq_false_iff_not]
      exact ⟨⟨⟨hne _ (by decide), hne _ (by decide)⟩, hne _ (by decide)⟩, hne _ (by decide)⟩
    have hstep : scanStep ⟨st, ps⟩ d = (⟨Step.state1, ps⟩, ScanCode.scanBeginLiteral) ∨
        scanStep ⟨st, ps⟩ d = (⟨Step.state1, ps⟩, ScanCode.scanContinue) := by
      rcases hst with rfl | ⟨rfl, _⟩
      · left
        have h7B : ¬ d.val = 0x7B := by omega
        have h5B : ¬ d.val = 0x5B := by omega
        have h74 : ¬ d.val = 0x74 := by omega
        have h66 : ¬ d.val = 0x66 := by omega
        have h6E : ¬ d.val = 0x6E := by omega
        simp only [scanStep, stateBeginValue, hsp, Bool.false_eq_true, if_false, h7B, h5B,
          hne 0x22 (by decide), hne 0x2D (by decide), hne 0x30 (by decide), h74, h66, h6E,
          h1, h2, and_self, if_true]
      · right
        simp only [scanStep, hne 0x30 (by decide), if_false, h1, h2, and_self, if_true,
          Scanner.goto]
    have hrun : scanRun ⟨st, ps⟩ (d :: ds) = scanRun ⟨Step.state1, ps⟩ ds := by
      rcases hstep with hstep | hstep
      · simp only [scanRun, hstep, reduceCtorEq, if_false, or_self]
      · exact scanRun_cons _ _ _ _ hstep
    rw [hrun]
    exact scanRun_digits ps ds hdig

theorem scanRun_formatInt (ps : List ParseState) (i : Int) :
    scanRun ⟨Step.stateBeginValue, ps⟩ (formatInt i) = some ⟨Step.state1, ps⟩ ∨
      scanRun ⟨Step.stateBeginValue, ps⟩ (formatInt i) = some ⟨Step.state0, ps⟩ := by
  unfold formatInt
  split_ifs with h
  · have hstep : scanRun ⟨Step.stateBeginValue, ps⟩ (0x2D :: formatNat i.natAbs) =
        scanRun ⟨Step.stateNeg, ps⟩ (formatNat i.natAbs) := rfl
    rw [hstep]
    exact scanRun_formatNat ps i.natAbs Step.stateNeg (Or.inr ⟨rfl, by omega⟩)
  · exact scanRun_formatNat ps i.toNat Step.stateBeginValue (Or.inl rfl)

/-- Over a quoted string of plain bytes the scanner goes from the start of a value
or of a key to the end of a value. -/
theorem scanRun_encodeValue (ps : List ParseState) (v : ByteSlice) :
    scanRun ⟨Step.stateBeginValue, ps⟩ (encodeValue v) = some ⟨Step.stateEndValue, ps⟩ := by
  cases v with
  | none => rfl
  | some b =>
    show scanRun ⟨Step.stateBeginValue, ps⟩ ([0x22] ++ (base64Encode b ++ [0x22])) = _
    rw [scanRun_append, show scanRun ⟨Step.stateBeginValue, ps⟩ [0x22] = some (inString ps)
      from rfl, Option.some_bind, scanRun_append, scanRun_plain ps _ (base64Encode_plain b)]
    rfl

/-- The two states in which the scanner awaits the key of an object member. -/
def awaitsKey (s : Scanner) : Prop :=
  s.parseState = [ParseState.parseObjectKey, ParseState.parseObjectValue] ∧
    (s.step = Step.stateBeginStringOrEmpty ∨ s.step = Step.stateBeginString)

theorem scanRun_encodeEntry (s : Scanner) (hs : awaitsKey s) (e : GoString × ByteSlice) :
    scanRun s (encodeEntry e) =
      some ⟨Step.stateEndValue, [ParseState.parseObjectValue, ParseState.parseObjectValue]⟩ := by
  have hopen : scanRun s [0x22] =
      some (inString [ParseState.parseObjectKey, ParseState.parseObjectValue]) := by
    obtain ⟨st, ps⟩ := s
    obtain ⟨hps, hst | hst⟩ := hs <;> simp only at hps hst <;> subst hps hst <;> rfl
  show scanRun s ([0x22] ++ (encodeStringFrom 0 true e.1 ++ [0x22]) ++ 0x3A :: encodeValue e.2) = _
  rw [List.append_assoc, scanRun_append, hopen, Option.some_bind, List.append_assoc,
    scanRun_append, scanRun_encodeStringFrom _ e.1 0 true (fun _ x hx => by simp at hx),
    Option.some_bind]
  show scanRun ⟨Step.stateBeginValue, [ParseState.parseObjectValue, ParseState.parseObjectValue]⟩
    (encodeValue e.2) = _
  exact scanRun_encodeValue _ e.2

theorem intercalate_cons_cons (sep a b : Bytes) (l : List Bytes) :
    List.intercalate sep (a :: b :: l) = a ++ (sep ++ List.intercalate sep (b :: l)) := by
  simp [List.intercalate]

/-- Over the members of a non-empty object and its closing brace the scanner goes
to the end of the value the object is. -/
theorem scanRun_members : ∀ (es : List (GoString × ByteSlice)) (s : Scanner), es ≠ [] →
    awaitsKey s →
    scanRun s (List.intercalate [0x2C] (es.map encodeEntry) ++ [0x7D]) =
      some ⟨Step.stateEndValue, [ParseState.parseObjectValue]⟩
  | [], _, h, _ => absurd rfl h
  | [e], s, _, hs => by
      rw [show List.intercalate [0x2C] ([e].map encodeEntry) = encodeEntry e by
        simp [List.intercalate], scanRun_append, scanRun_encodeEntry s hs e, Option.some_bind]
      rfl
  | e :: e2 :: es, s, _, hs => by
      rw [List.map_cons, List.map_cons, intercalate_cons_cons, List.append_assoc, scanRun_append,
        scanRun_encodeEntry s hs e, Option.some_bind, List.append_assoc]
      show scanRun ⟨Step.stateBeginString, [ParseState.parseObjectKey,
        ParseState.parseObjectValue]⟩ (List.intercalate [0x2C] ((e2 :: es).map encodeEntry)
          ++ [0x7D]) = _
      exact scanRun_members (e2 :: es) _ (List.cons_ne_nil _ _) ⟨rfl, Or.inr rfl⟩

theorem scanRun_encodeMap (d : Option GoMap) :
    scanRun ⟨Step.stateBeginValue, [ParseState.parseObjectValue]⟩ (encodeMap d) =
      some ⟨Step.stateEndValue, [ParseState.parseObjectValue]⟩ := by
  cases d with
  | none => rfl
  | some m =>
    simp only [encodeMap]
    rcases hes : m.entries.insertionSort entryLE with _ | ⟨e, es⟩
    · rfl
    · show scanRun _ ([0x7B] ++ _) = _
      rw [scanRun_append, show scanRun ⟨Step.stateBeginValue, [ParseState.parseObjectValue]⟩
        [0x7B] = some ⟨Step.stateBeginStringOrEmpty, [ParseState.parseObjectKey,
          ParseState.parseObjectValue]⟩ from rfl, Option.some_bind]
      exact scanRun_members (e :: es) ⟨Step.stateBeginStringOrEmpty,
        [ParseState.parseObjectKey, ParseState.parseObjectValue]⟩ (List.cons_ne_nil _ _)
        ⟨rfl, Or.inl rfl⟩

/-- The scanner finds the end of the value `Encode` has written at its closing
brace, whatever follows it. -/
theorem scanBuf_jsonEncode (v : serializationFormat) (rest : Bytes) :
    scanBuf Scanner.reset 0 (jsonEncode v ++ rest) =
      ScanOutcome.done ((jsonEncode v).length - 1) := by
  have hpre : scanRun Scanner.reset (0x7B :: ascii "\"data\":") =
      some ⟨Step.stateBeginValue, [ParseState.parseObjectValue]⟩ := by decide
  have hmid : scanRun ⟨Step.stateEndValue, [ParseState.parseObjectValue]⟩
      (ascii ",\"commit_count\":") =
      some ⟨Step.stateBeginValue, [ParseState.parseObjectValue]⟩ := by decide
  have hsplit : jsonEncode v = (0x7B :: ascii "\"data\":") ++ (encodeMap v.Data ++
      (ascii ",\"commit_count\":" ++ formatInt v.CommitCount)) ++ [0x7D, 0x0A] := by
    simp [jsonEncode, List.append_assoc]
  have hrun : ∃ st, (st = Step.state1 ∨ st = Step.state0) ∧
      scanRun Scanner.reset ((0x7B :: ascii "\"data\":") ++ (encodeMap v.Data ++
        (ascii ",\"commit_count\":" ++ formatInt v.CommitCount))) =
        some ⟨st, [ParseState.parseObjectValue]⟩ := by
    rw [scanRun_append, hpre, Option.some_bind, scanRun_append, scanRun_encodeMap,
      Option.some_bind, scanRun_append, hmid, Option.some_bind]
    rcases scanRun_formatInt [ParseState.parseObjectValue] v.CommitCount with h | h
    · exact ⟨_, Or.inl rfl, h⟩
    · exact ⟨_, Or.inr rfl, h⟩
  obtain ⟨st, hst, hrun⟩ := hrun
  rw [hsplit, List.append_assoc, scanBuf_of_scanRun _ _ _ 0 _ hrun]
  rcases hst with rfl | rfl
  · simp only [List.length_append, List.length_cons, List.length_nil, Nat.zero_add]
    rfl
  · simp only [List.length_append, List.length_cons, List.length_nil, Nat.zero_add]
    rfl


/-- When the scanner finds the end of the first value within `B` whatever follows,
`readValue` hands out the same value for `B` followed by `T` as for `B` alone. -/
theorem readValue_append (B T : Bytes) (n : Nat) (hn : n ≤ B.length)
    (h : ∀ rest, scanBuf Scanner.reset 0 (B ++ rest) = ScanOutcome.done n) :
    ∀ fuel cap : Nat, (readValue fuel (B ++ T) cap).map Prod.fst =
      (readValue fuel B cap).map Prod.fst
  | 0, _ => rfl
  | fuel + 1, cap => by
      rw [readValue_succ, readValue_succ]
      by_cases hcap : B.length ≤ cap
      · have h1 : (B ++ T).take cap = B ++ T.take (cap - B.length) := by
          rw [List.take_append_eq_append_take, List.take_of_length_le hcap]
        have h2 : B.take cap = B := List.take_of_length_le hcap
        have h3 := h []
        rw [List.append_nil] at h3
        rw [h1, h2, h (T.take (cap - B.length)), h3]
        simp only [Except.map, List.take_append_eq_append_take, Nat.sub_eq_zero_of_le hn,
          List.take_zero, List.append_nil]
      · have hlt : cap < B.length := by omega
        have h1 : (B ++ T).take cap = B.take cap := by
          rw [List.take_append_eq_append_take, Nat.sub_eq_zero_of_le (by omega), List.take_zero,
            List.append_nil]
        have h4 : ¬ (B ++ T).length ≤ cap := by
          rw [List.length_append]
          omega
        rw [h1]
        rcases scanBuf Scanner.reset 0 (B.take cap) with m | _ | sc
        · rfl
        · rfl
        · simp only [hcap, h4, if_false]
          exact readValue_append B T n hn h fuel (2 * cap + 512)

theorem jsonDecode_fst (src : Bytes) :
    (jsonDecode src).map Prod.fst =
      ((readValue (src.length + 1) src 512).map Prod.fst).bind unmarshal := by
  unfold jsonDecode
  rcases readValue (src.length + 1) src 512 with e | ⟨value, read⟩
  · rfl
  · simp only [Except.map, Except.bind]
    rcases unmarshal value with e | v <;> rfl

/-- Decoding the bytes `Encode` has written, followed by any other bytes, gives what
decoding them alone gives. -/
theorem jsonDecode_append (v : serializationFormat) (T : Bytes) :
    (jsonDecode (jsonEncode v ++ T)).map Prod.fst = (jsonDecode (jsonEncode v)).map Prod.fst := by
  have hlen : 1 ≤ (jsonEncode v).length := by
    simp [jsonEncode]
  have hl : (jsonEncode v ++ T).length = (jsonEncode v).length + T.length :=
    List.length_append _ _
  rw [jsonDecode_fst, jsonDecode_fst,
    readValue_append (jsonEncode v) T ((jsonEncode v).length - 1) (by omega)
      (scanBuf_jsonEncode v) _ 512,
    readValue_fuel (jsonEncode v) (jsonEncode v ++ T).length (jsonEncode v).length 512
      (by omega) (by omega)]

/-- The map, the commit count and the error of `Restore` depend on the decoded
value alone. -/
theorem restore_congr (t : State) (r1 r2 : Bytes)
    (h : (jsonDecode r1).map Prod.fst = (jsonDecode r2).map Prod.fst) :
    (t.Restore r1).2 = (t.Restore r2).2 ∧ (t.Restore r1).1.data = (t.Restore r2).1.data ∧
      (t.Restore r1).1.commitCount = (t.Restore r2).1.commitCount := by
  unfold State.Restore
  rcases h1 : jsonDecode r1 with e1 | ⟨v1, n1⟩ <;> rcases h2 : jsonDecode r2 with e2 | ⟨v2, n2⟩ <;>
    rw [h1, h2] at h <;> simp only [Except.map, Except.ok.injEq, Except.error.injEq,
      reduceCtorEq] at h
  · subst h
    exact ⟨rfl, rfl, rfl⟩
  · subst h
    exact ⟨rfl, rfl, rfl⟩

/-- Two transactions on the key `a`, each followed by a commit. -/
def twoCommits : List Request :=
  [Request.BeginBlock, Request.DeliverTx (ascii "a::one"), Request.EndBlock, Request.Commit,
   Request.BeginBlock, Request.DeliverTx (ascii "a:one:two"), Request.EndBlock, Request.Commit]

/-- C26: for the bytes `B` a successful `Commit` has handed to its sink and any
bytes `T`, `Restore` from `B` followed by `T` returns the error (none, when it
succeeds), the map and the commit count that `Restore` from `B` alone returns, so
every `Get` and `Commits` answer alike. So it is when two commits have gone into
the same buffer: the buffer holds the bytes of the first commit followed by those
of the second, the running engine answers `a = two` at commit count 2, and an
engine restored from the buffer answers `a = one` at commit count 1. -/
theorem C26_restore_reads_first_value (s t : State) (wc : WriteCloser) (T : Bytes) :
    ((s.Commit wc).2.2 = none →
      ∃ B : Bytes, (s.Commit wc).2.1.calls = wc.calls ++ [SinkCall.Write B, SinkCall.Close] ∧
        (t.Restore (B ++ T)).2 = (t.Restore B).2 ∧
        (t.Restore (B ++ T)).1.data = (t.Restore B).1.data ∧
        (t.Restore (B ++ T)).1.Commits = (t.Restore B).1.Commits ∧
        (∀ k, (t.Restore (B ++ T)).1.Get k = (t.Restore B).1.Get k)) ∧
    (appNew.after twoCommits).map (fun b =>
        (bufferContents b.persist, b.consensus.Get (ascii "a"), b.consensus.Commits)) =
      some (ascii "\x7b\"data\":\x7b\"a\":\"b25l\"\x7d,\"commit_count\":1\x7d\n" ++
          ascii "\x7b\"data\":\x7b\"a\":\"dHdv\"\x7d,\"commit_count\":2\x7d\n",
        (some (ascii "two"), none), 2) ∧
    (appNew.after twoCommits).map (fun b =>
        ((NewState.Restore (bufferContents b.persist)).2,
          (NewState.Restore (bufferContents b.persist)).1.Get (ascii "a"),
          (NewState.Restore (bufferContents b.persist)).1.Commits)) =
      some (none, (some (ascii "one"), none), 1) := by
  refine ⟨fun hok => ?_, by decide!, by decide!⟩
  obtain ⟨h1, h2, h3⟩ := restore_congr t (s.commitBytes ++ T) s.commitBytes
    (jsonDecode_append _ T)
  refine ⟨s.commitBytes, (commit_ok s wc hok).2, h1, h2, h3, fun k => ?_⟩
  simp only [State.Get, h2]

theorem C26_restore_witness :
    (engineA.Commit (newNopWriteCloser bufferWriter)).2.2 = none ∧
    ∃ B : Bytes, (engineA.Commit (newNopWriteCloser bufferWriter)).2.1.calls =
        (newNopWriteCloser bufferWriter).calls ++ [SinkCall.Write B, SinkCall.Close] ∧
      (NewState.Restore (B ++ engineB.commitBytes)).2 = (NewState.Restore B).2 ∧
      (NewState.Restore (B ++ engineB.commitBytes)).1.data = (NewState.Restore B).1.data ∧
      (NewState.Restore (B ++ engineB.commitBytes)).1.Commits =
        (NewState.Restore B).1.Commits ∧
      (∀ k, (NewState.Restore (B ++ engineB.commitBytes)).1.Get k =
        (NewState.Restore B).1.Get k) :=
  ⟨by decide!,
    (C26_restore_reads_first_value engineA NewState (newNopWriteCloser bufferWriter)
      engineB.commitBytes).1 (by decide!)⟩

end Cas
